import Mathlib

/-!
# Verification of the order-book matching core (`src/orderbook.cpp`)

This file gives a shallow embedding of the single-instrument limit order
book and its matching engine, and proves/refutes the specification claims
about it.

Modelling conventions, chosen to mirror the C++ source:

* `Price = std::int32_t` is modelled as `Int` (prices are only compared,
  never subject to arithmetic, so no wrap-around can occur);
  `Quantity = std::uint32_t` is modelled as `Nat`, with an explicit
  `% 2^32` exactly where the code performs modular arithmetic (the
  `std::accumulate` in `GetOrderInfos`); `OrderId = std::uint64_t` is
  modelled as `Nat` (ids are only compared for equality).
* `bids_ : std::map<Price, OrderPointers, std::greater>` is an association
  list sorted strictly descending by price; `asks_` ascending.  Each value
  is the FIFO list of resting orders of that price level.
* `orders_ : std::unordered_map<OrderId, OrderEntry>` is an association
  list from id to the data the code ever reads through the stored
  `OrderPointer`/iterator: the (immutable) order type, side and price, and
  the position of the order inside its level queue.  Since the book never
  holds two live orders with one id, the position is recovered by the id
  (`CancelOrder` erases the first queue element with the stored id, which
  is the element the C++ iterator denotes).  The mutable remaining
  quantity lives solely in the queues, which matches the C++ aliasing
  (index and queue share one `Order` object).
* The inner matching loop (`while (bids.size() && asks.size())`) is split
  into `ConsumeAsks` (one bid head against successive ask heads) and
  `MatchLevel` (successive bid heads); together they perform exactly the
  C++ sequence of head-to-head fills.  The C++ test
  `bid->IsFilled()` after `bid->Fill(quantity)` with
  `quantity = min(bidRem, askRem)` is equivalent to the pre-fill test
  `bidRem ≤ askRem`, which is what the total functions branch on; the
  `*E` functions below reproduce the post-fill test together with the
  guarded (throwing) `Order::Fill` literally, and are proved equal.
* The outer `while (true)` loop runs at most one iteration per price
  level (each iteration fully drains the best level of at least one
  side), so it is given the explicit iteration budget
  `bids.length + asks.length + 1`; `MatchLoop_exit` proves this budget
  always reaches the loop's natural exit condition.  On a malformed book
  holding an *empty* level queue the C++ loop would spin forever; the
  embedding exits instead (such books are unreachable, all reachable
  levels are non-empty).
* `Trade` records are built from the head orders' id/price/quantity
  before any pop, matching the values the C++ pushes.
-/

/-- `enum class OrderType` -/
inductive OrderType where
  | GoodTillCancel
  | FillandKill
deriving DecidableEq, Repr

/-- `enum class Side` -/
inductive Side where
  | Buy
  | Sell
deriving DecidableEq, Repr

/-- `class Order`: immutable type/id/side/price/initial quantity, mutable
remaining quantity.  The C++ constructor sets `remaining = initial`
(see `mkOrder`); the book operations below thread the record through
explicitly instead of mutating a shared object. -/
structure Order where
  orderType : OrderType
  orderId : Nat
  side : Side
  price : Int
  initialQuantity : Nat
  remainingQuantity : Nat
deriving DecidableEq, Repr

/-- The `Order` constructor: `remainingQuantity_{ quantity }` starts at
`initialQuantity_{ quantity }`. -/
def mkOrder (t : OrderType) (id : Nat) (sd : Side) (p : Int) (q : Nat) : Order :=
  ⟨t, id, sd, p, q, q⟩

/-- `struct TradeInfo`: one side of a trade. -/
structure TradeInfo where
  orderId : Nat
  price : Int
  quantity : Nat
deriving DecidableEq, Repr

/-- `class Trade`: the paired bid/ask trade records. -/
structure Trade where
  bidTrade : TradeInfo
  askTrade : TradeInfo
deriving DecidableEq, Repr

/-- `class OrderModify`. -/
structure OrderModify where
  orderId : Nat
  side : Side
  price : Int
  quantity : Nat
deriving DecidableEq, Repr

/-- `OrderModify::ToOrderPointer`: build a fresh order from the modify
descriptor and a supplied order type. -/
def OrderModify.ToOrderPointer (m : OrderModify) (t : OrderType) : Order :=
  mkOrder t m.orderId m.side m.price m.quantity

/-- The immutable data the book reads through an `OrderEntry`'s stored
`OrderPointer`: side and price (used by `CancelOrder`) and order type
(used by `MatchOrder`). -/
structure OrderEntry where
  orderType : OrderType
  side : Side
  price : Int
deriving DecidableEq, Repr

def OrderEntry.ofOrder (o : Order) : OrderEntry :=
  ⟨o.orderType, o.side, o.price⟩

/-- `class Orderbook`: `bids_` sorted descending by price, `asks_`
ascending, `orders_` the id index. -/
structure Orderbook where
  bids : List (Int × List Order)
  asks : List (Int × List Order)
  orders : List (Nat × OrderEntry)
deriving DecidableEq, Repr

def emptyOrderbook : Orderbook := ⟨[], [], []⟩

/-- `orders_.contains` / `orders_.at`: first (unique) entry with the key. -/
def lookupEntry : List (Nat × OrderEntry) → Nat → Option OrderEntry
  | [], _ => none
  | e :: rest, id => if e.1 = id then some e.2 else lookupEntry rest id

/-- `Orderbook::Size`. -/
def Orderbook.Size (s : Orderbook) : Nat := s.orders.length

/-- `Orderbook::CanMatch(side, price)`. -/
def CanMatch (s : Orderbook) (side : Side) (price : Int) : Bool :=
  match side with
  | Side.Buy =>
    match s.asks with
    | [] => false
    | (bestAsk, _) :: _ => decide (price ≥ bestAsk)
  | Side.Sell =>
    match s.bids with
    | [] => false
    | (bestBid, _) :: _ => decide (price ≤ bestBid)

/-- Result of running the inner matching loop with one bid head against
the ask queue of the best ask level: the surviving bid head (if the ask
queue ran out first), the surviving ask queue, the ids of fully-filled
ask orders (erased from `orders_`), and the trades pushed. -/
structure ConsumeResult where
  bidLeft : Option Order
  askQueue : List Order
  removed : List Nat
  trades : List Trade
deriving DecidableEq, Repr

/-- One bid head against successive ask heads, exactly the C++ inner
loop while the same bid order stays at the front:
`quantity = min(bidRem, askRem)`, fill both, pop whichever is filled,
push the trade carrying each order's own id and price.
`bidRem ≤ askRem` is the post-fill `bid->IsFilled()`, and
`askRem ≤ bidRem` is `ask->IsFilled()` (proved against the literal
guarded version below, `ConsumeAsksE_eq`). -/
def ConsumeAsks (bid : Order) : List Order → ConsumeResult
  | [] => ⟨some bid, [], [], []⟩
  | ask :: asks =>
    let quantity := min bid.remainingQuantity ask.remainingQuantity
    let trade : Trade :=
      ⟨⟨bid.orderId, bid.price, quantity⟩, ⟨ask.orderId, ask.price, quantity⟩⟩
    if bid.remainingQuantity ≤ ask.remainingQuantity then
      if ask.remainingQuantity ≤ bid.remainingQuantity then
        ⟨none, asks, [ask.orderId], [trade]⟩
      else
        ⟨none, { ask with remainingQuantity := ask.remainingQuantity - quantity } :: asks,
          [], [trade]⟩
    else
      let r := ConsumeAsks { bid with remainingQuantity := bid.remainingQuantity - quantity } asks
      ⟨r.bidLeft, r.askQueue, ask.orderId :: r.removed, trade :: r.trades⟩

/-- Result of the full inner loop over the two best level queues. -/
structure LevelResult where
  bidQueue : List Order
  askQueue : List Order
  removed : List Nat
  trades : List Trade
deriving DecidableEq, Repr

/-- The C++ inner loop `while (bids.size() && asks.size())` over the two
best level queues; successive bid heads are consumed by `ConsumeAsks`.
Fully-filled orders of either side are popped and their ids collected
(the C++ erases them from `orders_` on the spot; the erasures commute,
so they are applied at the end of the outer iteration). -/
def MatchLevel : List Order → List Order → LevelResult
  | [], asks => ⟨[], asks, [], []⟩
  | bid :: bids, asks =>
    let r := ConsumeAsks bid asks
    match r.bidLeft with
    | some bid' => ⟨bid' :: bids, r.askQueue, r.removed, r.trades⟩
    | none =>
      if r.askQueue.isEmpty then ⟨bids, [], bid.orderId :: r.removed, r.trades⟩
      else
        let r2 := MatchLevel bids r.askQueue
        ⟨r2.bidQueue, r2.askQueue, bid.orderId :: (r.removed ++ r2.removed),
          r.trades ++ r2.trades⟩

/-- Erase the first queue element carrying the given id — the element the
C++ `OrderEntry` iterator denotes (live ids are unique). -/
def eraseOrder : List Order → Nat → List Order
  | [], _ => []
  | o :: rest, id => if o.orderId = id then rest else o :: eraseOrder rest id

/-- Remove order `id` from the level keyed `price` and drop the level if
its queue becomes empty (`Orderbook::CancelOrder`, one side).  If no
level carries the key the C++ `at` would throw; such books are
unreachable and the embedding leaves the side unchanged. -/
def RemoveFromLevels : List (Int × List Order) → Int → Nat → List (Int × List Order)
  | [], _, _ => []
  | (p, q) :: rest, price, id =>
    if p = price then
      let q' := eraseOrder q id
      if q'.isEmpty then rest else (p, q') :: rest
    else (p, q) :: RemoveFromLevels rest price id

/-- `Orderbook::CancelOrder`. -/
def CancelOrder (s : Orderbook) (orderId : Nat) : Orderbook :=
  match lookupEntry s.orders orderId with
  | none => s
  | some entry =>
    let orders' := s.orders.filter (fun e => decide (e.1 ≠ orderId))
    match entry.side with
    | Side.Sell => { s with orders := orders', asks := RemoveFromLevels s.asks entry.price orderId }
    | Side.Buy => { s with orders := orders', bids := RemoveFromLevels s.bids entry.price orderId }

/-- The C++ outer loop `while (true)` in `Orderbook::MatchOrders`, with
an explicit iteration budget (each iteration that matches fully drains
the best level of at least one side, so `bids.length + asks.length + 1`
iterations always reach the natural exit; see `MatchLoop_exit`). -/
def MatchLoop : Nat → Orderbook → Orderbook × List Trade
  | 0, s => (s, [])
  | fuel + 1, s =>
    match s.bids, s.asks with
    | [], _ => (s, [])
    | _, [] => (s, [])
    | (bidPrice, bidQueue) :: restBids, (askPrice, askQueue) :: restAsks =>
      if bidPrice < askPrice then (s, [])
      else if bidQueue.isEmpty || askQueue.isEmpty then (s, [])
      else
        let r := MatchLevel bidQueue askQueue
        let bids' := if r.bidQueue.isEmpty then restBids else (bidPrice, r.bidQueue) :: restBids
        let asks' := if r.askQueue.isEmpty then restAsks else (askPrice, r.askQueue) :: restAsks
        let orders' := (s.orders.filter (fun e => decide (e.1 ∉ r.removed)))
        let rec' := MatchLoop fuel { bids := bids', asks := asks', orders := orders' }
        (rec'.1, r.trades ++ rec'.2)

/-- The post-loop fill-and-kill sweep: cancel the head order of the best
bid level if it is fill-and-kill, then likewise for the best ask level. -/
def FakSweep (s : Orderbook) : Orderbook :=
  let s1 :=
    match s.bids with
    | (_, order :: _) :: _ =>
      if order.orderType = OrderType.FillandKill then CancelOrder s order.orderId else s
    | _ => s
  match s1.asks with
  | (_, order :: _) :: _ =>
    if order.orderType = OrderType.FillandKill then CancelOrder s1 order.orderId else s1
  | _ => s1

/-- `Orderbook::MatchOrders`. -/
def MatchOrders (s : Orderbook) : Orderbook × List Trade :=
  let r := MatchLoop (s.bids.length + s.asks.length + 1) s
  (FakSweep r.1, r.2)

/-- `std::map operator[]` + `push_back`: append the order at the tail of
its price's queue, creating the level at its sorted position if absent.
`before` is the map's comparator (`>` for bids, `<` for asks). -/
def AddToLevels (before : Int → Int → Bool) :
    List (Int × List Order) → Order → List (Int × List Order)
  | [], ord => [(ord.price, [ord])]
  | (p, q) :: rest, ord =>
    if ord.price = p then (p, q ++ [ord]) :: rest
    else if before ord.price p then (ord.price, [ord]) :: (p, q) :: rest
    else (p, q) :: AddToLevels before rest ord

/-- `Orderbook::AddOrder`. -/
def AddOrder (s : Orderbook) (order : Order) : Orderbook × List Trade :=
  if (lookupEntry s.orders order.orderId).isSome then (s, [])
  else if order.orderType = OrderType.FillandKill ∧ CanMatch s order.side order.price = false then
    (s, [])
  else
    let s' :=
      match order.side with
      | Side.Buy =>
        { s with bids := AddToLevels (fun x y => decide (x > y)) s.bids order,
                 orders := s.orders ++ [(order.orderId, OrderEntry.ofOrder order)] }
      | Side.Sell =>
        { s with asks := AddToLevels (fun x y => decide (x < y)) s.asks order,
                 orders := s.orders ++ [(order.orderId, OrderEntry.ofOrder order)] }
    MatchOrders s'

/-- `Orderbook::MatchOrder` (modify): cancel-and-replace keeping the
existing order's type. -/
def MatchOrder (s : Orderbook) (m : OrderModify) : Orderbook × List Trade :=
  match lookupEntry s.orders m.orderId with
  | none => (s, [])
  | some entry => AddOrder (CancelOrder s m.orderId) (m.ToOrderPointer entry.orderType)

/-- The `std::accumulate` of `CreateLevelInfos`: running sum of the
remaining quantities in `Quantity` (`std::uint32_t`), hence reduced
`% 2^32` at every addition. -/
def LevelQuantity (q : List Order) : Nat :=
  q.foldl (fun acc o => (acc + o.remainingQuantity) % 4294967296) 0

/-- `struct LevelInfo`. -/
structure LevelInfo where
  price : Int
  quantity : Nat
deriving DecidableEq, Repr

/-- `Orderbook::GetOrderInfos` (the snapshot): per side, one
`(price, total remaining quantity)` pair per level, in the side's
storage order.  The C++ method is `const`; the embedding is a pure
function of the book. -/
def GetOrderInfos (s : Orderbook) : List LevelInfo × List LevelInfo :=
  (s.bids.map (fun l => ⟨l.1, LevelQuantity l.2⟩),
   s.asks.map (fun l => ⟨l.1, LevelQuantity l.2⟩))

/-- All live orders resting on one side, in book traversal order. -/
def SideOrders (levels : List (Int × List Order)) : List Order :=
  levels.flatMap (fun l => l.2)

/-- All live orders resting in the book. -/
def AllOrders (s : Orderbook) : List Order :=
  SideOrders s.bids ++ SideOrders s.asks

/-- Book states reachable from the empty book by the public operations:
submission of a freshly constructed order (`mkOrder`: remaining =
initial), cancellation, and modification. -/
inductive Reachable : Orderbook → Prop where
  | empty : Reachable emptyOrderbook
  | add {s} (t : OrderType) (id : Nat) (sd : Side) (p : Int) (q : Nat) :
      Reachable s → Reachable (AddOrder s (mkOrder t id sd p q)).1
  | cancel {s} (id : Nat) : Reachable s → Reachable (CancelOrder s id)
  | modify {s} (m : OrderModify) : Reachable s → Reachable (MatchOrder s m).1

/-- Reachability when every submitted or modified-to quantity is
positive (the amended form of the zero-remaining invariant needs this
restriction). -/
inductive ReachablePos : Orderbook → Prop where
  | empty : ReachablePos emptyOrderbook
  | add {s} (t : OrderType) (id : Nat) (sd : Side) (p : Int) {q : Nat} :
      0 < q → ReachablePos s → ReachablePos (AddOrder s (mkOrder t id sd p q)).1
  | cancel {s} (id : Nat) : ReachablePos s → ReachablePos (CancelOrder s id)
  | modify {s} {m : OrderModify} :
      0 < m.quantity → ReachablePos s → ReachablePos (MatchOrder s m).1

/-! ## The guarded fill pipeline

`Order::Fill` throws when asked to fill more than the remaining
quantity.  The `*E` functions below translate the matching pipeline with
this guard literally (`none` = the `std::logic_error` propagating out of
the public operation, or an impossible loop state); `AddOrderE_eq` /
`MatchOrderE_eq` prove that the guard never fires, on every book and
every input, so the total functions above are the exact semantics. -/

/-- `Order::Fill`, with the `quantity > remaining` guard. -/
def Order.Fill (o : Order) (quantity : Nat) : Option Order :=
  if quantity > o.remainingQuantity then none
  else some { o with remainingQuantity := o.remainingQuantity - quantity }

/-- `ConsumeAsks` with the literal guarded fills and post-fill
`IsFilled()` tests. -/
def ConsumeAsksE (bid : Order) : List Order → Option ConsumeResult
  | [] => some ⟨some bid, [], [], []⟩
  | ask :: asks =>
    let quantity := min bid.remainingQuantity ask.remainingQuantity
    let trade : Trade :=
      ⟨⟨bid.orderId, bid.price, quantity⟩, ⟨ask.orderId, ask.price, quantity⟩⟩
    match bid.Fill quantity, ask.Fill quantity with
    | some bid', some ask' =>
      if bid'.remainingQuantity = 0 then
        if ask'.remainingQuantity = 0 then some ⟨none, asks, [ask.orderId], [trade]⟩
        else some ⟨none, ask' :: asks, [], [trade]⟩
      else
        if ask'.remainingQuantity = 0 then
          match ConsumeAsksE bid' asks with
          | some r => some ⟨r.bidLeft, r.askQueue, ask.orderId :: r.removed, trade :: r.trades⟩
          | none => none
        else none
    | _, _ => none

/-- `MatchLevel` over the guarded pipeline. -/
def MatchLevelE : List Order → List Order → Option LevelResult
  | [], asks => some ⟨[], asks, [], []⟩
  | bid :: bids, asks =>
    match ConsumeAsksE bid asks with
    | none => none
    | some r =>
      match r.bidLeft with
      | some bid' => some ⟨bid' :: bids, r.askQueue, r.removed, r.trades⟩
      | none =>
        if r.askQueue.isEmpty then some ⟨bids, [], bid.orderId :: r.removed, r.trades⟩
        else
          match MatchLevelE bids r.askQueue with
          | none => none
          | some r2 =>
            some ⟨r2.bidQueue, r2.askQueue, bid.orderId :: (r.removed ++ r2.removed),
              r.trades ++ r2.trades⟩

/-- `MatchLoop` over the guarded pipeline. -/
def MatchLoopE : Nat → Orderbook → Option (Orderbook × List Trade)
  | 0, s => some (s, [])
  | fuel + 1, s =>
    match s.bids, s.asks with
    | [], _ => some (s, [])
    | _, [] => some (s, [])
    | (bidPrice, bidQueue) :: restBids, (askPrice, askQueue) :: restAsks =>
      if bidPrice < askPrice then some (s, [])
      else if bidQueue.isEmpty || askQueue.isEmpty then some (s, [])
      else
        match MatchLevelE bidQueue askQueue with
        | none => none
        | some r =>
          let bids' := if r.bidQueue.isEmpty then restBids else (bidPrice, r.bidQueue) :: restBids
          let asks' := if r.askQueue.isEmpty then restAsks else (askPrice, r.askQueue) :: restAsks
          let orders' := (s.orders.filter (fun e => decide (e.1 ∉ r.removed)))
          match MatchLoopE fuel { bids := bids', asks := asks', orders := orders' } with
          | none => none
          | some rec' => some (rec'.1, r.trades ++ rec'.2)

/-- `MatchOrders` over the guarded pipeline. -/
def MatchOrdersE (s : Orderbook) : Option (Orderbook × List Trade) :=
  match MatchLoopE (s.bids.length + s.asks.length + 1) s with
  | none => none
  | some r => some (FakSweep r.1, r.2)

/-- `AddOrder` over the guarded pipeline. -/
def AddOrderE (s : Orderbook) (order : Order) : Option (Orderbook × List Trade) :=
  if (lookupEntry s.orders order.orderId).isSome then some (s, [])
  else if order.orderType = OrderType.FillandKill ∧ CanMatch s order.side order.price = false then
    some (s, [])
  else
    let s' :=
      match order.side with
      | Side.Buy =>
        { s with bids := AddToLevels (fun x y => decide (x > y)) s.bids order,
                 orders := s.orders ++ [(order.orderId, OrderEntry.ofOrder order)] }
      | Side.Sell =>
        { s with asks := AddToLevels (fun x y => decide (x < y)) s.asks order,
                 orders := s.orders ++ [(order.orderId, OrderEntry.ofOrder order)] }
    MatchOrdersE s'

/-- `MatchOrder` (modify) over the guarded pipeline. -/
def MatchOrderE (s : Orderbook) (m : OrderModify) : Option (Orderbook × List Trade) :=
  match lookupEntry s.orders m.orderId with
  | none => some (s, [])
  | some entry => AddOrderE (CancelOrder s m.orderId) (m.ToOrderPointer entry.orderType)

theorem ConsumeAsksE_eq (bid : Order) (asks : List Order) :
    ConsumeAsksE bid asks = some (ConsumeAsks bid asks) := by
  induction asks generalizing bid with
  | nil => rfl
  | cons ask asks ih =>
    rcases Nat.lt_trichotomy bid.remainingQuantity ask.remainingQuantity with h | h | h
    · have hmin : min bid.remainingQuantity ask.remainingQuantity = bid.remainingQuantity := by
        omega
      have hb : bid.remainingQuantity ≤ ask.remainingQuantity := by omega
      have hna : ¬ ask.remainingQuantity ≤ bid.remainingQuantity := by omega
      have hng : ¬ ask.remainingQuantity < bid.remainingQuantity := by omega
      have hz : ¬ ask.remainingQuantity - bid.remainingQuantity = 0 := by omega
      simp [ConsumeAsksE, ConsumeAsks, Order.Fill, hmin, hb, hna, hng, hz]
    · have hmin : min bid.remainingQuantity ask.remainingQuantity = bid.remainingQuantity := by
        omega
      have hb : bid.remainingQuantity ≤ ask.remainingQuantity := by omega
      have ha : ask.remainingQuantity ≤ bid.remainingQuantity := by omega
      have hng : ¬ ask.remainingQuantity < bid.remainingQuantity := by omega
      have hz : ask.remainingQuantity - bid.remainingQuantity = 0 := by omega
      simp [ConsumeAsksE, ConsumeAsks, Order.Fill, hmin, hb, ha, hng, hz]
    · have hmin : min bid.remainingQuantity ask.remainingQuantity = ask.remainingQuantity := by
        omega
      have hnb : ¬ bid.remainingQuantity ≤ ask.remainingQuantity := by omega
      have hng : ¬ ask.remainingQuantity > bid.remainingQuantity := by omega
      have hz : ¬ bid.remainingQuantity - ask.remainingQuantity = 0 := by omega
      simp [ConsumeAsksE, ConsumeAsks, Order.Fill, hmin, hnb, hng, hz, ih]

theorem MatchLevelE_eq (bids asks : List Order) :
    MatchLevelE bids asks = some (MatchLevel bids asks) := by
  induction bids generalizing asks with
  | nil => rfl
  | cons bid bids ih =>
    simp only [MatchLevelE, MatchLevel, ConsumeAsksE_eq]
    cases h : (ConsumeAsks bid asks).bidLeft with
    | some bid' => rfl
    | none =>
      by_cases he : (ConsumeAsks bid asks).askQueue.isEmpty
      · simp [he]
      · simp [he, ih]

theorem MatchLoopE_eq (fuel : Nat) (s : Orderbook) :
    MatchLoopE fuel s = some (MatchLoop fuel s) := by
  induction fuel generalizing s with
  | zero => rfl
  | succ fuel ih =>
    simp only [MatchLoopE, MatchLoop]
    cases hb : s.bids with
    | nil => cases s.asks <;> rfl
    | cons bl restBids =>
      cases ha : s.asks with
      | nil => rfl
      | cons al restAsks =>
        obtain ⟨bidPrice, bidQueue⟩ := bl
        obtain ⟨askPrice, askQueue⟩ := al
        by_cases hlt : bidPrice < askPrice
        · simp [hlt]
        · by_cases hq : bidQueue.isEmpty || askQueue.isEmpty
          · simp [hlt, hq]
          · simp [hlt, hq, MatchLevelE_eq, ih]

theorem MatchOrdersE_eq (s : Orderbook) : MatchOrdersE s = some (MatchOrders s) := by
  simp [MatchOrdersE, MatchOrders, MatchLoopE_eq]

theorem AddOrderE_eq (s : Orderbook) (order : Order) :
    AddOrderE s order = some (AddOrder s order) := by
  simp only [AddOrderE, AddOrder]
  by_cases h1 : (lookupEntry s.orders order.orderId).isSome
  · simp [h1]
  · by_cases h2 :
      order.orderType = OrderType.FillandKill ∧ CanMatch s order.side order.price = false
    · simp [h1, h2]
    · simp only [if_neg h1, if_neg h2]
      cases order.side <;> exact MatchOrdersE_eq _

theorem MatchOrderE_eq (s : Orderbook) (m : OrderModify) :
    MatchOrderE s m = some (MatchOrder s m) := by
  simp only [MatchOrderE, MatchOrder]
  cases lookupEntry s.orders m.orderId with
  | none => rfl
  | some entry => exact AddOrderE_eq _ _

/-! ## Structure of head-first consumption

The matching loop only ever pops from the front of a level queue and
partially fills the new front.  `QueueCut q n q'` says `q'` is `q` with
its first `n` orders removed and, possibly, the remaining quantity of
the next order reduced (to a positive value). -/

def Order.setRem (o : Order) (r : Nat) : Order :=
  { o with remainingQuantity := r }

theorem Order.setRem_self (o : Order) : o.setRem o.remainingQuantity = o := rfl

theorem Order.setRem_setRem (o : Order) (r r' : Nat) :
    (o.setRem r).setRem r' = o.setRem r' := rfl

def QueueCut (q : List Order) (n : Nat) (q' : List Order) : Prop :=
  q' = q.drop n ∨
    ∃ b rest r, q.drop n = b :: rest ∧ 0 < r ∧ r ≤ b.remainingQuantity ∧
      q' = b.setRem r :: rest

theorem QueueCut.refl (q : List Order) : QueueCut q 0 q := Or.inl rfl

theorem QueueCut.cons {q q' : List Order} {n : Nat} (x : Order) (h : QueueCut q n q') :
    QueueCut (x :: q) (n + 1) q' := by
  rcases h with h | ⟨b, rest, r, hd, hr0, hrle, hq⟩
  · exact Or.inl h
  · exact Or.inr ⟨b, rest, r, hd, hr0, hrle, hq⟩

theorem QueueCut.ids {q q' : List Order} {n : Nat} (h : QueueCut q n q') :
    q'.map Order.orderId = (q.map Order.orderId).drop n := by
  rcases h with h | ⟨b, rest, r, hd, hr0, hrle, hq⟩
  · subst h; rw [List.map_drop]
  · subst hq
    have : (q.map Order.orderId).drop n = (q.drop n).map Order.orderId := by rw [List.map_drop]
    rw [this, hd]
    rfl

theorem QueueCut.mem {q q' : List Order} {n : Nat} (h : QueueCut q n q') :
    ∀ o' ∈ q', ∃ o ∈ q, o' = o.setRem o'.remainingQuantity ∧
      o'.remainingQuantity ≤ o.remainingQuantity := by
  rcases h with h | ⟨b, rest, r, hd, hr0, hrle, hq⟩
  · subst h
    intro o' ho'
    exact ⟨o', List.mem_of_mem_drop ho', (Order.setRem_self o').symm, le_refl _⟩
  · subst hq
    intro o' ho'
    rcases List.mem_cons.1 ho' with h' | h'
    · subst h'
      refine ⟨b, ?_, rfl, hrle⟩
      have : b ∈ q.drop n := by rw [hd]; exact List.mem_cons_self _ _
      exact List.mem_of_mem_drop this
    · refine ⟨o', ?_, (Order.setRem_self o').symm, le_refl _⟩
      have : o' ∈ q.drop n := by rw [hd]; exact List.mem_cons_of_mem _ h'
      exact List.mem_of_mem_drop this

theorem QueueCut.pos {q q' : List Order} {n : Nat} (h : QueueCut q n q')
    (hq : ∀ o ∈ q, 0 < o.remainingQuantity) : ∀ o' ∈ q', 0 < o'.remainingQuantity := by
  rcases h with h | ⟨b, rest, r, hd, hr0, hrle, hq'⟩
  · subst h; exact fun o' ho' => hq o' (List.mem_of_mem_drop ho')
  · subst hq'
    intro o' ho'
    rcases List.mem_cons.1 ho' with h' | h'
    · subst h'; exact hr0
    · have hmem : o' ∈ q.drop n := by
        rw [hd]; exact List.mem_cons_of_mem _ h'
      exact hq o' (List.mem_of_mem_drop hmem)

theorem QueueCut.trans {q q' q'' : List Order} {n m : Nat}
    (h : QueueCut q n q') (h' : QueueCut q' m q'') : QueueCut q (n + m) q'' := by
  rcases h with h | ⟨b, rest, r, hd, hr0, hrle, hq⟩
  · subst h
    rcases h' with h' | ⟨b, rest, r, hd, hr0, hrle, hq'⟩
    · exact Or.inl (h'.trans (List.drop_drop m n q))
    · rw [List.drop_drop] at hd
      exact Or.inr ⟨b, rest, r, hd, hr0, hrle, hq'⟩
  · subst hq
    cases m with
    | zero =>
      rcases h' with h' | ⟨b', rest', r', hd', hr0', hrle', hq'⟩
      · subst h'; exact Or.inr ⟨b, rest, r, hd, hr0, hrle, rfl⟩
      · simp only [List.drop_zero] at hd'
        rcases List.cons_eq_cons.1 hd' with ⟨hb, hrest⟩
        subst hrest
        refine Or.inr ⟨b, rest, r', hd, hr0', ?_, ?_⟩
        · have : r' ≤ (b.setRem r).remainingQuantity := hb ▸ hrle'
          exact le_trans this hrle
        · rw [hq', ← hb, Order.setRem_setRem]
    | succ m' =>
      have hrest : rest = q.drop (n + 1) := by
        have := congrArg List.tail hd
        simpa using this.symm
      have hdrop : q'' = rest.drop m' ∨
          ∃ b' rest' r', rest.drop m' = b' :: rest' ∧ 0 < r' ∧
            r' ≤ b'.remainingQuantity ∧ q'' = b'.setRem r' :: rest' := by
        rcases h' with h' | ⟨b', rest', r', hd', hr0', hrle', hq'⟩
        · exact Or.inl (by simpa using h')
        · exact Or.inr ⟨b', rest', r', by simpa using hd', hr0', hrle', hq'⟩
      have hq2 : rest.drop m' = q.drop (n + (m' + 1)) := by
        rw [hrest, List.drop_drop]
        congr 1
        omega
      rcases hdrop with h' | ⟨b', rest', r', hd', hr0', hrle', hq'⟩
      · exact Or.inl (by rw [h', hq2])
      · exact Or.inr ⟨b', rest', r', by rw [← hq2]; exact hd', hr0', hrle', hq'⟩

/-- Shape of one `ConsumeAsks` run: the removed ids are exactly the ids
of a consumed prefix of the ask queue, the surviving ask queue is the
corresponding cut, and a surviving bid head is the input bid with a
reduced (or untouched) remaining quantity, returned only when the ask
queue was exhausted. -/
theorem ConsumeAsks_spec (bid : Order) (asks : List Order) :
    ∃ n ≤ asks.length,
      (ConsumeAsks bid asks).removed = (asks.take n).map Order.orderId ∧
      QueueCut asks n (ConsumeAsks bid asks).askQueue ∧
      (∀ b', (ConsumeAsks bid asks).bidLeft = some b' →
        (ConsumeAsks bid asks).askQueue = [] ∧ n = asks.length ∧
        ∃ rb, (rb = bid.remainingQuantity ∨ 0 < rb) ∧ rb ≤ bid.remainingQuantity ∧
          b' = bid.setRem rb) := by
  induction asks generalizing bid with
  | nil =>
    refine ⟨0, Nat.le_refl _, rfl, QueueCut.refl _, ?_⟩
    intro b' hb'
    simp only [ConsumeAsks] at hb'
    refine ⟨rfl, rfl, bid.remainingQuantity, Or.inl rfl, le_refl _, ?_⟩
    rw [Order.setRem_self]
    exact (Option.some.injEq _ _ ▸ hb').symm
  | cons ask asks ih =>
    by_cases hb : bid.remainingQuantity ≤ ask.remainingQuantity
    · by_cases ha : ask.remainingQuantity ≤ bid.remainingQuantity
      · refine ⟨1, by simp, ?_, ?_, ?_⟩
        · simp [ConsumeAsks, hb, ha]
        · simp only [ConsumeAsks, hb, ha, if_pos]
          exact Or.inl rfl
        · intro b' hb'
          simp [ConsumeAsks, hb, ha] at hb'
      · have hmin : min bid.remainingQuantity ask.remainingQuantity = bid.remainingQuantity := by
          omega
        refine ⟨0, Nat.zero_le _, ?_, ?_, ?_⟩
        · simp [ConsumeAsks, hb, ha]
        · simp only [ConsumeAsks, hb, ha, if_pos, if_neg, not_false_iff, hmin]
          exact Or.inr ⟨ask, asks, ask.remainingQuantity - bid.remainingQuantity, rfl,
            by omega, by omega, rfl⟩
        · intro b' hb'
          simp [ConsumeAsks, hb, ha] at hb'
    · obtain ⟨n, hn, hrm, hcut, hleft⟩ :=
        ih (bid.setRem (bid.remainingQuantity - min bid.remainingQuantity ask.remainingQuantity))
      refine ⟨n + 1, by simpa using Nat.succ_le_succ hn, ?_, ?_, ?_⟩
      · simp only [ConsumeAsks, hb, if_neg, not_false_iff, List.take_succ_cons, List.map_cons]
        exact congrArg (ask.orderId :: ·) hrm
      · simp only [ConsumeAsks, hb, if_neg, not_false_iff]
        exact QueueCut.cons ask hcut
      · intro b' hb'
        have hb'2 : (ConsumeAsks (bid.setRem
            (bid.remainingQuantity - min bid.remainingQuantity ask.remainingQuantity))
            asks).bidLeft = some b' := by
          simpa [ConsumeAsks, hb, Order.setRem] using hb'
        obtain ⟨he, hne, rb, hrb, hrble, hbeq⟩ := hleft b' hb'2
        refine ⟨?_, by simpa using hne, rb, ?_, ?_, ?_⟩
        · simpa [ConsumeAsks, hb, Order.setRem] using he
        · right
          rcases hrb with h | h
          · rw [h]; simp only [Order.setRem]; omega
          · exact h
        · simp only [Order.setRem] at hrble; omega
        · rw [hbeq, Order.setRem_setRem]

/-- Every trade produced by `ConsumeAsks` pairs the bid head (own id and
price) with some member of the ask queue (own id and price), records the
same quantity on both sides, and that quantity is bounded by both
orders' remaining quantities on entry. -/
theorem ConsumeAsks_trades (bid : Order) (asks : List Order) :
    ∀ t ∈ (ConsumeAsks bid asks).trades,
      t.bidTrade.orderId = bid.orderId ∧ t.bidTrade.price = bid.price ∧
      t.askTrade.quantity = t.bidTrade.quantity ∧
      t.bidTrade.quantity ≤ bid.remainingQuantity ∧
      ∃ a ∈ asks, t.askTrade.orderId = a.orderId ∧ t.askTrade.price = a.price ∧
        t.askTrade.quantity ≤ a.remainingQuantity := by
  induction asks generalizing bid with
  | nil => intro t ht; simp [ConsumeAsks] at ht
  | cons ask asks ih =>
    intro t ht
    by_cases hb : bid.remainingQuantity ≤ ask.remainingQuantity
    · by_cases ha : ask.remainingQuantity ≤ bid.remainingQuantity
      · simp only [ConsumeAsks, hb, ha, if_pos, List.mem_singleton] at ht
        subst ht
        exact ⟨rfl, rfl, rfl, by simp, ask, List.mem_cons_self _ _, rfl, rfl,
          by simp⟩
      · simp only [ConsumeAsks, hb, ha, if_pos, if_neg, not_false_iff,
          List.mem_singleton] at ht
        subst ht
        exact ⟨rfl, rfl, rfl, by simp, ask, List.mem_cons_self _ _, rfl, rfl,
          by simp⟩
    · simp only [ConsumeAsks, hb, if_neg, not_false_iff, List.mem_cons] at ht
      rcases ht with ht | ht
      · subst ht
        exact ⟨rfl, rfl, rfl, by simp, ask, List.mem_cons_self _ _, rfl, rfl,
          by simp⟩
      · obtain ⟨h1, h2, h3, h4, a, ha', h5, h6, h7⟩ := ih _ t ht
        refine ⟨by simpa using h1, by simpa using h2, h3, ?_,
          a, List.mem_cons_of_mem _ ha', h5, h6, h7⟩
        simp only [Order.setRem] at h4
        omega

/-- `ConsumeAsks` with a non-empty ask queue produces at least one trade. -/
theorem ConsumeAsks_trades_ne (bid : Order) (ask : Order) (asks : List Order) :
    (ConsumeAsks bid (ask :: asks)).trades ≠ [] := by
  by_cases hb : bid.remainingQuantity ≤ ask.remainingQuantity
  · by_cases ha : ask.remainingQuantity ≤ bid.remainingQuantity
    · simp [ConsumeAsks, hb, ha]
    · simp [ConsumeAsks, hb, ha]
  · simp [ConsumeAsks, hb]

theorem QueueCut.length {q q' : List Order} {n : Nat} (h : QueueCut q n q') :
    q'.length = q.length - n := by
  have := congrArg List.length h.ids
  simpa using this

/-- The inner loop ends only when one of the two level queues has been
fully drained. -/
theorem MatchLevel_oneEmpty (bids asks : List Order) :
    (MatchLevel bids asks).bidQueue = [] ∨ (MatchLevel bids asks).askQueue = [] := by
  induction bids generalizing asks with
  | nil => exact Or.inl rfl
  | cons bid bids ih =>
    cases hsome : (ConsumeAsks bid asks).bidLeft with
    | some bid' =>
      obtain ⟨n, _, _, _, hleft⟩ := ConsumeAsks_spec bid asks
      obtain ⟨he, _, _⟩ := hleft bid' hsome
      simp only [MatchLevel, hsome]
      exact Or.inr he
    | none =>
      by_cases he : (ConsumeAsks bid asks).askQueue.isEmpty
      · simp only [MatchLevel, hsome, he, if_pos]
        simp
      · simp only [MatchLevel, hsome, he, if_neg, Bool.false_eq_true, not_false_iff]
        exact ih _

/-- Shape of one `MatchLevel` run: each queue is cut head-first, and the
removed ids are exactly the ids of the two consumed prefixes. -/
theorem MatchLevel_spec (bids asks : List Order) :
    ∃ k ≤ bids.length, ∃ n ≤ asks.length,
      QueueCut bids k (MatchLevel bids asks).bidQueue ∧
      QueueCut asks n (MatchLevel bids asks).askQueue ∧
      (∀ id, id ∈ (MatchLevel bids asks).removed ↔
        (id ∈ ((bids.map Order.orderId).take k) ∨ id ∈ ((asks.map Order.orderId).take n))) := by
  induction bids generalizing asks with
  | nil =>
    exact ⟨0, Nat.zero_le _, 0, Nat.zero_le _, QueueCut.refl _, QueueCut.refl _, by simp [MatchLevel]⟩
  | cons bid bids ih =>
    obtain ⟨n1, hn1, hrm, hcut, hleft⟩ := ConsumeAsks_spec bid asks
    cases hsome : (ConsumeAsks bid asks).bidLeft with
    | some bid' =>
      obtain ⟨he, hlen, rb, hrb, hrble, hbeq⟩ := hleft bid' hsome
      refine ⟨0, Nat.zero_le _, n1, hn1, ?_, ?_, ?_⟩
      · simp only [MatchLevel, hsome]
        rcases hrb with h | h
        · subst h
          rw [hbeq, Order.setRem_self]
          exact Or.inl rfl
        · exact Or.inr ⟨bid, bids, rb, rfl, h, hrble, by rw [hbeq]⟩
      · simp only [MatchLevel, hsome]
        exact hcut
      · intro id
        simp only [MatchLevel, hsome, hrm, List.take_zero, List.map_take,
          List.not_mem_nil, false_or]
    | none =>
      by_cases he : (ConsumeAsks bid asks).askQueue.isEmpty
      · refine ⟨1, by simp, n1, hn1, ?_, ?_, ?_⟩
        · simp only [MatchLevel, hsome, he, if_pos]
          exact Or.inl rfl
        · simp only [MatchLevel, hsome, he, if_pos]
          rw [List.isEmpty_iff] at he
          rcases hcut with h | ⟨b, rest, r, hd, hr0, hrle, hq⟩
          · exact Or.inl (he.symm.trans h)
          · rw [he] at hq
            exact absurd hq (by simp)
        · intro id
          simp only [MatchLevel, hsome, he, if_pos, hrm, List.mem_cons, List.map_cons,
            List.map_take, List.take_succ_cons, List.take_zero,
            List.not_mem_nil, or_false, List.mem_singleton]
      · obtain ⟨k2, hk2, n2, hn2, hcutb, hcuta, hiff⟩ := ih (ConsumeAsks bid asks).askQueue
        have hids : (ConsumeAsks bid asks).askQueue.map Order.orderId =
            (asks.map Order.orderId).drop n1 := hcut.ids
        have hlen1 : (ConsumeAsks bid asks).askQueue.length = asks.length - n1 := hcut.length
        refine ⟨k2 + 1, by simpa using Nat.succ_le_succ hk2, n1 + n2, by omega, ?_, ?_, ?_⟩
        · simp only [MatchLevel, hsome, he, if_neg, Bool.false_eq_true, not_false_iff]
          exact QueueCut.cons bid hcutb
        · simp only [MatchLevel, hsome, he, if_neg, Bool.false_eq_true, not_false_iff]
          exact hcut.trans hcuta
        · intro id
          simp only [MatchLevel, hsome, he, if_neg, Bool.false_eq_true, not_false_iff,
            List.mem_cons, List.mem_append, hiff, hrm, hids, List.map_cons,
            List.take_succ_cons, List.take_add, List.map_take]
          tauto

/-- Every trade produced by `MatchLevel` pairs a member of the bid queue
with a member of the ask queue, each contributing its own id and price,
with equal quantities bounded by the orders' remaining quantities. -/
theorem MatchLevel_trades (bids asks : List Order) :
    ∀ t ∈ (MatchLevel bids asks).trades,
      t.askTrade.quantity = t.bidTrade.quantity ∧
      (∃ b ∈ bids, t.bidTrade.orderId = b.orderId ∧ t.bidTrade.price = b.price ∧
        t.bidTrade.quantity ≤ b.remainingQuantity) ∧
      (∃ a ∈ asks, t.askTrade.orderId = a.orderId ∧ t.askTrade.price = a.price ∧
        t.askTrade.quantity ≤ a.remainingQuantity) := by
  induction bids generalizing asks with
  | nil => intro t ht; simp [MatchLevel] at ht
  | cons bid bids ih =>
    have hca : ∀ t ∈ (ConsumeAsks bid asks).trades,
        t.askTrade.quantity = t.bidTrade.quantity ∧
        (∃ b ∈ bid :: bids, t.bidTrade.orderId = b.orderId ∧ t.bidTrade.price = b.price ∧
          t.bidTrade.quantity ≤ b.remainingQuantity) ∧
        (∃ a ∈ asks, t.askTrade.orderId = a.orderId ∧ t.askTrade.price = a.price ∧
          t.askTrade.quantity ≤ a.remainingQuantity) := by
      intro t ht
      obtain ⟨h1, h2, h3, h4, a, ha, h5, h6, h7⟩ := ConsumeAsks_trades bid asks t ht
      exact ⟨h3.symm ▸ h3, ⟨bid, List.mem_cons_self _ _, h1, h2, h4⟩, a, ha, h5, h6, h7⟩
    intro t ht
    cases hsome : (ConsumeAsks bid asks).bidLeft with
    | some bid' =>
      simp only [MatchLevel, hsome] at ht
      exact hca t ht
    | none =>
      by_cases he : (ConsumeAsks bid asks).askQueue.isEmpty
      · simp only [MatchLevel, hsome, he, if_pos] at ht
        exact hca t ht
      · simp only [MatchLevel, hsome, he, if_neg, Bool.false_eq_true, not_false_iff,
          List.mem_append] at ht
        rcases ht with ht | ht
        · exact hca t ht
        · obtain ⟨n1, hn1, hrm, hcut, hleft⟩ := ConsumeAsks_spec bid asks
          obtain ⟨h1, ⟨b, hb, h2⟩, a', ha', h3, h4, h5⟩ := ih _ t ht
          obtain ⟨a, ha, haeq, hale⟩ := hcut.mem a' ha'
          refine ⟨h1, ⟨b, List.mem_cons_of_mem _ hb, h2⟩, a, ha, ?_, ?_, ?_⟩
          · rw [h3, haeq]; rfl
          · rw [h4, haeq]; rfl
          · exact le_trans h5 hale

/-- The inner loop over two non-empty level queues produces at least one
trade. -/
theorem MatchLevel_trades_ne (bid : Order) (bids : List Order) (ask : Order)
    (asks : List Order) : (MatchLevel (bid :: bids) (ask :: asks)).trades ≠ [] := by
  have hne := ConsumeAsks_trades_ne bid ask asks
  cases hsome : (ConsumeAsks bid (ask :: asks)).bidLeft with
  | some bid' => simp only [MatchLevel, hsome]; exact hne
  | none =>
    by_cases he : (ConsumeAsks bid (ask :: asks)).askQueue.isEmpty
    · simp only [MatchLevel, hsome, he, if_pos]
      exact hne
    · simp only [MatchLevel, hsome, he, if_neg, Bool.false_eq_true, not_false_iff]
      simp only [ne_eq, List.append_eq_nil, not_and]
      intro h
      exact absurd h hne

@[simp] theorem SideOrders_nil : SideOrders [] = [] := rfl

@[simp] theorem SideOrders_cons (l : Int × List Order) (rest : List (Int × List Order)) :
    SideOrders (l :: rest) = l.2 ++ SideOrders rest := by
  simp [SideOrders]

/-- The outer loop consumes whole best levels, then possibly cuts into
one further level: a side after matching is a suffix of the side before
it, with the first surviving level possibly replaced by a head-first cut
(with the same price key and a non-empty queue). -/
def SideCut (ls ls' : List (Int × List Order)) : Prop :=
  ∃ m, ls' = ls.drop m ∨
    ∃ p q rest n q', ls.drop m = (p, q) :: rest ∧ QueueCut q n q' ∧ q' ≠ [] ∧
      ls' = (p, q') :: rest

theorem SideCut.refl_self (ls : List (Int × List Order)) : SideCut ls ls := ⟨0, Or.inl rfl⟩

theorem SideCut.trans_cut {l1 l2 l3 : List (Int × List Order)}
    (h : SideCut l1 l2) (h' : SideCut l2 l3) : SideCut l1 l3 := by
  obtain ⟨m, h⟩ := h
  obtain ⟨m', h'⟩ := h'
  rcases h with h | ⟨p, q, rest, n, q', hd, hcut, hne, hq⟩
  · subst h
    rcases h' with h' | ⟨p, q, rest, n, q', hd, hcut, hne, hq⟩
    · exact ⟨m + m', Or.inl (by rw [h', List.drop_drop])⟩
    · rw [List.drop_drop] at hd
      exact ⟨m + m', Or.inr ⟨p, q, rest, n, q', hd, hcut, hne, hq⟩⟩
  · subst hq
    cases m' with
    | zero =>
      rcases h' with h' | ⟨p', q2, rest', n', q'', hd', hcut', hne', hq'⟩
      · simp only [List.drop_zero] at h'
        subst h'
        exact ⟨m, Or.inr ⟨p, q, rest, n, q', hd, hcut, hne, rfl⟩⟩
      · simp only [List.drop_zero] at hd'
        rcases List.cons_eq_cons.1 hd' with ⟨hpq, hrest⟩
        rcases Prod.mk.injEq .. ▸ hpq with ⟨hp', hq2⟩
        subst hrest
        refine ⟨m, Or.inr ⟨p, q, rest, n + n', q'', hd, ?_, hne', by rw [hq', hp']⟩⟩
        exact hcut.trans (hq2 ▸ hcut')
    | succ m'' =>
      have hrest : rest = l1.drop (m + 1) := by
        have := congrArg List.tail hd
        simpa using this.symm
      have hq2 : rest.drop m'' = l1.drop (m + 1 + m'') := by
        rw [hrest, List.drop_drop]
      rcases h' with h' | ⟨p', q2, rest', n', q'', hd', hcut', hne', hq'⟩
      · refine ⟨m + 1 + m'', Or.inl ?_⟩
        rw [← hq2]
        simpa using h'
      · refine ⟨m + 1 + m'', Or.inr ⟨p', q2, rest', n', q'', ?_, hcut', hne', hq'⟩⟩
        rw [← hq2]
        simpa using hd'

/-- Every level surviving a `SideCut` is either an untouched input level
or the input level with the same key whose queue was cut (non-empty). -/
theorem SideCut.mem_rel {ls ls' : List (Int × List Order)} (h : SideCut ls ls') :
    ∀ l' ∈ ls', l' ∈ ls ∨
      ∃ q n, (l'.1, q) ∈ ls ∧ QueueCut q n l'.2 ∧ l'.2 ≠ [] := by
  obtain ⟨m, h⟩ := h
  rcases h with h | ⟨p, q, rest, n, q', hd, hcut, hne, hq⟩
  · subst h
    intro l' hl'
    exact Or.inl (List.mem_of_mem_drop hl')
  · subst hq
    intro l' hl'
    rcases List.mem_cons.1 hl' with h' | h'
    · subst h'
      refine Or.inr ⟨q, n, ?_, hcut, hne⟩
      have : (p, q) ∈ ls.drop m := by rw [hd]; exact List.mem_cons_self _ _
      exact List.mem_of_mem_drop this
    · refine Or.inl ?_
      have : l' ∈ ls.drop m := by rw [hd]; exact List.mem_cons_of_mem _ h'
      exact List.mem_of_mem_drop this

/-- The price keys surviving a `SideCut` are a tail of the input keys. -/
theorem SideCut.keys {ls ls' : List (Int × List Order)} (h : SideCut ls ls') :
    ∃ m, ls'.map Prod.fst = (ls.map Prod.fst).drop m := by
  obtain ⟨m, h⟩ := h
  rcases h with h | ⟨p, q, rest, n, q', hd, hcut, hne, hq⟩
  · exact ⟨m, by rw [h, List.map_drop]⟩
  · refine ⟨m, ?_⟩
    rw [hq, ← List.map_drop, hd]
    rfl

/-- The state the outer loop continues with after one matching
iteration on the two best levels. -/
def StepBook (s : Orderbook) (bp : Int) (bq : List Order)
    (restB : List (Int × List Order)) (ap : Int) (aq : List Order)
    (restA : List (Int × List Order)) : Orderbook :=
  { bids := if (MatchLevel bq aq).bidQueue.isEmpty then restB
      else (bp, (MatchLevel bq aq).bidQueue) :: restB,
    asks := if (MatchLevel bq aq).askQueue.isEmpty then restA
      else (ap, (MatchLevel bq aq).askQueue) :: restA,
    orders := s.orders.filter (fun e => decide (e.1 ∉ (MatchLevel bq aq).removed)) }

theorem MatchLoop_zero (s : Orderbook) : MatchLoop 0 s = (s, []) := rfl

theorem MatchLoop_exit_bids (fuel : Nat) (s : Orderbook) (h : s.bids = []) :
    MatchLoop fuel s = (s, []) := by
  cases fuel with
  | zero => rfl
  | succ fuel => cases ha : s.asks <;> simp [MatchLoop, h, ha]

theorem MatchLoop_exit_asks (fuel : Nat) (s : Orderbook) (h : s.asks = []) :
    MatchLoop fuel s = (s, []) := by
  cases fuel with
  | zero => rfl
  | succ fuel => cases hb : s.bids <;> simp [MatchLoop, h, hb]

theorem MatchLoop_exit_crossed (fuel : Nat) (s : Orderbook) {bp : Int} {bq : List Order}
    {restB : List (Int × List Order)} {ap : Int} {aq : List Order}
    {restA : List (Int × List Order)}
    (hb : s.bids = (bp, bq) :: restB) (ha : s.asks = (ap, aq) :: restA)
    (hlt : bp < ap) : MatchLoop fuel s = (s, []) := by
  cases fuel with
  | zero => rfl
  | succ fuel => simp [MatchLoop, hb, ha, hlt]

theorem MatchLoop_exit_degenerate (fuel : Nat) (s : Orderbook) {bp : Int} {bq : List Order}
    {restB : List (Int × List Order)} {ap : Int} {aq : List Order}
    {restA : List (Int × List Order)}
    (hb : s.bids = (bp, bq) :: restB) (ha : s.asks = (ap, aq) :: restA)
    (hdeg : bq = [] ∨ aq = []) : MatchLoop fuel s = (s, []) := by
  cases fuel with
  | zero => rfl
  | succ fuel =>
    have : (bq.isEmpty || aq.isEmpty) = true := by
      rcases hdeg with h | h <;> simp [h]
    by_cases hlt : bp < ap
    · simp [MatchLoop, hb, ha, hlt]
    · simp [MatchLoop, hb, ha, hlt, this]

theorem MatchLoop_step (fuel : Nat) (s : Orderbook) {bp : Int} {bq : List Order}
    {restB : List (Int × List Order)} {ap : Int} {aq : List Order}
    {restA : List (Int × List Order)}
    (hb : s.bids = (bp, bq) :: restB) (ha : s.asks = (ap, aq) :: restA)
    (hlt : ¬ bp < ap) (hbq : bq ≠ []) (haq : aq ≠ []) :
    MatchLoop (fuel + 1) s =
      ((MatchLoop fuel (StepBook s bp bq restB ap aq restA)).1,
        (MatchLevel bq aq).trades ++ (MatchLoop fuel (StepBook s bp bq restB ap aq restA)).2) := by
  have hdeg : (bq.isEmpty || aq.isEmpty) = false := by
    simp [List.isEmpty_iff, hbq, haq]
  simp [MatchLoop, hb, ha, hlt, hdeg, StepBook]

theorem StepBook_bids_cut (s : Orderbook) (bp : Int) (bq : List Order)
    (restB : List (Int × List Order)) (ap : Int) (aq : List Order)
    (restA : List (Int × List Order)) :
    SideCut ((bp, bq) :: restB) (StepBook s bp bq restB ap aq restA).bids := by
  obtain ⟨k, hk, n, hn, hcutb, hcuta, hiff⟩ := MatchLevel_spec bq aq
  by_cases he : (MatchLevel bq aq).bidQueue.isEmpty
  · refine ⟨1, Or.inl ?_⟩
    simp [StepBook, he]
  · refine ⟨0, Or.inr ⟨bp, bq, restB, k, (MatchLevel bq aq).bidQueue, rfl, hcutb,
      by simpa [List.isEmpty_iff] using he, ?_⟩⟩
    simp [StepBook, he]

theorem StepBook_asks_cut (s : Orderbook) (bp : Int) (bq : List Order)
    (restB : List (Int × List Order)) (ap : Int) (aq : List Order)
    (restA : List (Int × List Order)) :
    SideCut ((ap, aq) :: restA) (StepBook s bp bq restB ap aq restA).asks := by
  obtain ⟨k, hk, n, hn, hcutb, hcuta, hiff⟩ := MatchLevel_spec bq aq
  by_cases he : (MatchLevel bq aq).askQueue.isEmpty
  · refine ⟨1, Or.inl ?_⟩
    simp [StepBook, he]
  · refine ⟨0, Or.inr ⟨ap, aq, restA, n, (MatchLevel bq aq).askQueue, rfl, hcuta,
      by simpa [List.isEmpty_iff] using he, ?_⟩⟩
    simp [StepBook, he]

/-- Each side of the book after the matching loop is a `SideCut` of the
side before it (whatever the iteration budget). -/
theorem SideCut_of_eq {l1 l2 : List (Int × List Order)} (h : l1 = l2) : SideCut l1 l2 :=
  h ▸ SideCut.refl_self l1

theorem MatchLoop_cut (fuel : Nat) (s : Orderbook) :
    SideCut s.bids (MatchLoop fuel s).1.bids ∧ SideCut s.asks (MatchLoop fuel s).1.asks := by
  induction fuel generalizing s with
  | zero => exact ⟨SideCut.refl_self _, SideCut.refl_self _⟩
  | succ fuel ih =>
    cases hb : s.bids with
    | nil =>
      rw [MatchLoop_exit_bids _ _ hb]
      exact ⟨SideCut_of_eq hb.symm, SideCut.refl_self s.asks⟩
    | cons bl restB =>
      cases ha : s.asks with
      | nil =>
        rw [MatchLoop_exit_asks _ _ ha]
        exact ⟨SideCut_of_eq hb.symm, SideCut_of_eq ha.symm⟩
      | cons al restA =>
        obtain ⟨bp, bq⟩ := bl
        obtain ⟨ap, aq⟩ := al
        by_cases hlt : bp < ap
        · rw [MatchLoop_exit_crossed _ _ hb ha hlt]
          exact ⟨SideCut_of_eq hb.symm, SideCut_of_eq ha.symm⟩
        · by_cases hbq : bq = []
          · rw [MatchLoop_exit_degenerate _ _ hb ha (Or.inl hbq)]
            exact ⟨SideCut_of_eq hb.symm, SideCut_of_eq ha.symm⟩
          · by_cases haq : aq = []
            · rw [MatchLoop_exit_degenerate _ _ hb ha (Or.inr haq)]
              exact ⟨SideCut_of_eq hb.symm, SideCut_of_eq ha.symm⟩
            · rw [MatchLoop_step fuel s hb ha hlt hbq haq]
              obtain ⟨ihb, iha⟩ := ih (StepBook s bp bq restB ap aq restA)
              exact ⟨(StepBook_bids_cut s bp bq restB ap aq restA).trans_cut ihb,
                (StepBook_asks_cut s bp bq restB ap aq restA).trans_cut iha⟩

@[simp] theorem AllOrders_mk (b a : List (Int × List Order)) (o : List (Nat × OrderEntry)) :
    AllOrders ⟨b, a, o⟩ = SideOrders b ++ SideOrders a := rfl

theorem AllOrders_eq (s : Orderbook) : AllOrders s = SideOrders s.bids ++ SideOrders s.asks := rfl

theorem lookupEntry_isSome (l : List (Nat × OrderEntry)) (id : Nat) :
    (lookupEntry l id).isSome = true ↔ id ∈ l.map Prod.fst := by
  induction l with
  | nil => simp [lookupEntry]
  | cons e rest ih =>
    by_cases h : e.1 = id
    · simp [lookupEntry, h]
    · simp [lookupEntry, h, ih, Ne.symm h]

theorem lookupEntry_mem {l : List (Nat × OrderEntry)} {id : Nat} {e : OrderEntry}
    (h : lookupEntry l id = some e) : (id, e) ∈ l := by
  induction l with
  | nil => simp [lookupEntry] at h
  | cons e' rest ih =>
    by_cases h' : e'.1 = id
    · simp only [lookupEntry, h', if_pos, Option.some.injEq] at h
      have : (id, e) = e' := by
        rw [← h', ← h]
      rw [this]
      exact List.mem_cons_self _ _
    · simp only [lookupEntry, h', if_neg, not_false_iff] at h
      exact List.mem_cons_of_mem _ (ih h)

theorem lookupEntry_filter_removed (l : List (Nat × OrderEntry)) (rm : List Nat) (id : Nat) :
    lookupEntry (l.filter (fun e => decide (e.1 ∉ rm))) id =
      if id ∈ rm then none else lookupEntry l id := by
  induction l with
  | nil => simp [lookupEntry]
  | cons e rest ih =>
    by_cases hm : e.1 ∈ rm
    · rw [List.filter_cons_of_neg (by simpa using hm)]
      by_cases h : e.1 = id
      · rw [ih, if_pos (h ▸ hm), lookupEntry, if_pos h, if_pos (h ▸ hm)]
      · rw [ih, lookupEntry, if_neg h]
    · rw [List.filter_cons_of_pos (by simpa using hm)]
      by_cases h : e.1 = id
      · rw [lookupEntry, if_pos h, lookupEntry, if_pos h, if_neg (h ▸ hm)]
      · rw [lookupEntry, if_neg h, lookupEntry, if_neg h, ih]

theorem lookupEntry_filter_ne (l : List (Nat × OrderEntry)) (x id : Nat) :
    lookupEntry (l.filter (fun e => decide (e.1 ≠ x))) id =
      if id = x then none else lookupEntry l id := by
  have : (fun (e : Nat × OrderEntry) => decide (e.1 ≠ x)) =
      (fun e => decide (e.1 ∉ [x])) := by
    funext e
    simp
  rw [this, lookupEntry_filter_removed]
  simp

theorem lookupEntry_append_left {l1 : List (Nat × OrderEntry)} (l2 : List (Nat × OrderEntry))
    {id : Nat} {e : OrderEntry} (h : lookupEntry l1 id = some e) :
    lookupEntry (l1 ++ l2) id = some e := by
  induction l1 with
  | nil => simp [lookupEntry] at h
  | cons e' rest ih =>
    by_cases h' : e'.1 = id
    · simp only [lookupEntry, h', if_pos] at h ⊢
      exact h
    · simp only [lookupEntry, h', if_neg, not_false_iff] at h ⊢
      exact ih h

theorem lookupEntry_append_right {l1 : List (Nat × OrderEntry)} (l2 : List (Nat × OrderEntry))
    {id : Nat} (h : lookupEntry l1 id = none) :
    lookupEntry (l1 ++ l2) id = lookupEntry l2 id := by
  induction l1 with
  | nil => simp [lookupEntry]
  | cons e' rest ih =>
    by_cases h' : e'.1 = id
    · simp only [lookupEntry, h', if_pos] at h
      exact absurd h (by simp)
    · simp only [lookupEntry, h', if_neg, not_false_iff] at h ⊢
      exact ih h

theorem lookupEntry_eq_none {l : List (Nat × OrderEntry)} {id : Nat} :
    lookupEntry l id = none ↔ id ∉ l.map Prod.fst := by
  rw [← lookupEntry_isSome]
  cases lookupEntry l id <;> simp

theorem mem_drop_iff_of_nodup {l : List Nat} (h : l.Nodup) (k : Nat) (id : Nat) :
    id ∈ l.drop k ↔ id ∈ l ∧ id ∉ l.take k := by
  have hsplit : l = l.take k ++ l.drop k := (List.take_append_drop k l).symm
  rw [hsplit] at h
  rw [List.nodup_append] at h
  obtain ⟨-, -, hdisj⟩ := h
  constructor
  · intro hm
    refine ⟨by rw [hsplit]; exact List.mem_append_right _ hm, fun hc => hdisj hc hm⟩
  · rintro ⟨hm, hnt⟩
    rw [hsplit] at hm
    rcases List.mem_append.1 hm with h' | h'
    · exact absurd h' hnt
    · exact h'

/-- All fields of the book invariant except uncrossedness (which the
insertion stage of `AddOrder` may transiently break before matching
restores it): price levels sorted, non-empty and side/price-consistent,
live order ids unique, and the id index in exact sync with the queues. -/
structure MidWF (s : Orderbook) : Prop where
  bidsSorted : (s.bids.map Prod.fst).Pairwise (fun a b => b < a)
  asksSorted : (s.asks.map Prod.fst).Pairwise (fun a b => a < b)
  bidsLevels : ∀ l ∈ s.bids, l.2 ≠ [] ∧ ∀ o ∈ l.2, o.side = Side.Buy ∧ o.price = l.1
  asksLevels : ∀ l ∈ s.asks, l.2 ≠ [] ∧ ∀ o ∈ l.2, o.side = Side.Sell ∧ o.price = l.1
  idsNodup : ((AllOrders s).map Order.orderId).Nodup
  keysIff : ∀ id, (lookupEntry s.orders id).isSome = true ↔ id ∈ (AllOrders s).map Order.orderId
  keysNodup : (s.orders.map Prod.fst).Nodup
  entries : ∀ e ∈ s.orders, ∃ o ∈ AllOrders s, o.orderId = e.1 ∧ e.2 = OrderEntry.ofOrder o

/-- The full invariant of a book at rest: `MidWF` plus uncrossedness of
the two best prices. -/
structure BookWF (s : Orderbook) extends MidWF s : Prop where
  uncrossed : ∀ bl ∈ s.bids.head?, ∀ al ∈ s.asks.head?, bl.1 < al.1

/-- No fill-and-kill order rests in the book. -/
def NoFak (s : Orderbook) : Prop :=
  ∀ o ∈ AllOrders s, o.orderType = OrderType.GoodTillCancel

/-- Positive remaining quantity of every resting order. -/
def PosRem (s : Orderbook) : Prop :=
  ∀ o ∈ AllOrders s, 0 < o.remainingQuantity

theorem nodup_ids_inj {l : List Order} (h : (l.map Order.orderId).Nodup)
    {o1 o2 : Order} (h1 : o1 ∈ l) (h2 : o2 ∈ l) (he : o1.orderId = o2.orderId) : o1 = o2 :=
  List.inj_on_of_nodup_map h h1 h2 he

theorem SideCut_descend {ls ls' : List (Int × List Order)} (h : SideCut ls ls') :
    ∀ o' ∈ SideOrders ls', ∃ o ∈ SideOrders ls, o' = o.setRem o'.remainingQuantity ∧
      o'.remainingQuantity ≤ o.remainingQuantity := by
  intro o' ho'
  simp only [SideOrders, List.mem_flatMap] at ho'
  obtain ⟨l', hl', hol'⟩ := ho'
  rcases h.mem_rel l' hl' with hm | ⟨q, n, hm, hcut, -⟩
  · exact ⟨o', by simp only [SideOrders, List.mem_flatMap]; exact ⟨l', hm, hol'⟩,
      (Order.setRem_self o').symm, le_refl _⟩
  · obtain ⟨o, ho, heq, hle⟩ := hcut.mem o' hol'
    exact ⟨o, by simp only [SideOrders, List.mem_flatMap]; exact ⟨(l'.1, q), hm, ho⟩, heq, hle⟩

theorem step_ids_mem {B1 B2 A1 A2 : List Nat} (hnd : ((B1 ++ B2) ++ (A1 ++ A2)).Nodup)
    (k n : Nat) (id : Nat) :
    id ∈ (B1.drop k ++ B2) ++ (A1.drop n ++ A2) ↔
      (id ∈ (B1 ++ B2) ++ (A1 ++ A2) ∧ ¬ (id ∈ B1.take k ∨ id ∈ A1.take n)) := by
  rw [List.nodup_append] at hnd
  obtain ⟨hB, hA, hdisjBA⟩ := hnd
  rw [List.nodup_append] at hB hA
  obtain ⟨hB1, hB2, hdB⟩ := hB
  obtain ⟨hA1, hA2, hdA⟩ := hA
  have hdropB := mem_drop_iff_of_nodup hB1 k id
  have hdropA := mem_drop_iff_of_nodup hA1 n id
  have htakeB : id ∈ B1.take k → id ∈ B1 := fun h => List.take_subset _ _ h
  have htakeA : id ∈ A1.take n → id ∈ A1 := fun h => List.take_subset _ _ h
  have hB1nA : id ∈ B1 → id ∉ A1 ∧ id ∉ A2 := fun h => by
    have := hdisjBA (List.mem_append_left _ h)
    simp only [List.mem_append] at this
    tauto
  have hB2nA : id ∈ B2 → id ∉ A1 ∧ id ∉ A2 := fun h => by
    have := hdisjBA (List.mem_append_right _ h)
    simp only [List.mem_append] at this
    tauto
  have hB1nB2 : id ∈ B1 → id ∉ B2 := fun h => hdB h
  have hA1nA2 : id ∈ A1 → id ∉ A2 := fun h => hdA h
  simp only [List.mem_append]
  constructor
  · rintro ((h | h) | (h | h))
    · obtain ⟨h1, h2⟩ := hdropB.1 h
      exact ⟨Or.inl (Or.inl h1), fun hc => by
        rcases hc with hc | hc
        · exact h2 hc
        · exact (hB1nA h1).1 (htakeA hc)⟩
    · refine ⟨Or.inl (Or.inr h), fun hc => ?_⟩
      rcases hc with hc | hc
      · exact hB1nB2 (htakeB hc) h
      · exact (hB2nA h).1 (htakeA hc)
    · obtain ⟨h1, h2⟩ := hdropA.1 h
      exact ⟨Or.inr (Or.inl h1), fun hc => by
        rcases hc with hc | hc
        · exact (hB1nA (htakeB hc)).1 h1
        · exact h2 hc⟩
    · refine ⟨Or.inr (Or.inr h), fun hc => ?_⟩
      rcases hc with hc | hc
      · exact (hB1nA (htakeB hc)).2 h
      · exact hA1nA2 (htakeA hc) h
  · rintro ⟨(h | h) | (h | h), hnt⟩
    · exact Or.inl (Or.inl (hdropB.2 ⟨h, fun hc => hnt (Or.inl hc)⟩))
    · exact Or.inl (Or.inr h)
    · exact Or.inr (Or.inl (hdropA.2 ⟨h, fun hc => hnt (Or.inr hc)⟩))
    · exact Or.inr (Or.inr h)

theorem ofOrder_setRem (o : Order) (r : Nat) :
    OrderEntry.ofOrder (o.setRem r) = OrderEntry.ofOrder o := rfl

/-- One outer-loop iteration preserves the mid-state invariant. -/
theorem StepBook_midWF (s : Orderbook) {bp : Int} {bq : List Order}
    {restB : List (Int × List Order)} {ap : Int} {aq : List Order}
    {restA : List (Int × List Order)}
    (hb : s.bids = (bp, bq) :: restB) (ha : s.asks = (ap, aq) :: restA)
    (hw : MidWF s) : MidWF (StepBook s bp bq restB ap aq restA) := by
  obtain ⟨k, hk, n, hn, hcutb, hcuta, hiff⟩ := MatchLevel_spec bq aq
  have hqb : (MatchLevel bq aq).bidQueue.map Order.orderId =
      (bq.map Order.orderId).drop k := hcutb.ids
  have hqa : (MatchLevel bq aq).askQueue.map Order.orderId =
      (aq.map Order.orderId).drop n := hcuta.ids
  -- ids of the new sides
  have hsb : (SideOrders (StepBook s bp bq restB ap aq restA).bids).map Order.orderId =
      (bq.map Order.orderId).drop k ++ (SideOrders restB).map Order.orderId := by
    by_cases he : (MatchLevel bq aq).bidQueue.isEmpty
    · rw [List.isEmpty_iff] at he
      have : (bq.map Order.orderId).drop k = [] := by rw [← hqb, he]; rfl
      simp [StepBook, List.isEmpty_iff.2 he, this]
    · simp [StepBook, he, hqb]
  have hsa : (SideOrders (StepBook s bp bq restB ap aq restA).asks).map Order.orderId =
      (aq.map Order.orderId).drop n ++ (SideOrders restA).map Order.orderId := by
    by_cases he : (MatchLevel bq aq).askQueue.isEmpty
    · rw [List.isEmpty_iff] at he
      have : (aq.map Order.orderId).drop n = [] := by rw [← hqa, he]; rfl
      simp [StepBook, List.isEmpty_iff.2 he, this]
    · simp [StepBook, he, hqa]
  have hnew : (AllOrders (StepBook s bp bq restB ap aq restA)).map Order.orderId =
      ((bq.map Order.orderId).drop k ++ (SideOrders restB).map Order.orderId) ++
        ((aq.map Order.orderId).drop n ++ (SideOrders restA).map Order.orderId) := by
    rw [AllOrders_eq, List.map_append, hsb, hsa]
  have hold : (AllOrders s).map Order.orderId =
      ((bq.map Order.orderId) ++ (SideOrders restB).map Order.orderId) ++
        ((aq.map Order.orderId) ++ (SideOrders restA).map Order.orderId) := by
    rw [AllOrders_eq, hb, ha, List.map_append]
    simp
  have hndold : (((bq.map Order.orderId) ++ (SideOrders restB).map Order.orderId) ++
      ((aq.map Order.orderId) ++ (SideOrders restA).map Order.orderId)).Nodup := by
    rw [← hold]
    exact hw.idsNodup
  have hmemiff : ∀ id, id ∈ (AllOrders (StepBook s bp bq restB ap aq restA)).map Order.orderId ↔
      (id ∈ (AllOrders s).map Order.orderId ∧ id ∉ (MatchLevel bq aq).removed) := by
    intro id
    rw [hnew, hold, step_ids_mem hndold k n id, hiff id]
  have hcutbids : SideCut s.bids (StepBook s bp bq restB ap aq restA).bids := by
    rw [hb]
    exact StepBook_bids_cut s bp bq restB ap aq restA
  have hcutasks : SideCut s.asks (StepBook s bp bq restB ap aq restA).asks := by
    rw [ha]
    exact StepBook_asks_cut s bp bq restB ap aq restA
  have hdescend : ∀ o' ∈ AllOrders (StepBook s bp bq restB ap aq restA),
      ∃ o ∈ AllOrders s, o' = o.setRem o'.remainingQuantity ∧
        o'.remainingQuantity ≤ o.remainingQuantity := by
    intro o' ho'
    rw [AllOrders_eq] at ho'
    rcases List.mem_append.1 ho' with h' | h'
    · obtain ⟨o, ho, he, hle⟩ := SideCut_descend hcutbids o' h'
      exact ⟨o, List.mem_append_left _ ho, he, hle⟩
    · obtain ⟨o, ho, he, hle⟩ := SideCut_descend hcutasks o' h'
      exact ⟨o, List.mem_append_right _ ho, he, hle⟩
  refine ⟨?_, ?_, ?_, ?_, ?_, ?_, ?_, ?_⟩
  · obtain ⟨m, hm⟩ := hcutbids.keys
    rw [hm]
    exact List.Pairwise.sublist (List.drop_sublist _ _) hw.bidsSorted
  · obtain ⟨m, hm⟩ := hcutasks.keys
    rw [hm]
    exact List.Pairwise.sublist (List.drop_sublist _ _) hw.asksSorted
  · intro l hl
    rcases hcutbids.mem_rel l hl with hm | ⟨q, n', hm, hcut, hne⟩
    · exact hw.bidsLevels l hm
    · refine ⟨hne, ?_⟩
      intro o ho
      obtain ⟨o0, ho0, heq, -⟩ := hcut.mem o ho
      obtain ⟨-, hlv⟩ := hw.bidsLevels (l.1, q) hm
      obtain ⟨hside, hprice⟩ := hlv o0 ho0
      rw [heq]
      exact ⟨hside, hprice⟩
  · intro l hl
    rcases hcutasks.mem_rel l hl with hm | ⟨q, n', hm, hcut, hne⟩
    · exact hw.asksLevels l hm
    · refine ⟨hne, ?_⟩
      intro o ho
      obtain ⟨o0, ho0, heq, -⟩ := hcut.mem o ho
      obtain ⟨-, hlv⟩ := hw.asksLevels (l.1, q) hm
      obtain ⟨hside, hprice⟩ := hlv o0 ho0
      rw [heq]
      exact ⟨hside, hprice⟩
  · rw [hnew]
    refine List.Nodup.sublist ?_ hndold
    exact ((List.drop_sublist _ _).append (List.Sublist.refl _)).append
      ((List.drop_sublist _ _).append (List.Sublist.refl _))
  · intro id
    have : (StepBook s bp bq restB ap aq restA).orders =
        s.orders.filter (fun e => decide (e.1 ∉ (MatchLevel bq aq).removed)) := rfl
    rw [this, lookupEntry_filter_removed, hmemiff id]
    by_cases hrm : id ∈ (MatchLevel bq aq).removed
    · simp [hrm]
    · rw [if_neg hrm, hw.keysIff id]
      simp [hrm]
  · refine List.Nodup.sublist ?_ hw.keysNodup
    exact (List.filter_sublist _).map _
  · intro e he
    have hmem : e ∈ s.orders := List.mem_of_mem_filter he
    have hkeep : e.1 ∉ (MatchLevel bq aq).removed := by
      have := List.of_mem_filter he
      simpa using this
    obtain ⟨o, ho, hid, hst⟩ := hw.entries e hmem
    have hidin : e.1 ∈ (AllOrders (StepBook s bp bq restB ap aq restA)).map Order.orderId := by
      rw [hmemiff]
      exact ⟨by rw [← hid]; exact List.mem_map_of_mem _ ho, hkeep⟩
    obtain ⟨o', ho', hoid⟩ := List.mem_map.1 hidin
    obtain ⟨o0, ho0, hdes, -⟩ := hdescend o' ho'
    have ho0id : o0.orderId = o.orderId := by
      have : o'.orderId = o0.orderId := by rw [hdes]; rfl
      rw [← this, hoid, hid]
    have : o0 = o := nodup_ids_inj hw.idsNodup ho0 ho ho0id
    refine ⟨o', ho', hoid, ?_⟩
    rw [hdes, ofOrder_setRem, this, hst]

/-- The matching loop preserves the mid-state invariant. -/
theorem MatchLoop_midWF (fuel : Nat) (s : Orderbook) (hw : MidWF s) :
    MidWF (MatchLoop fuel s).1 := by
  induction fuel generalizing s with
  | zero => exact hw
  | succ fuel ih =>
    cases hb : s.bids with
    | nil =>
      rw [MatchLoop_exit_bids _ _ hb]
      exact hw
    | cons bl restB =>
      cases ha : s.asks with
      | nil =>
        rw [MatchLoop_exit_asks _ _ ha]
        exact hw
      | cons al restA =>
        obtain ⟨bp, bq⟩ := bl
        obtain ⟨ap, aq⟩ := al
        by_cases hlt : bp < ap
        · rw [MatchLoop_exit_crossed _ _ hb ha hlt]
          exact hw
        · by_cases hbq : bq = []
          · rw [MatchLoop_exit_degenerate _ _ hb ha (Or.inl hbq)]
            exact hw
          · by_cases haq : aq = []
            · rw [MatchLoop_exit_degenerate _ _ hb ha (Or.inr haq)]
              exact hw
            · rw [MatchLoop_step fuel s hb ha hlt hbq haq]
              exact ih _ (StepBook_midWF s hb ha hw)

/-- Orders surviving the matching loop are input orders with a possibly
reduced remaining quantity. -/
theorem MatchLoop_descend (fuel : Nat) (s : Orderbook) :
    ∀ o' ∈ AllOrders (MatchLoop fuel s).1, ∃ o ∈ AllOrders s,
      o' = o.setRem o'.remainingQuantity ∧
      o'.remainingQuantity ≤ o.remainingQuantity := by
  obtain ⟨hcb, hca⟩ := MatchLoop_cut fuel s
  intro o' ho'
  rw [AllOrders_eq] at ho'
  rcases List.mem_append.1 ho' with h' | h'
  · obtain ⟨o, ho, he, hle⟩ := SideCut_descend hcb o' h'
    exact ⟨o, List.mem_append_left _ ho, he, hle⟩
  · obtain ⟨o, ho, he, hle⟩ := SideCut_descend hca o' h'
    exact ⟨o, List.mem_append_right _ ho, he, hle⟩

theorem MatchLoop_noFak (fuel : Nat) (s : Orderbook) (h : NoFak s) :
    NoFak (MatchLoop fuel s).1 := by
  intro o' ho'
  obtain ⟨o, ho, he, -⟩ := MatchLoop_descend fuel s o' ho'
  have := h o ho
  rw [he, ← this]
  rfl

/-- The loop's natural exit condition: a side is empty, or the best
prices no longer cross (or a level queue is degenerate-empty, which the
invariant rules out). -/
def LoopDone (s : Orderbook) : Prop :=
  s.bids = [] ∨ s.asks = [] ∨
    ∃ bp bq restB ap aq restA, s.bids = (bp, bq) :: restB ∧ s.asks = (ap, aq) :: restA ∧
      (bp < ap ∨ bq = [] ∨ aq = [])

/-- The iteration budget `bids.length + asks.length + 1` always reaches
the natural exit: every iteration that matches fully drains the best
level of at least one side. -/
theorem MatchLoop_exit (fuel : Nat) (s : Orderbook)
    (hfuel : s.bids.length + s.asks.length < fuel) :
    LoopDone (MatchLoop fuel s).1 := by
  induction fuel generalizing s with
  | zero => omega
  | succ fuel ih =>
    cases hb : s.bids with
    | nil =>
      rw [MatchLoop_exit_bids _ _ hb]
      exact Or.inl hb
    | cons bl restB =>
      cases ha : s.asks with
      | nil =>
        rw [MatchLoop_exit_asks _ _ ha]
        exact Or.inr (Or.inl ha)
      | cons al restA =>
        obtain ⟨bp, bq⟩ := bl
        obtain ⟨ap, aq⟩ := al
        by_cases hlt : bp < ap
        · rw [MatchLoop_exit_crossed _ _ hb ha hlt]
          exact Or.inr (Or.inr ⟨bp, bq, restB, ap, aq, restA, hb, ha, Or.inl hlt⟩)
        · by_cases hbq : bq = []
          · rw [MatchLoop_exit_degenerate _ _ hb ha (Or.inl hbq)]
            exact Or.inr (Or.inr ⟨bp, bq, restB, ap, aq, restA, hb, ha, Or.inr (Or.inl hbq)⟩)
          · by_cases haq : aq = []
            · rw [MatchLoop_exit_degenerate _ _ hb ha (Or.inr haq)]
              exact Or.inr (Or.inr ⟨bp, bq, restB, ap, aq, restA, hb, ha, Or.inr (Or.inr haq)⟩)
            · rw [MatchLoop_step fuel s hb ha hlt hbq haq]
              refine ih _ ?_
              have hone := MatchLevel_oneEmpty bq aq
              have hlb : (StepBook s bp bq restB ap aq restA).bids.length ≤ restB.length + 1 := by
                by_cases he : (MatchLevel bq aq).bidQueue.isEmpty <;> simp [StepBook, he]
              have hla : (StepBook s bp bq restB ap aq restA).asks.length ≤ restA.length + 1 := by
                by_cases he : (MatchLevel bq aq).askQueue.isEmpty <;> simp [StepBook, he]
              have hone' : (StepBook s bp bq restB ap aq restA).bids.length = restB.length ∨
                  (StepBook s bp bq restB ap aq restA).asks.length = restA.length := by
                rcases hone with h | h
                · left
                  simp [StepBook, h]
                · right
                  simp [StepBook, h]
              rw [hb, ha] at hfuel
              simp only [List.length_cons] at hfuel
              rcases hone' with h | h <;> omega

/-- A book at the loop's natural exit with well-formed levels is
uncrossed. -/
theorem BookWF_of_loopDone {s : Orderbook} (hw : MidWF s) (hd : LoopDone s) : BookWF s := by
  refine ⟨hw, ?_⟩
  intro bl hbl al hal
  cases hsb : s.bids with
  | nil => rw [hsb] at hbl; simp at hbl
  | cons bhead restB =>
    cases hsa : s.asks with
    | nil => rw [hsa] at hal; simp at hal
    | cons ahead restA =>
      rw [hsb] at hbl
      rw [hsa] at hal
      simp only [List.head?_cons, Option.mem_def, Option.some.injEq] at hbl hal
      subst hbl
      subst hal
      rcases hd with h | h | ⟨bp, bq, rB, ap, aq, rA, h1, h2, h3⟩
      · rw [hsb] at h; exact absurd h (by simp)
      · rw [hsa] at h; exact absurd h (by simp)
      · rw [hsb] at h1
        rw [hsa] at h2
        rcases List.cons_eq_cons.1 h1 with ⟨hh1, -⟩
        rcases List.cons_eq_cons.1 h2 with ⟨hh2, -⟩
        rcases h3 with h3 | h3 | h3
        · rw [hh1, hh2]
          exact h3
        · exfalso
          have := (hw.bidsLevels bhead (by rw [hsb]; exact List.mem_cons_self _ _)).1
          rw [hh1] at this
          exact this h3
        · exfalso
          have := (hw.asksLevels ahead (by rw [hsa]; exact List.mem_cons_self _ _)).1
          rw [hh2] at this
          exact this h3

theorem eraseOrder_of_not_mem {q : List Order} {id : Nat}
    (h : id ∉ q.map Order.orderId) : eraseOrder q id = q := by
  induction q with
  | nil => rfl
  | cons o rest ih =>
    simp only [List.map_cons, List.mem_cons, not_or] at h
    rw [eraseOrder, if_neg (by exact fun hc => h.1 hc.symm), ih h.2]

theorem eraseOrder_spec {q : List Order} {id : Nat} (h : id ∈ q.map Order.orderId) :
    ∃ pre o post, q = pre ++ o :: post ∧ o.orderId = id ∧ (∀ x ∈ pre, x.orderId ≠ id) ∧
      eraseOrder q id = pre ++ post := by
  induction q with
  | nil => simp at h
  | cons o rest ih =>
    by_cases ho : o.orderId = id
    · exact ⟨[], o, rest, rfl, ho, by simp, by rw [eraseOrder, if_pos ho]; rfl⟩
    · have h' : id ∈ rest.map Order.orderId := by
        simp only [List.map_cons, List.mem_cons] at h
        rcases h with h | h
        · exact absurd h.symm ho
        · exact h
      obtain ⟨pre, o', post, hq, hoid, hpre, he⟩ := ih h'
      refine ⟨o :: pre, o', post, by rw [hq]; rfl, hoid, ?_, ?_⟩
      · intro x hx
        rcases List.mem_cons.1 hx with hx | hx
        · rw [hx]; exact ho
        · exact hpre x hx
      · rw [eraseOrder, if_neg ho, he]
        rfl

theorem RemoveFromLevels_spec (levels : List (Int × List Order)) (price : Int) (id : Nat) :
    ((∀ l ∈ levels, l.1 ≠ price) ∧ RemoveFromLevels levels price id = levels) ∨
    ∃ pre q post, levels = pre ++ (price, q) :: post ∧ (∀ l ∈ pre, l.1 ≠ price) ∧
      RemoveFromLevels levels price id =
        (if (eraseOrder q id).isEmpty then pre ++ post
          else pre ++ (price, eraseOrder q id) :: post) := by
  induction levels with
  | nil => exact Or.inl ⟨by simp, rfl⟩
  | cons l rest ih =>
    obtain ⟨p, q⟩ := l
    by_cases hp : p = price
    · subst hp
      refine Or.inr ⟨[], q, rest, rfl, by simp, ?_⟩
      rw [RemoveFromLevels, if_pos rfl]
      by_cases he : (eraseOrder q id).isEmpty <;> simp [he]
    · rcases ih with ⟨hall, heq⟩ | ⟨pre, q', post, hq, hpre, he⟩
      · refine Or.inl ⟨?_, ?_⟩
        · intro l' hl'
          rcases List.mem_cons.1 hl' with hl' | hl'
          · rw [hl']; exact hp
          · exact hall l' hl'
        · rw [RemoveFromLevels, if_neg hp, heq]
      · refine Or.inr ⟨(p, q) :: pre, q', post, by rw [hq]; rfl, ?_, ?_⟩
        · intro l' hl'
          rcases List.mem_cons.1 hl' with hl' | hl'
          · rw [hl']; exact hp
          · exact hpre l' hl'
        · rw [RemoveFromLevels, if_neg hp, he]
          by_cases hee : (eraseOrder q' id).isEmpty <;> simp [hee]

@[simp] theorem SideOrders_append (l1 l2 : List (Int × List Order)) :
    SideOrders (l1 ++ l2) = SideOrders l1 ++ SideOrders l2 := by
  simp [SideOrders]

/-- Effect of `RemoveFromLevels` on a well-formed side holding the
order: the order's unique occurrence is excised, the level is dropped if
it empties, and nothing else changes. -/
theorem RemoveFromLevels_effect {levels : List (Int × List Order)} {o : Order}
    (hnd : ((SideOrders levels).map Order.orderId).Nodup)
    (hknd : (levels.map Prod.fst).Nodup)
    (hcons : ∀ l ∈ levels, ∀ x ∈ l.2, x.price = l.1)
    (hne : ∀ l ∈ levels, l.2 ≠ [])
    (hmem : o ∈ SideOrders levels) :
    (∀ x, x ∈ SideOrders (RemoveFromLevels levels o.price o.orderId) ↔
      (x ∈ SideOrders levels ∧ x.orderId ≠ o.orderId)) ∧
    ((RemoveFromLevels levels o.price o.orderId).map Prod.fst).Sublist
      (levels.map Prod.fst) ∧
    (∀ l' ∈ RemoveFromLevels levels o.price o.orderId,
      (∃ q, (l'.1, q) ∈ levels ∧ (l'.2 = q ∨ l'.2 = eraseOrder q o.orderId)) ∧ l'.2 ≠ []) ∧
    ((SideOrders (RemoveFromLevels levels o.price o.orderId)).map Order.orderId).Sublist
      ((SideOrders levels).map Order.orderId) := by
  obtain ⟨lv, hlv, holv⟩ := by
    simpa only [SideOrders, List.mem_flatMap] using hmem
  have hokey : o.price = lv.1 := hcons lv hlv o holv
  rcases RemoveFromLevels_spec levels o.price o.orderId with ⟨hall, -⟩ |
    ⟨pre, q, post, hdec, hpre, hres⟩
  · exact absurd hokey.symm (hall lv hlv)
  · have hqlv : lv = (o.price, q) := by
      rw [hdec] at hlv
      rcases List.mem_append.1 hlv with h' | h'
      · exact absurd hokey.symm (hpre lv h')
      · rcases List.mem_cons.1 h' with h' | h'
        · exact h'
        · exfalso
          have hkeys : levels.map Prod.fst =
              pre.map Prod.fst ++ o.price :: post.map Prod.fst := by
            rw [hdec]; simp
          rw [hkeys, List.nodup_append] at hknd
          obtain ⟨-, hnd2, -⟩ := hknd
          rw [List.nodup_cons] at hnd2
          refine hnd2.1 ?_
          rw [hokey]
          exact List.mem_map_of_mem _ h'
    have hoq : o ∈ q := by
      rw [hqlv] at holv
      exact holv
    have hoqid : o.orderId ∈ q.map Order.orderId := List.mem_map_of_mem _ hoq
    obtain ⟨qpre, o', qpost, hqdec, ho'id, hqpre, herase⟩ := eraseOrder_spec hoqid
    have holdids : (SideOrders levels).map Order.orderId =
        (SideOrders pre).map Order.orderId ++
          ((qpre.map Order.orderId ++ o.orderId :: qpost.map Order.orderId) ++
            (SideOrders post).map Order.orderId) := by
      rw [hdec, hqdec]
      simp [ho'id]
    have hnewso : SideOrders (RemoveFromLevels levels o.price o.orderId) =
        SideOrders pre ++ ((qpre ++ qpost) ++ SideOrders post) := by
      rw [hres]
      by_cases he : (eraseOrder q o.orderId).isEmpty
      · rw [if_pos he]
        rw [List.isEmpty_iff] at he
        rw [herase] at he
        have h1 : qpre = [] := by
          cases qpre with
          | nil => rfl
          | cons a b => simp at he
        have h2 : qpost = [] := by
          rw [h1] at he
          simpa using he
        rw [h1, h2]
        simp
      · rw [if_neg he, herase]
        simp
    have hnewids : (SideOrders (RemoveFromLevels levels o.price o.orderId)).map Order.orderId =
        (SideOrders pre).map Order.orderId ++
          ((qpre.map Order.orderId ++ qpost.map Order.orderId) ++
            (SideOrders post).map Order.orderId) := by
      rw [hnewso]
      simp
    have hnotin : o.orderId ∉ (SideOrders pre).map Order.orderId ∧
        o.orderId ∉ qpre.map Order.orderId ∧ o.orderId ∉ qpost.map Order.orderId ∧
        o.orderId ∉ (SideOrders post).map Order.orderId := by
      rw [holdids] at hnd
      rw [List.nodup_append] at hnd
      obtain ⟨-, hnd2, hdisj⟩ := hnd
      rw [List.nodup_append] at hnd2
      obtain ⟨hnd3, -, hdisj2⟩ := hnd2
      rw [List.nodup_append] at hnd3
      obtain ⟨-, hnd4, hdisj3⟩ := hnd3
      rw [List.nodup_cons] at hnd4
      refine ⟨?_, ?_, hnd4.1, ?_⟩
      · intro hc
        exact hdisj hc (List.mem_append_left _ (List.mem_append_right _ (List.mem_cons_self _ _)))
      · intro hc
        exact hdisj3 hc (List.mem_cons_self _ _)
      · intro hc
        exact hdisj2 (List.mem_append_right _ (List.mem_cons_self _ _)) hc
    refine ⟨?_, ?_, ?_, ?_⟩
    · intro x
      constructor
      · intro hx
        have hxid : x.orderId ≠ o.orderId := by
          intro hc
          have : x.orderId ∈ (SideOrders (RemoveFromLevels levels o.price o.orderId)).map
              Order.orderId := List.mem_map_of_mem _ hx
          rw [hnewids, hc] at this
          simp only [List.mem_append] at this
          rcases this with h | (h | h) | h
          · exact hnotin.1 h
          · exact hnotin.2.1 h
          · exact hnotin.2.2.1 h
          · exact hnotin.2.2.2 h
        refine ⟨?_, hxid⟩
        rw [hnewso] at hx
        rw [hdec, hqdec]
        simp only [List.mem_append, SideOrders_append, SideOrders_cons, List.mem_cons] at hx ⊢
        tauto
      · rintro ⟨hx, hxid⟩
        rw [hdec, hqdec] at hx
        rw [hnewso]
        simp only [List.mem_append, SideOrders_append, SideOrders_cons, List.mem_cons] at hx ⊢
        have hxo' : x ≠ o' := by
          intro hc
          rw [hc] at hxid
          exact hxid ho'id
        tauto
    · rw [hres, hdec]
      by_cases he : (eraseOrder q o.orderId).isEmpty
      · rw [if_pos he]
        simp only [List.map_append, List.map_cons]
        exact (List.Sublist.refl _).append
          ((List.sublist_cons_self _ _).trans (List.Sublist.refl _))
      · rw [if_neg he]
        simp only [List.map_append, List.map_cons]
        exact List.Sublist.refl _
    · intro l' hl'
      rw [hres] at hl'
      by_cases he : (eraseOrder q o.orderId).isEmpty
      · rw [if_pos he] at hl'
        have : l' ∈ levels := by
          rw [hdec]
          rcases List.mem_append.1 hl' with h' | h'
          · exact List.mem_append_left _ h'
          · exact List.mem_append_right _ (List.mem_cons_of_mem _ h')
        exact ⟨⟨l'.2, this, Or.inl rfl⟩, hne l' this⟩
      · rw [if_neg he] at hl'
        rcases List.mem_append.1 hl' with h' | h'
        · have : l' ∈ levels := by
            rw [hdec]
            exact List.mem_append_left _ h'
          exact ⟨⟨l'.2, this, Or.inl rfl⟩, hne l' this⟩
        · rcases List.mem_cons.1 h' with h' | h'
          · subst h'
            refine ⟨⟨q, ?_, Or.inr rfl⟩, by simpa [List.isEmpty_iff] using he⟩
            rw [hdec]
            exact List.mem_append_right _ (List.mem_cons_self _ _)
          · have : l' ∈ levels := by
              rw [hdec]
              exact List.mem_append_right _ (List.mem_cons_of_mem _ h')
            exact ⟨⟨l'.2, this, Or.inl rfl⟩, hne l' this⟩
    · rw [hnewids, holdids]
      exact (List.Sublist.refl _).append
        (((List.Sublist.refl _).append (List.sublist_cons_self _ _)).append
          (List.Sublist.refl _))

theorem eraseOrder_subset {q : List Order} {id : Nat} : ∀ x ∈ eraseOrder q id, x ∈ q := by
  induction q with
  | nil => intro x hx; simp [eraseOrder] at hx
  | cons o rest ih =>
    intro x hx
    by_cases ho : o.orderId = id
    · rw [eraseOrder, if_pos ho] at hx
      exact List.mem_cons_of_mem _ hx
    · rw [eraseOrder, if_neg ho] at hx
      rcases List.mem_cons.1 hx with hx | hx
      · rw [hx]; exact List.mem_cons_self _ _
      · exact List.mem_cons_of_mem _ (ih x hx)

theorem sorted_nodup_desc {l : List Int} (h : l.Pairwise (fun a b => b < a)) : l.Nodup :=
  h.imp (fun hlt => (ne_of_lt hlt).symm)

theorem sorted_nodup_asc {l : List Int} (h : l.Pairwise (fun a b => a < b)) : l.Nodup :=
  h.imp (fun hlt => ne_of_lt hlt)

theorem MidWF_bids_ids_nodup {s : Orderbook} (hw : MidWF s) :
    ((SideOrders s.bids).map Order.orderId).Nodup := by
  have := hw.idsNodup
  rw [AllOrders_eq, List.map_append, List.nodup_append] at this
  exact this.1

theorem MidWF_asks_ids_nodup {s : Orderbook} (hw : MidWF s) :
    ((SideOrders s.asks).map Order.orderId).Nodup := by
  have := hw.idsNodup
  rw [AllOrders_eq, List.map_append, List.nodup_append] at this
  exact this.2.1

theorem MidWF_ids_disj {s : Orderbook} (hw : MidWF s) :
    ∀ id, id ∈ (SideOrders s.bids).map Order.orderId →
      id ∉ (SideOrders s.asks).map Order.orderId := by
  have := hw.idsNodup
  rw [AllOrders_eq, List.map_append, List.nodup_append] at this
  exact fun id h => this.2.2 h

theorem MidWF_mem_sell {s : Orderbook} (hw : MidWF s) {o : Order}
    (ho : o ∈ AllOrders s) (hs : o.side = Side.Sell) : o ∈ SideOrders s.asks := by
  rw [AllOrders_eq] at ho
  rcases List.mem_append.1 ho with h | h
  · exfalso
    simp only [SideOrders, List.mem_flatMap] at h
    obtain ⟨l, hl, hol⟩ := h
    have := (hw.bidsLevels l hl).2 o hol
    rw [hs] at this
    exact absurd this.1 (by simp)
  · exact h

theorem MidWF_mem_buy {s : Orderbook} (hw : MidWF s) {o : Order}
    (ho : o ∈ AllOrders s) (hs : o.side = Side.Buy) : o ∈ SideOrders s.bids := by
  rw [AllOrders_eq] at ho
  rcases List.mem_append.1 ho with h | h
  · exact h
  · exfalso
    simp only [SideOrders, List.mem_flatMap] at h
    obtain ⟨l, hl, hol⟩ := h
    have := (hw.asksLevels l hl).2 o hol
    rw [hs] at this
    exact absurd this.1 (by simp)

/-- On a well-formed book the index entry of a live order is exactly its
static descriptor. -/
theorem MidWF_lookup_of_mem {s : Orderbook} (hw : MidWF s) {o : Order}
    (ho : o ∈ AllOrders s) :
    lookupEntry s.orders o.orderId = some (OrderEntry.ofOrder o) := by
  have hsome : (lookupEntry s.orders o.orderId).isSome = true :=
    (hw.keysIff _).2 (List.mem_map_of_mem _ ho)
  obtain ⟨e, he⟩ := Option.isSome_iff_exists.1 hsome
  obtain ⟨o', ho', hid, hst⟩ := hw.entries (o.orderId, e) (lookupEntry_mem he)
  have heq : o' = o := nodup_ids_inj hw.idsNodup ho' ho hid
  rw [he]
  have : e = OrderEntry.ofOrder o' := hst
  rw [this, heq]

theorem CancelOrder_eq_of_none {s : Orderbook} {id : Nat}
    (h : lookupEntry s.orders id = none) : CancelOrder s id = s := by
  simp [CancelOrder, h]

/-- Cancelling a live order on a well-formed book removes exactly that
order from its side's queue and its entry from the index, leaving
everything else (including the price-key order and all other levels)
intact, and preserves the mid-state invariant. -/
theorem CancelOrder_master {s : Orderbook} (hw : MidWF s) {id : Nat} {entry : OrderEntry}
    (hl : lookupEntry s.orders id = some entry) :
    (∀ x, x ∈ AllOrders (CancelOrder s id) ↔ (x ∈ AllOrders s ∧ x.orderId ≠ id)) ∧
    MidWF (CancelOrder s id) ∧
    ((CancelOrder s id).bids.map Prod.fst).Sublist (s.bids.map Prod.fst) ∧
    ((CancelOrder s id).asks.map Prod.fst).Sublist (s.asks.map Prod.fst) ∧
    (CancelOrder s id).orders = s.orders.filter (fun e => decide (e.1 ≠ id)) := by
  obtain ⟨o, ho, hid, hst⟩ := hw.entries (id, entry) (lookupEntry_mem hl)
  have hid' : o.orderId = id := hid
  have hentry : entry = OrderEntry.ofOrder o := hst
  cases hside : o.side with
  | Sell =>
    have hentryside : entry.side = Side.Sell := by rw [hentry]; exact hside
    have hentryprice : entry.price = o.price := by rw [hentry]; rfl
    have hcan : CancelOrder s id =
        { s with orders := s.orders.filter (fun e => decide (e.1 ≠ id)),
                 asks := RemoveFromLevels s.asks o.price o.orderId } := by
      rw [CancelOrder, hl]
      simp only [hentryside, hentryprice, hid']
    obtain ⟨hmemx, hkeys, hlevels, hidsub⟩ := RemoveFromLevels_effect
      (MidWF_asks_ids_nodup hw) (sorted_nodup_asc hw.asksSorted)
      (fun l hlm x hx => ((hw.asksLevels l hlm).2 x hx).2)
      (fun l hlm => (hw.asksLevels l hlm).1)
      (MidWF_mem_sell hw ho hside)
    have hoasks : id ∈ (SideOrders s.asks).map Order.orderId := by
      rw [← hid']
      exact List.mem_map_of_mem _ (MidWF_mem_sell hw ho hside)
    have hmemAll : ∀ x, x ∈ AllOrders (CancelOrder s id) ↔
        (x ∈ AllOrders s ∧ x.orderId ≠ id) := by
      intro x
      rw [hcan]
      simp only [AllOrders_mk, List.mem_append, AllOrders_eq]
      constructor
      · rintro (hx | hx)
        · refine ⟨Or.inl hx, fun hc => ?_⟩
          exact MidWF_ids_disj hw id (hc ▸ List.mem_map_of_mem _ hx) hoasks
        · obtain ⟨hx', hne⟩ := (hmemx x).1 hx
          exact ⟨Or.inr hx', by rw [← hid']; exact hne⟩
      · rintro ⟨hx | hx, hne⟩
        · exact Or.inl hx
        · exact Or.inr ((hmemx x).2 ⟨hx, by rw [hid']; exact hne⟩)
    have hidsN : id ∉ (AllOrders (CancelOrder s id)).map Order.orderId := by
      intro hc
      obtain ⟨x, hx, hxid⟩ := List.mem_map.1 hc
      exact absurd hxid ((hmemAll x).1 hx).2
    refine ⟨hmemAll, ?_, ?_, ?_, ?_⟩
    · refine ⟨?_, ?_, ?_, ?_, ?_, ?_, ?_, ?_⟩
      · rw [hcan]
        exact hw.bidsSorted
      · rw [hcan]
        exact List.Pairwise.sublist hkeys hw.asksSorted
      · rw [hcan]
        exact hw.bidsLevels
      · rw [hcan]
        intro l' hl'
        obtain ⟨⟨q, hq, hcase⟩, hne'⟩ := hlevels l' hl'
        refine ⟨hne', fun x hx => ?_⟩
        have hxq : x ∈ q := by
          rcases hcase with h | h
          · rw [h] at hx; exact hx
          · rw [h] at hx; exact eraseOrder_subset x hx
        exact (hw.asksLevels (l'.1, q) hq).2 x hxq
      · rw [hcan]
        simp only [AllOrders_mk, List.map_append]
        refine List.Nodup.sublist ?_ (by
          have := hw.idsNodup
          rw [AllOrders_eq, List.map_append] at this
          exact this)
        exact (List.Sublist.refl _).append hidsub
      · intro x
        have horders : (CancelOrder s id).orders =
            s.orders.filter (fun e => decide (e.1 ≠ id)) := by rw [hcan]
        rw [horders, lookupEntry_filter_ne]
        by_cases hx : x = id
        · subst hx
          simp only [if_pos rfl]
          constructor
          · intro h; exact absurd h (by simp)
          · intro h; exact absurd h hidsN
        · rw [if_neg hx, hw.keysIff x]
          constructor
          · intro h
            obtain ⟨ord, hord, hoid⟩ := List.mem_map.1 h
            have hm := (hmemAll ord).2 ⟨hord, by rw [hoid]; exact hx⟩
            exact hoid ▸ List.mem_map_of_mem _ hm
          · intro h
            obtain ⟨ord, hord, hoid⟩ := List.mem_map.1 h
            exact hoid ▸ List.mem_map_of_mem _ ((hmemAll ord).1 hord).1
      · rw [hcan]
        exact List.Nodup.sublist ((List.filter_sublist _).map _) hw.keysNodup
      · rw [hcan]
        intro e he
        have hmem : e ∈ s.orders := List.mem_of_mem_filter he
        have hkeep : e.1 ≠ id := by simpa using List.of_mem_filter he
        obtain ⟨ord, hord, hoid, hstat⟩ := hw.entries e hmem
        refine ⟨ord, ?_, hoid, hstat⟩
        have := (hmemAll ord).2 ⟨hord, by rw [hoid]; exact hkeep⟩
        rw [hcan] at this
        exact this
    · rw [hcan]
    · rw [hcan]
      exact hkeys
    · rw [hcan]
  | Buy =>
    have hentryside : entry.side = Side.Buy := by rw [hentry]; exact hside
    have hentryprice : entry.price = o.price := by rw [hentry]; rfl
    have hcan : CancelOrder s id =
        { s with orders := s.orders.filter (fun e => decide (e.1 ≠ id)),
                 bids := RemoveFromLevels s.bids o.price o.orderId } := by
      rw [CancelOrder, hl]
      simp only [hentryside, hentryprice, hid']
    obtain ⟨hmemx, hkeys, hlevels, hidsub⟩ := RemoveFromLevels_effect
      (MidWF_bids_ids_nodup hw) (sorted_nodup_desc hw.bidsSorted)
      (fun l hlm x hx => ((hw.bidsLevels l hlm).2 x hx).2)
      (fun l hlm => (hw.bidsLevels l hlm).1)
      (MidWF_mem_buy hw ho hside)
    have hobids : id ∈ (SideOrders s.bids).map Order.orderId := by
      rw [← hid']
      exact List.mem_map_of_mem _ (MidWF_mem_buy hw ho hside)
    have hmemAll : ∀ x, x ∈ AllOrders (CancelOrder s id) ↔
        (x ∈ AllOrders s ∧ x.orderId ≠ id) := by
      intro x
      rw [hcan]
      simp only [AllOrders_mk, List.mem_append, AllOrders_eq]
      constructor
      · rintro (hx | hx)
        · obtain ⟨hx', hne⟩ := (hmemx x).1 hx
          exact ⟨Or.inl hx', by rw [← hid']; exact hne⟩
        · refine ⟨Or.inr hx, fun hc => ?_⟩
          exact MidWF_ids_disj hw id hobids (hc ▸ List.mem_map_of_mem _ hx)
      · rintro ⟨hx | hx, hne⟩
        · exact Or.inl ((hmemx x).2 ⟨hx, by rw [hid']; exact hne⟩)
        · exact Or.inr hx
    have hidsN : id ∉ (AllOrders (CancelOrder s id)).map Order.orderId := by
      intro hc
      obtain ⟨x, hx, hxid⟩ := List.mem_map.1 hc
      exact absurd hxid ((hmemAll x).1 hx).2
    refine ⟨hmemAll, ?_, ?_, ?_, ?_⟩
    · refine ⟨?_, ?_, ?_, ?_, ?_, ?_, ?_, ?_⟩
      · rw [hcan]
        exact List.Pairwise.sublist hkeys hw.bidsSorted
      · rw [hcan]
        exact hw.asksSorted
      · rw [hcan]
        intro l' hl'
        obtain ⟨⟨q, hq, hcase⟩, hne'⟩ := hlevels l' hl'
        refine ⟨hne', fun x hx => ?_⟩
        have hxq : x ∈ q := by
          rcases hcase with h | h
          · rw [h] at hx; exact hx
          · rw [h] at hx; exact eraseOrder_subset x hx
        exact (hw.bidsLevels (l'.1, q) hq).2 x hxq
      · rw [hcan]
        exact hw.asksLevels
      · rw [hcan]
        simp only [AllOrders_mk, List.map_append]
        refine List.Nodup.sublist ?_ (by
          have := hw.idsNodup
          rw [AllOrders_eq, List.map_append] at this
          exact this)
        exact hidsub.append (List.Sublist.refl _)
      · intro x
        have horders : (CancelOrder s id).orders =
            s.orders.filter (fun e => decide (e.1 ≠ id)) := by rw [hcan]
        rw [horders, lookupEntry_filter_ne]
        by_cases hx : x = id
        · subst hx
          simp only [if_pos rfl]
          constructor
          · intro h; exact absurd h (by simp)
          · intro h; exact absurd h hidsN
        · rw [if_neg hx, hw.keysIff x]
          constructor
          · intro h
            obtain ⟨ord, hord, hoid⟩ := List.mem_map.1 h
            have hm := (hmemAll ord).2 ⟨hord, by rw [hoid]; exact hx⟩
            exact hoid ▸ List.mem_map_of_mem _ hm
          · intro h
            obtain ⟨ord, hord, hoid⟩ := List.mem_map.1 h
            exact hoid ▸ List.mem_map_of_mem _ ((hmemAll ord).1 hord).1
      · rw [hcan]
        exact List.Nodup.sublist ((List.filter_sublist _).map _) hw.keysNodup
      · rw [hcan]
        intro e he
        have hmem : e ∈ s.orders := List.mem_of_mem_filter he
        have hkeep : e.1 ≠ id := by simpa using List.of_mem_filter he
        obtain ⟨ord, hord, hoid, hstat⟩ := hw.entries e hmem
        refine ⟨ord, ?_, hoid, hstat⟩
        have := (hmemAll ord).2 ⟨hord, by rw [hoid]; exact hkeep⟩
        rw [hcan] at this
        exact this
    · rw [hcan]
      exact hkeys
    · rw [hcan]
    · rw [hcan]

theorem uncrossed_of_sub {s s' : Orderbook}
    (hb : (s'.bids.map Prod.fst).Sublist (s.bids.map Prod.fst))
    (ha : (s'.asks.map Prod.fst).Sublist (s.asks.map Prod.fst))
    (hsb : (s.bids.map Prod.fst).Pairwise (fun a b => b < a))
    (hsa : (s.asks.map Prod.fst).Pairwise (fun a b => a < b))
    (hu : ∀ bl ∈ s.bids.head?, ∀ al ∈ s.asks.head?, bl.1 < al.1) :
    ∀ bl ∈ s'.bids.head?, ∀ al ∈ s'.asks.head?, bl.1 < al.1 := by
  intro bl hbl al hal
  cases hsb' : s'.bids with
  | nil => rw [hsb'] at hbl; simp at hbl
  | cons bh rest =>
    cases hsa' : s'.asks with
    | nil => rw [hsa'] at hal; simp at hal
    | cons ah resta =>
      rw [hsb'] at hbl
      rw [hsa'] at hal
      simp only [List.head?_cons, Option.mem_def, Option.some.injEq] at hbl hal
      subst hbl
      subst hal
      have hblk : bh.1 ∈ s.bids.map Prod.fst := by
        refine hb.subset ?_
        rw [hsb']
        simp
      have halk : ah.1 ∈ s.asks.map Prod.fst := by
        refine ha.subset ?_
        rw [hsa']
        simp
      cases hob : s.bids with
      | nil => rw [hob] at hblk; simp at hblk
      | cons obh obr =>
        cases hoa : s.asks with
        | nil => rw [hoa] at halk; simp at halk
        | cons oah oar =>
          have h1 : bh.1 ≤ obh.1 := by
            rw [hob] at hblk
            simp only [List.map_cons, List.mem_cons] at hblk
            rcases hblk with h | h
            · exact le_of_eq h
            · rw [hob] at hsb
              simp only [List.map_cons, List.pairwise_cons] at hsb
              exact le_of_lt (hsb.1 _ h)
          have h2 : oah.1 ≤ ah.1 := by
            rw [hoa] at halk
            simp only [List.map_cons, List.mem_cons] at halk
            rcases halk with h | h
            · exact le_of_eq h.symm
            · rw [hoa] at hsa
              simp only [List.map_cons, List.pairwise_cons] at hsa
              exact le_of_lt (hsa.1 _ h)
          have h3 : obh.1 < oah.1 := by
            refine hu obh ?_ oah ?_
            · rw [hob]; rfl
            · rw [hoa]; rfl
          omega

theorem CancelOrder_midWF {s : Orderbook} (hw : MidWF s) (id : Nat) :
    MidWF (CancelOrder s id) := by
  cases hl : lookupEntry s.orders id with
  | none => rw [CancelOrder_eq_of_none hl]; exact hw
  | some entry => exact (CancelOrder_master hw hl).2.1

theorem CancelOrder_mem_iff {s : Orderbook} (hw : MidWF s) (id : Nat) :
    ∀ x, x ∈ AllOrders (CancelOrder s id) ↔ (x ∈ AllOrders s ∧ x.orderId ≠ id) := by
  cases hl : lookupEntry s.orders id with
  | none =>
    rw [CancelOrder_eq_of_none hl]
    intro x
    refine ⟨fun hx => ⟨hx, fun hc => ?_⟩, fun hx => hx.1⟩
    have : id ∈ (AllOrders s).map Order.orderId := hc ▸ List.mem_map_of_mem _ hx
    have := (hw.keysIff id).2 this
    rw [hl] at this
    simp at this
  | some entry => exact (CancelOrder_master hw hl).1

theorem CancelOrder_bookWF {s : Orderbook} (hw : BookWF s) (id : Nat) :
    BookWF (CancelOrder s id) := by
  cases hl : lookupEntry s.orders id with
  | none => rw [CancelOrder_eq_of_none hl]; exact hw
  | some entry =>
    obtain ⟨-, hmid, hbk, hak, -⟩ := CancelOrder_master hw.toMidWF hl
    exact ⟨hmid, uncrossed_of_sub hbk hak hw.bidsSorted hw.asksSorted hw.uncrossed⟩

/-- On a book with no resting fill-and-kill order the sweep does
nothing. -/
theorem FakSweep_eq_of_noFak {s : Orderbook} (hf : NoFak s) : FakSweep s = s := by
  have hbid : ∀ p o rest restB, s.bids = (p, o :: rest) :: restB →
      o.orderType = OrderType.GoodTillCancel := by
    intro p o rest restB h
    refine hf o ?_
    rw [AllOrders_eq, h]
    simp
  have hask : ∀ p o rest restA, s.asks = (p, o :: rest) :: restA →
      o.orderType = OrderType.GoodTillCancel := by
    intro p o rest restA h
    refine hf o ?_
    rw [AllOrders_eq, h]
    simp
  rw [FakSweep]
  cases hb : s.bids with
  | nil =>
    cases ha : s.asks with
    | nil => simp [ha]
    | cons al restA =>
      obtain ⟨ap, aq⟩ := al
      cases aq with
      | nil => simp [ha]
      | cons ao arest =>
        have := hask ap ao arest restA ha
        simp [ha, this]
  | cons bl restB =>
    obtain ⟨bp, bq⟩ := bl
    cases bq with
    | nil =>
      cases ha : s.asks with
      | nil => simp [ha]
      | cons al restA =>
        obtain ⟨ap, aq⟩ := al
        cases aq with
        | nil => simp [ha]
        | cons ao arest =>
          have := hask ap ao arest restA ha
          simp [ha, this]
    | cons bo brest =>
      have hbo := hbid bp bo brest restB hb
      cases ha : s.asks with
      | nil => simp [hb, hbo, ha]
      | cons al restA =>
        obtain ⟨ap, aq⟩ := al
        cases aq with
        | nil => simp [hb, hbo, ha]
        | cons ao arest =>
          have := hask ap ao arest restA ha
          simp [hb, hbo, ha, this]

/-- The inserted order joins the tail of its price's queue; as a
multiset of orders, insertion just adds the order. -/
theorem AddToLevels_perm (before : Int → Int → Bool) (levels : List (Int × List Order))
    (ord : Order) :
    (SideOrders (AddToLevels before levels ord)).Perm (ord :: SideOrders levels) := by
  induction levels with
  | nil => simp [AddToLevels, SideOrders]
  | cons l rest ih =>
    obtain ⟨p, q⟩ := l
    by_cases hp : ord.price = p
    · rw [AddToLevels, if_pos hp]
      simp only [SideOrders_cons]
      have heq : (q ++ [ord]) ++ SideOrders rest = q ++ (ord :: SideOrders rest) := by simp
      rw [heq]
      exact List.perm_middle
    · rw [AddToLevels, if_neg hp]
      by_cases hb : before ord.price p
      · rw [if_pos hb]
        simp
      · rw [if_neg hb]
        simp only [SideOrders_cons]
        exact (List.Perm.append_left q ih).trans List.perm_middle

/-- Each level after insertion is an old level, the new singleton level,
or the old level of the order's price with the order appended. -/
theorem AddToLevels_mem (before : Int → Int → Bool) (levels : List (Int × List Order))
    (ord : Order) :
    ∀ l ∈ AddToLevels before levels ord, l ∈ levels ∨
      (l.1 = ord.price ∧ l.2 = [ord]) ∨
      (∃ q, (l.1, q) ∈ levels ∧ l.1 = ord.price ∧ l.2 = q ++ [ord]) := by
  induction levels with
  | nil =>
    intro l hl
    rw [AddToLevels] at hl
    rcases List.mem_singleton.1 hl with h
    rw [h]
    exact Or.inr (Or.inl ⟨rfl, rfl⟩)
  | cons lv rest ih =>
    obtain ⟨p, q⟩ := lv
    intro l hl
    by_cases hp : ord.price = p
    · rw [AddToLevels, if_pos hp] at hl
      rcases List.mem_cons.1 hl with h | h
      · subst h
        exact Or.inr (Or.inr ⟨q, List.mem_cons_self _ _, hp.symm, rfl⟩)
      · exact Or.inl (List.mem_cons_of_mem _ h)
    · rw [AddToLevels, if_neg hp] at hl
      by_cases hb : before ord.price p
      · rw [if_pos hb] at hl
        rcases List.mem_cons.1 hl with h | h
        · subst h
          exact Or.inr (Or.inl ⟨rfl, rfl⟩)
        · exact Or.inl h
      · rw [if_neg hb] at hl
        rcases List.mem_cons.1 hl with h | h
        · subst h
          exact Or.inl (List.mem_cons_self _ _)
        · rcases ih l h with h' | h' | ⟨q', hq', hp', hl'⟩
          · exact Or.inl (List.mem_cons_of_mem _ h')
          · exact Or.inr (Or.inl h')
          · exact Or.inr (Or.inr ⟨q', List.mem_cons_of_mem _ hq', hp', hl'⟩)

theorem AddToLevels_keys_sub (before : Int → Int → Bool) (levels : List (Int × List Order))
    (ord : Order) :
    ∀ k ∈ (AddToLevels before levels ord).map Prod.fst,
      k ∈ levels.map Prod.fst ∨ k = ord.price := by
  intro k hk
  obtain ⟨l, hl, hkl⟩ := List.mem_map.1 hk
  rcases AddToLevels_mem before levels ord l hl with h | ⟨h, -⟩ | ⟨q, hq, h, -⟩
  · exact Or.inl (hkl ▸ List.mem_map_of_mem _ h)
  · exact Or.inr (by rw [← hkl, h])
  · exact Or.inr (by rw [← hkl, h])

theorem AddToLevels_sorted_desc (levels : List (Int × List Order)) (ord : Order)
    (hs : (levels.map Prod.fst).Pairwise (fun a b => b < a)) :
    ((AddToLevels (fun x y => decide (x > y)) levels ord).map Prod.fst).Pairwise
      (fun a b => b < a) := by
  induction levels with
  | nil => simp [AddToLevels]
  | cons lv rest ih =>
    obtain ⟨p, q⟩ := lv
    simp only [List.map_cons, List.pairwise_cons] at hs
    by_cases hp : ord.price = p
    · rw [AddToLevels, if_pos hp]
      simp only [List.map_cons, List.pairwise_cons]
      exact ⟨hs.1, hs.2⟩
    · by_cases hb : ord.price > p
      · rw [AddToLevels, if_neg hp, if_pos (by simpa using hb)]
        simp only [List.map_cons, List.pairwise_cons]
        refine ⟨?_, hs.1, hs.2⟩
        intro k hk
        rcases List.mem_cons.1 hk with h | h
        · omega
        · have := hs.1 k h
          omega
      · rw [AddToLevels, if_neg hp, if_neg (by simpa using hb)]
        simp only [List.map_cons, List.pairwise_cons]
        refine ⟨?_, ih hs.2⟩
        intro k hk
        rcases AddToLevels_keys_sub _ rest ord k hk with h | h
        · exact hs.1 k h
        · subst h
          omega

theorem AddToLevels_sorted_asc (levels : List (Int × List Order)) (ord : Order)
    (hs : (levels.map Prod.fst).Pairwise (fun a b => a < b)) :
    ((AddToLevels (fun x y => decide (x < y)) levels ord).map Prod.fst).Pairwise
      (fun a b => a < b) := by
  induction levels with
  | nil => simp [AddToLevels]
  | cons lv rest ih =>
    obtain ⟨p, q⟩ := lv
    simp only [List.map_cons, List.pairwise_cons] at hs
    by_cases hp : ord.price = p
    · rw [AddToLevels, if_pos hp]
      simp only [List.map_cons, List.pairwise_cons]
      exact ⟨hs.1, hs.2⟩
    · by_cases hb : ord.price < p
      · rw [AddToLevels, if_neg hp, if_pos (by simpa using hb)]
        simp only [List.map_cons, List.pairwise_cons]
        refine ⟨?_, hs.1, hs.2⟩
        intro k hk
        rcases List.mem_cons.1 hk with h | h
        · omega
        · have := hs.1 k h
          omega
      · rw [AddToLevels, if_neg hp, if_neg (by simpa using hb)]
        simp only [List.map_cons, List.pairwise_cons]
        refine ⟨?_, ih hs.2⟩
        intro k hk
        rcases AddToLevels_keys_sub _ rest ord k hk with h | h
        · exact hs.1 k h
        · subst h
          omega

/-- When the new price strictly precedes every existing level the order
opens a fresh singleton level at the top. -/
theorem AddToLevels_top (before : Int → Int → Bool) (levels : List (Int × List Order))
    (ord : Order)
    (h : levels = [] ∨ ∃ p q rest, levels = (p, q) :: rest ∧ ord.price ≠ p ∧
      before ord.price p = true) :
    AddToLevels before levels ord = (ord.price, [ord]) :: levels := by
  rcases h with h | ⟨p, q, rest, h, hne, hb⟩
  · rw [h]; rfl
  · rw [h, AddToLevels, if_neg hne, if_pos hb]

/-- The book state after `AddOrder`'s insertion stage (order appended to
its side and to the index), before matching runs. -/
def InsertBook (s : Orderbook) (order : Order) : Orderbook :=
  match order.side with
  | Side.Buy =>
    { s with bids := AddToLevels (fun x y => decide (x > y)) s.bids order,
             orders := s.orders ++ [(order.orderId, OrderEntry.ofOrder order)] }
  | Side.Sell =>
    { s with asks := AddToLevels (fun x y => decide (x < y)) s.asks order,
             orders := s.orders ++ [(order.orderId, OrderEntry.ofOrder order)] }

theorem AddOrder_dup {s : Orderbook} {order : Order}
    (h : (lookupEntry s.orders order.orderId).isSome = true) :
    AddOrder s order = (s, []) := by
  rw [AddOrder, if_pos h]

theorem AddOrder_fakReject {s : Orderbook} {order : Order}
    (h1 : ¬ (lookupEntry s.orders order.orderId).isSome = true)
    (h2 : order.orderType = OrderType.FillandKill)
    (h3 : CanMatch s order.side order.price = false) :
    AddOrder s order = (s, []) := by
  rw [AddOrder, if_neg h1, if_pos ⟨h2, h3⟩]

theorem AddOrder_eq_insert {s : Orderbook} {order : Order}
    (h1 : ¬ (lookupEntry s.orders order.orderId).isSome = true)
    (h2 : ¬ (order.orderType = OrderType.FillandKill ∧
      CanMatch s order.side order.price = false)) :
    AddOrder s order = MatchOrders (InsertBook s order) := by
  rw [AddOrder, if_neg h1, if_neg h2]
  cases h : order.side <;> simp only [InsertBook, h]

theorem lookupEntry_append_single (l : List (Nat × OrderEntry)) (oid : Nat) (e : OrderEntry)
    (id : Nat) :
    lookupEntry (l ++ [(oid, e)]) id =
      match lookupEntry l id with
      | some e' => some e'
      | none => if oid = id then some e else none := by
  cases h : lookupEntry l id with
  | some e' => exact lookupEntry_append_left _ h
  | none =>
    rw [lookupEntry_append_right _ h]
    rfl

/-- Inserting a fresh order adds it to the pool of live orders (as a
multiset). -/
theorem InsertBook_perm (s : Orderbook) (order : Order) :
    (AllOrders (InsertBook s order)).Perm (order :: AllOrders s) := by
  cases hside : order.side with
  | Buy =>
    have : InsertBook s order =
        { s with bids := AddToLevels (fun x y => decide (x > y)) s.bids order,
                 orders := s.orders ++ [(order.orderId, OrderEntry.ofOrder order)] } := by
      rw [InsertBook, hside]
    rw [this]
    simp only [AllOrders_mk, AllOrders_eq]
    exact List.Perm.append_right _ (AddToLevels_perm _ _ _)
  | Sell =>
    have : InsertBook s order =
        { s with asks := AddToLevels (fun x y => decide (x < y)) s.asks order,
                 orders := s.orders ++ [(order.orderId, OrderEntry.ofOrder order)] } := by
      rw [InsertBook, hside]
    rw [this]
    simp only [AllOrders_mk, AllOrders_eq]
    exact (List.Perm.append_left _ (AddToLevels_perm _ _ _)).trans List.perm_middle

/-- Insertion of a fresh order preserves the mid-state invariant. -/
theorem InsertBook_midWF {s : Orderbook} (hw : MidWF s) {order : Order}
    (hfresh : lookupEntry s.orders order.orderId = none) :
    MidWF (InsertBook s order) := by
  have hfreshid : order.orderId ∉ (AllOrders s).map Order.orderId := by
    intro hc
    have := (hw.keysIff order.orderId).2 hc
    rw [hfresh] at this
    simp at this
  have hperm := InsertBook_perm s order
  have hidsperm : ((AllOrders (InsertBook s order)).map Order.orderId).Perm
      (order.orderId :: (AllOrders s).map Order.orderId) := by
    simpa using hperm.map Order.orderId
  have hords : (InsertBook s order).orders =
      s.orders ++ [(order.orderId, OrderEntry.ofOrder order)] := by
    cases hside : order.side <;> rw [InsertBook, hside]
  have hmemiff : ∀ id, id ∈ (AllOrders (InsertBook s order)).map Order.orderId ↔
      (id = order.orderId ∨ id ∈ (AllOrders s).map Order.orderId) := by
    intro id
    rw [hidsperm.mem_iff]
    simp
  refine ⟨?_, ?_, ?_, ?_, ?_, ?_, ?_, ?_⟩
  · cases hside : order.side with
    | Buy =>
      have : (InsertBook s order).bids =
          AddToLevels (fun x y => decide (x > y)) s.bids order := by
        rw [InsertBook, hside]
      rw [this]
      exact AddToLevels_sorted_desc _ _ hw.bidsSorted
    | Sell =>
      have : (InsertBook s order).bids = s.bids := by rw [InsertBook, hside]
      rw [this]
      exact hw.bidsSorted
  · cases hside : order.side with
    | Buy =>
      have : (InsertBook s order).asks = s.asks := by rw [InsertBook, hside]
      rw [this]
      exact hw.asksSorted
    | Sell =>
      have : (InsertBook s order).asks =
          AddToLevels (fun x y => decide (x < y)) s.asks order := by
        rw [InsertBook, hside]
      rw [this]
      exact AddToLevels_sorted_asc _ _ hw.asksSorted
  · cases hside : order.side with
    | Buy =>
      have heq : (InsertBook s order).bids =
          AddToLevels (fun x y => decide (x > y)) s.bids order := by
        rw [InsertBook, hside]
      rw [heq]
      intro l hl
      rcases AddToLevels_mem _ s.bids order l hl with h | ⟨hp, hq⟩ | ⟨q, hq, hp, hl2⟩
      · exact hw.bidsLevels l h
      · rw [hq]
        refine ⟨by simp, ?_⟩
        intro x hx
        rcases List.mem_singleton.1 hx with h
        rw [h, hp]
        exact ⟨hside, rfl⟩
      · rw [hl2]
        refine ⟨by simp, ?_⟩
        intro x hx
        rcases List.mem_append.1 hx with h | h
        · exact (hw.bidsLevels (l.1, q) hq).2 x h
        · rcases List.mem_singleton.1 h with h
          rw [h, hp]
          exact ⟨hside, rfl⟩
    | Sell =>
      have heq : (InsertBook s order).bids = s.bids := by rw [InsertBook, hside]
      rw [heq]
      exact hw.bidsLevels
  · cases hside : order.side with
    | Buy =>
      have heq : (InsertBook s order).asks = s.asks := by rw [InsertBook, hside]
      rw [heq]
      exact hw.asksLevels
    | Sell =>
      have heq : (InsertBook s order).asks =
          AddToLevels (fun x y => decide (x < y)) s.asks order := by
        rw [InsertBook, hside]
      rw [heq]
      intro l hl
      rcases AddToLevels_mem _ s.asks order l hl with h | ⟨hp, hq⟩ | ⟨q, hq, hp, hl2⟩
      · exact hw.asksLevels l h
      · rw [hq]
        refine ⟨by simp, ?_⟩
        intro x hx
        rcases List.mem_singleton.1 hx with h
        rw [h, hp]
        exact ⟨hside, rfl⟩
      · rw [hl2]
        refine ⟨by simp, ?_⟩
        intro x hx
        rcases List.mem_append.1 hx with h | h
        · exact (hw.asksLevels (l.1, q) hq).2 x h
        · rcases List.mem_singleton.1 h with h
          rw [h, hp]
          exact ⟨hside, rfl⟩
  · rw [hidsperm.nodup_iff]
    exact List.nodup_cons.2 ⟨hfreshid, hw.idsNodup⟩
  · intro id
    rw [hords, lookupEntry_append_single, hmemiff id]
    cases h : lookupEntry s.orders id with
    | some e' =>
      simp only [Option.isSome_some, true_iff]
      right
      rw [← hw.keysIff id, h]
      rfl
    | none =>
      by_cases hid : order.orderId = id
      · simp [hid]
      · rw [if_neg hid]
        have h1 : id ∉ (AllOrders s).map Order.orderId := by
          rw [← hw.keysIff id, h]
          simp
        simp only [Option.isSome_none, Bool.false_eq_true, false_iff]
        push_neg
        exact ⟨fun hc => hid hc.symm, h1⟩
  · rw [hords]
    simp only [List.map_append, List.map_cons, List.map_nil]
    rw [List.nodup_append]
    refine ⟨hw.keysNodup, by simp, ?_⟩
    intro x hx hc
    rcases List.mem_singleton.1 hc with h
    rw [h] at hx
    exact (lookupEntry_eq_none.1 hfresh) hx
  · rw [hords]
    intro e he
    rcases List.mem_append.1 he with h | h
    · obtain ⟨o, ho, hid, hst⟩ := hw.entries e h
      refine ⟨o, ?_, hid, hst⟩
      rw [hperm.mem_iff]
      exact List.mem_cons_of_mem _ ho
    · rcases List.mem_singleton.1 h with h
      refine ⟨order, ?_, by rw [h], by rw [h]⟩
      rw [hperm.mem_iff]
      exact List.mem_cons_self _ _

theorem SideCut_pos {ls ls' : List (Int × List Order)} (h : SideCut ls ls')
    (hp : ∀ o ∈ SideOrders ls, 0 < o.remainingQuantity) :
    ∀ o' ∈ SideOrders ls', 0 < o'.remainingQuantity := by
  intro o' ho'
  simp only [SideOrders, List.mem_flatMap] at ho'
  obtain ⟨l', hl', hol'⟩ := ho'
  rcases h.mem_rel l' hl' with hm | ⟨q, n, hm, hcut, -⟩
  · exact hp o' (by simp only [SideOrders, List.mem_flatMap]; exact ⟨l', hm, hol'⟩)
  · refine hcut.pos ?_ o' hol'
    intro x hx
    exact hp x (by simp only [SideOrders, List.mem_flatMap]; exact ⟨(l'.1, q), hm, hx⟩)

theorem MatchLoop_pos (fuel : Nat) (s : Orderbook) (hp : PosRem s) :
    PosRem (MatchLoop fuel s).1 := by
  obtain ⟨hcb, hca⟩ := MatchLoop_cut fuel s
  intro o' ho'
  rw [AllOrders_eq] at ho'
  rcases List.mem_append.1 ho' with h | h
  · exact SideCut_pos hcb (fun o ho => hp o (List.mem_append_left _ ho)) o' h
  · exact SideCut_pos hca (fun o ho => hp o (List.mem_append_right _ ho)) o' h

theorem FakSweep_bookWF {s : Orderbook} (hw : BookWF s) : BookWF (FakSweep s) := by
  rw [FakSweep]
  have step : ∀ (t : Orderbook), BookWF t →
      BookWF (match t.asks with
        | (_, order :: _) :: _ =>
          if order.orderType = OrderType.FillandKill then CancelOrder t order.orderId else t
        | _ => t) := by
    intro t ht
    split
    · split
      · exact CancelOrder_bookWF ht _
      · exact ht
    · exact ht
  refine step _ ?_
  split
  · split
    · exact CancelOrder_bookWF hw _
    · exact hw
  · exact hw

/-- After `MatchOrders` (loop plus sweep) on any mid-invariant book the
full book invariant holds: the loop restores uncrossedness and the
sweep only cancels. -/
theorem MatchOrders_bookWF {s : Orderbook} (hw : MidWF s) : BookWF (MatchOrders s).1 := by
  rw [MatchOrders]
  have hmid := MatchLoop_midWF (s.bids.length + s.asks.length + 1) s hw
  have hdone := MatchLoop_exit (s.bids.length + s.asks.length + 1) s (by omega)
  exact FakSweep_bookWF (BookWF_of_loopDone hmid hdone)

theorem FakSweep_subset {s : Orderbook} (hw : MidWF s) :
    ∀ x ∈ AllOrders (FakSweep s), x ∈ AllOrders s := by
  have hcancel : ∀ (t : Orderbook) (id : Nat), MidWF t →
      ∀ x ∈ AllOrders (CancelOrder t id), x ∈ AllOrders t := by
    intro t id ht x hx
    exact ((CancelOrder_mem_iff ht id x).1 hx).1
  have h1 : MidWF (match s.bids with
      | (_, order :: _) :: _ =>
        if order.orderType = OrderType.FillandKill then CancelOrder s order.orderId else s
      | _ => s) ∧
      (∀ x ∈ AllOrders (match s.bids with
        | (_, order :: _) :: _ =>
          if order.orderType = OrderType.FillandKill then CancelOrder s order.orderId else s
        | _ => s), x ∈ AllOrders s) := by
    split
    · split
      · exact ⟨CancelOrder_midWF hw _, hcancel _ _ hw⟩
      · exact ⟨hw, fun x hx => hx⟩
    · exact ⟨hw, fun x hx => hx⟩
  obtain ⟨hmid1, hsub1⟩ := h1
  rw [FakSweep]
  intro x hx
  refine hsub1 x ?_
  revert hx
  split
  · split
    · intro hx
      exact hcancel _ _ hmid1 x hx
    · intro hx
      exact hx
  · intro hx
    exact hx

theorem emptyOrderbook_bookWF : BookWF emptyOrderbook := by
  refine ⟨⟨?_, ?_, ?_, ?_, ?_, ?_, ?_, ?_⟩, ?_⟩ <;>
    simp [emptyOrderbook, AllOrders, SideOrders, lookupEntry]

theorem AddOrder_bookWF {s : Orderbook} (hw : BookWF s) (order : Order) :
    BookWF (AddOrder s order).1 := by
  by_cases h1 : (lookupEntry s.orders order.orderId).isSome = true
  · rw [AddOrder_dup h1]
    exact hw
  · by_cases h2 : order.orderType = OrderType.FillandKill ∧
        CanMatch s order.side order.price = false
    · rw [AddOrder_fakReject h1 h2.1 h2.2]
      exact hw
    · rw [AddOrder_eq_insert h1 h2]
      have hfresh : lookupEntry s.orders order.orderId = none := by
        cases h : lookupEntry s.orders order.orderId with
        | none => rfl
        | some e => rw [h] at h1; simp at h1
      exact MatchOrders_bookWF (InsertBook_midWF hw.toMidWF hfresh)

theorem MatchOrder_bookWF {s : Orderbook} (hw : BookWF s) (m : OrderModify) :
    BookWF (MatchOrder s m).1 := by
  rw [MatchOrder]
  cases h : lookupEntry s.orders m.orderId with
  | none => exact hw
  | some entry => exact AddOrder_bookWF (CancelOrder_bookWF hw _) _

/-- Every reachable book satisfies the full book invariant. -/
theorem reachable_bookWF {s : Orderbook} (h : Reachable s) : BookWF s := by
  induction h with
  | empty => exact emptyOrderbook_bookWF
  | add t id sd p q h ih => exact AddOrder_bookWF ih _
  | cancel id h ih => exact CancelOrder_bookWF ih _
  | modify m h ih => exact MatchOrder_bookWF ih _

theorem reachablePos_reachable {s : Orderbook} (h : ReachablePos s) : Reachable s := by
  induction h with
  | empty => exact Reachable.empty
  | add t id sd p hq h ih => exact Reachable.add t id sd p _ ih
  | cancel id h ih => exact Reachable.cancel id ih
  | modify hq h ih => exact Reachable.modify _ ih

/-- A fill-and-kill buy that was inserted alone at the top of the bid
side either is fully consumed by the loop or survives as the lone head
of the best bid level; the rest of the book stays good-till-cancelled
on the ask side and the bid tail is returned untouched. -/
theorem MatchLoop_fak_buy (fuel : Nat) (s : Orderbook) (o : Order)
    (restB : List (Int × List Order))
    (hb : s.bids = (o.price, [o]) :: restB)
    (hasksGtc : ∀ x ∈ SideOrders s.asks, x.orderType = OrderType.GoodTillCancel)
    (hasksSorted : (s.asks.map Prod.fst).Pairwise (fun a b => a < b))
    (hlt : ∀ bk ∈ (restB.map Prod.fst).head?, ∀ ak ∈ (s.asks.map Prod.fst).head?, bk < ak) :
    ((MatchLoop fuel s).1.bids = restB ∨
      ∃ o', (MatchLoop fuel s).1.bids = (o.price, [o']) :: restB ∧
        o'.orderId = o.orderId ∧ o'.orderType = o.orderType ∧ o'.price = o.price) ∧
    (∀ x ∈ SideOrders (MatchLoop fuel s).1.asks, x.orderType = OrderType.GoodTillCancel) := by
  induction fuel generalizing s o with
  | zero =>
    rw [MatchLoop_zero]
    exact ⟨Or.inr ⟨o, hb, rfl, rfl, rfl⟩, hasksGtc⟩
  | succ fuel ih =>
    cases ha : s.asks with
    | nil =>
      rw [MatchLoop_exit_asks _ _ ha]
      exact ⟨Or.inr ⟨o, hb, rfl, rfl, rfl⟩, hasksGtc⟩
    | cons al restA =>
      obtain ⟨ap, aq⟩ := al
      by_cases hcross : o.price < ap
      · rw [MatchLoop_exit_crossed _ _ hb ha hcross]
        exact ⟨Or.inr ⟨o, hb, rfl, rfl, rfl⟩, hasksGtc⟩
      · by_cases haq : aq = []
        · rw [MatchLoop_exit_degenerate _ _ hb ha (Or.inr haq)]
          exact ⟨Or.inr ⟨o, hb, rfl, rfl, rfl⟩, hasksGtc⟩
        · rw [MatchLoop_step fuel s hb ha hcross (by simp) haq]
          obtain ⟨k, hk, n, hn, hcutb, hcuta, hiff⟩ := MatchLevel_spec [o] aq
          have hasks2Gtc : ∀ x ∈ SideOrders
              (StepBook s o.price [o] restB ap aq restA).asks,
              x.orderType = OrderType.GoodTillCancel := by
            intro x hx
            by_cases he : (MatchLevel [o] aq).askQueue.isEmpty
            · have : (StepBook s o.price [o] restB ap aq restA).asks = restA := by
                simp [StepBook, he]
              rw [this] at hx
              refine hasksGtc x ?_
              rw [ha]
              simp only [SideOrders_cons, List.mem_append]
              exact Or.inr hx
            · have : (StepBook s o.price [o] restB ap aq restA).asks =
                  (ap, (MatchLevel [o] aq).askQueue) :: restA := by
                simp [StepBook, he]
              rw [this] at hx
              simp only [SideOrders_cons, List.mem_append] at hx
              rcases hx with hx | hx
              · obtain ⟨x0, hx0, heq, -⟩ := hcuta.mem x hx
                have : x0.orderType = OrderType.GoodTillCancel := by
                  refine hasksGtc x0 ?_
                  rw [ha]
                  simp only [SideOrders_cons, List.mem_append]
                  exact Or.inl hx0
                rw [heq, ← this]
                rfl
              · refine hasksGtc x ?_
                rw [ha]
                simp only [SideOrders_cons, List.mem_append]
                exact Or.inr hx
          cases hbq2 : (MatchLevel [o] aq).bidQueue with
          | nil =>
            have hs2b : (StepBook s o.price [o] restB ap aq restA).bids = restB := by
              simp [StepBook, hbq2]
            have hdone : MatchLoop fuel (StepBook s o.price [o] restB ap aq restA) =
                (StepBook s o.price [o] restB ap aq restA, []) := by
              cases hrB : restB with
              | nil =>
                refine MatchLoop_exit_bids _ _ ?_
                simp [StepBook, hbq2, hrB]
              | cons bl restB' =>
                obtain ⟨bk, bkq⟩ := bl
                have hbk : bk < ap := by
                  refine hlt bk ?_ ap ?_
                  · rw [hrB]; rfl
                  · rw [ha]; rfl
                by_cases he : (MatchLevel [o] aq).askQueue.isEmpty
                · cases hrA : restA with
                  | nil =>
                    refine MatchLoop_exit_asks _ _ ?_
                    simp [StepBook, he]
                  | cons al2 restA' =>
                    obtain ⟨ak2, aq2⟩ := al2
                    have hap : ap < ak2 := by
                      rw [ha, hrA] at hasksSorted
                      simp only [List.map_cons, List.pairwise_cons] at hasksSorted
                      exact hasksSorted.1 ak2 (by simp)
                    have h1 : (StepBook s o.price [o] ((bk, bkq) :: restB') ap aq
                        ((ak2, aq2) :: restA')).bids = (bk, bkq) :: restB' := by
                      simp [StepBook, hbq2]
                    have h2 : (StepBook s o.price [o] ((bk, bkq) :: restB') ap aq
                        ((ak2, aq2) :: restA')).asks = (ak2, aq2) :: restA' := by
                      simp [StepBook, he]
                    exact MatchLoop_exit_crossed _ _ h1 h2 (by omega)
                · have h1 : (StepBook s o.price [o] ((bk, bkq) :: restB') ap aq
                      restA).bids = (bk, bkq) :: restB' := by
                    simp [StepBook, hbq2]
                  have h2 : (StepBook s o.price [o] ((bk, bkq) :: restB') ap aq
                      restA).asks = (ap, (MatchLevel [o] aq).askQueue) :: restA := by
                    simp [StepBook, he]
                  exact MatchLoop_exit_crossed _ _ h1 h2 hbk
            rw [hdone]
            exact ⟨Or.inl hs2b, hasks2Gtc⟩
          | cons o' tail =>
            have ho' : o' = o.setRem o'.remainingQuantity ∧ tail = [] := by
              rcases hcutb with hdrop | ⟨b, rest, rr, hd, hr0, hrle, hqq⟩
              · rw [hbq2] at hdrop
                cases k with
                | zero =>
                  simp only [List.drop_zero] at hdrop
                  rcases List.cons_eq_cons.1 hdrop.symm with ⟨h1, h2⟩
                  exact ⟨by rw [← h1, Order.setRem_self], h2.symm⟩
                | succ k' =>
                  rw [List.drop_succ_cons, List.drop_nil] at hdrop
                  exact absurd hdrop.symm (by simp)
              · cases k with
                | zero =>
                  simp only [List.drop_zero] at hd
                  rcases List.cons_eq_cons.1 hd with ⟨h1, h2⟩
                  rw [hbq2] at hqq
                  rcases List.cons_eq_cons.1 hqq with ⟨h3, h4⟩
                  subst h2
                  refine ⟨?_, h4⟩
                  rw [h3, ← h1]
                  rfl
                | succ k' =>
                  rw [List.drop_succ_cons, List.drop_nil] at hd
                  exact absurd hd.symm (by simp)
            obtain ⟨ho'eq, htail⟩ := ho'
            subst htail
            have hid : o'.orderId = o.orderId := by rw [ho'eq]; rfl
            have htype : o'.orderType = o.orderType := by rw [ho'eq]; rfl
            have hprice : o'.price = o.price := by rw [ho'eq]; rfl
            have haskq : (MatchLevel [o] aq).askQueue = [] := by
              rcases MatchLevel_oneEmpty [o] aq with h | h
              · rw [hbq2] at h; exact absurd h (by simp)
              · exact h
            have hs2b : (StepBook s o.price [o] restB ap aq restA).bids =
                (o'.price, [o']) :: restB := by
              simp [StepBook, hbq2, hprice]
            have hs2a : (StepBook s o.price [o] restB ap aq restA).asks = restA := by
              simp [StepBook, haskq]
            have hrestGtc2 : ∀ x ∈ SideOrders
                (StepBook s o.price [o] restB ap aq restA).asks,
                x.orderType = OrderType.GoodTillCancel := hasks2Gtc
            obtain ⟨hc1, hc2⟩ := ih (StepBook s o.price [o] restB ap aq restA) o' hs2b
              hrestGtc2
              (by
                rw [hs2a]
                rw [ha] at hasksSorted
                simp only [List.map_cons, List.pairwise_cons] at hasksSorted
                exact hasksSorted.2)
              (by
                intro bk hbk ak hak
                rw [hs2a] at hak
                have h1 : bk < ap := by
                  refine hlt bk hbk ap ?_
                  rw [ha]; rfl
                have h2 : ap < ak := by
                  rw [ha] at hasksSorted
                  simp only [List.map_cons, List.pairwise_cons] at hasksSorted
                  refine hasksSorted.1 ak ?_
                  cases hrA : restA with
                  | nil => rw [hrA] at hak; simp at hak
                  | cons al2 restA' =>
                    rw [hrA] at hak
                    simp only [List.map_cons, List.head?_cons, Option.mem_def,
                      Option.some.injEq] at hak
                    simp [← hak]
                omega)
            refine ⟨?_, hc2⟩
            rcases hc1 with h | ⟨o'', h1, h2, h3, h4⟩
            · exact Or.inl h
            · refine Or.inr ⟨o'', ?_, by rw [h2, hid], by rw [h3, htype], by rw [h4, hprice]⟩
              rw [h1, hprice]

/-- A fill-and-kill sell that was inserted alone at the top of the ask
side either is fully consumed by the loop or survives as the lone head
of the best ask level; the rest of the book stays good-till-cancelled
on the bid side and the ask tail is returned untouched. -/
theorem MatchLoop_fak_sell (fuel : Nat) (s : Orderbook) (o : Order)
    (restA : List (Int × List Order))
    (ha : s.asks = (o.price, [o]) :: restA)
    (hbidsGtc : ∀ x ∈ SideOrders s.bids, x.orderType = OrderType.GoodTillCancel)
    (hbidsSorted : (s.bids.map Prod.fst).Pairwise (fun a b => b < a))
    (hlt : ∀ bk ∈ (s.bids.map Prod.fst).head?, ∀ ak ∈ (restA.map Prod.fst).head?, bk < ak) :
    ((MatchLoop fuel s).1.asks = restA ∨
      ∃ o', (MatchLoop fuel s).1.asks = (o.price, [o']) :: restA ∧
        o'.orderId = o.orderId ∧ o'.orderType = o.orderType ∧ o'.price = o.price) ∧
    (∀ x ∈ SideOrders (MatchLoop fuel s).1.bids, x.orderType = OrderType.GoodTillCancel) := by
  induction fuel generalizing s o with
  | zero =>
    rw [MatchLoop_zero]
    exact ⟨Or.inr ⟨o, ha, rfl, rfl, rfl⟩, hbidsGtc⟩
  | succ fuel ih =>
    cases hb : s.bids with
    | nil =>
      rw [MatchLoop_exit_bids _ _ hb]
      exact ⟨Or.inr ⟨o, ha, rfl, rfl, rfl⟩, hbidsGtc⟩
    | cons bl restB =>
      obtain ⟨bp, bq⟩ := bl
      by_cases hcross : bp < o.price
      · rw [MatchLoop_exit_crossed _ _ hb ha hcross]
        exact ⟨Or.inr ⟨o, ha, rfl, rfl, rfl⟩, hbidsGtc⟩
      · by_cases hbq : bq = []
        · rw [MatchLoop_exit_degenerate _ _ hb ha (Or.inl hbq)]
          exact ⟨Or.inr ⟨o, ha, rfl, rfl, rfl⟩, hbidsGtc⟩
        · rw [MatchLoop_step fuel s hb ha hcross hbq (by simp)]
          obtain ⟨k, hk, n, hn, hcutb, hcuta, hiff⟩ := MatchLevel_spec bq [o]
          have hbids2Gtc : ∀ x ∈ SideOrders
              (StepBook s bp bq restB o.price [o] restA).bids,
              x.orderType = OrderType.GoodTillCancel := by
            intro x hx
            by_cases he : (MatchLevel bq [o]).bidQueue.isEmpty
            · have : (StepBook s bp bq restB o.price [o] restA).bids = restB := by
                simp [StepBook, he]
              rw [this] at hx
              refine hbidsGtc x ?_
              rw [hb]
              simp only [SideOrders_cons, List.mem_append]
              exact Or.inr hx
            · have : (StepBook s bp bq restB o.price [o] restA).bids =
                  (bp, (MatchLevel bq [o]).bidQueue) :: restB := by
                simp [StepBook, he]
              rw [this] at hx
              simp only [SideOrders_cons, List.mem_append] at hx
              rcases hx with hx | hx
              · obtain ⟨x0, hx0, heq, -⟩ := hcutb.mem x hx
                have : x0.orderType = OrderType.GoodTillCancel := by
                  refine hbidsGtc x0 ?_
                  rw [hb]
                  simp only [SideOrders_cons, List.mem_append]
                  exact Or.inl hx0
                rw [heq, ← this]
                rfl
              · refine hbidsGtc x ?_
                rw [hb]
                simp only [SideOrders_cons, List.mem_append]
                exact Or.inr hx
          cases haq2 : (MatchLevel bq [o]).askQueue with
          | nil =>
            have hs2a : (StepBook s bp bq restB o.price [o] restA).asks = restA := by
              simp [StepBook, haq2]
            have hdone : MatchLoop fuel (StepBook s bp bq restB o.price [o] restA) =
                (StepBook s bp bq restB o.price [o] restA, []) := by
              cases hrA : restA with
              | nil =>
                refine MatchLoop_exit_asks _ _ ?_
                simp [StepBook, haq2]
              | cons al restA' =>
                obtain ⟨ak, akq⟩ := al
                have hak : bp < ak := by
                  refine hlt bp ?_ ak ?_
                  · rw [hb]; rfl
                  · rw [hrA]; rfl
                by_cases he : (MatchLevel bq [o]).bidQueue.isEmpty
                · cases hrB : restB with
                  | nil =>
                    refine MatchLoop_exit_bids _ _ ?_
                    simp [StepBook, he]
                  | cons bl2 restB' =>
                    obtain ⟨bk2, bkq2⟩ := bl2
                    have hbp : bk2 < bp := by
                      rw [hb, hrB] at hbidsSorted
                      simp only [List.map_cons, List.pairwise_cons] at hbidsSorted
                      exact hbidsSorted.1 bk2 (by simp)
                    have h1 : (StepBook s bp bq ((bk2, bkq2) :: restB') o.price [o]
                        ((ak, akq) :: restA')).bids = (bk2, bkq2) :: restB' := by
                      simp [StepBook, he]
                    have h2 : (StepBook s bp bq ((bk2, bkq2) :: restB') o.price [o]
                        ((ak, akq) :: restA')).asks = (ak, akq) :: restA' := by
                      simp [StepBook, haq2]
                    exact MatchLoop_exit_crossed _ _ h1 h2 (by omega)
                · have h1 : (StepBook s bp bq restB o.price [o]
                      ((ak, akq) :: restA')).bids =
                      (bp, (MatchLevel bq [o]).bidQueue) :: restB := by
                    simp [StepBook, he]
                  have h2 : (StepBook s bp bq restB o.price [o]
                      ((ak, akq) :: restA')).asks = (ak, akq) :: restA' := by
                    simp [StepBook, haq2]
                  exact MatchLoop_exit_crossed _ _ h1 h2 hak
            rw [hdone]
            exact ⟨Or.inl hs2a, hbids2Gtc⟩
          | cons o' tail =>
            have ho' : o' = o.setRem o'.remainingQuantity ∧ tail = [] := by
              rcases hcuta with hdrop | ⟨b, rest, rr, hd, hr0, hrle, hqq⟩
              · rw [haq2] at hdrop
                cases n with
                | zero =>
                  simp only [List.drop_zero] at hdrop
                  rcases List.cons_eq_cons.1 hdrop.symm with ⟨h1, h2⟩
                  exact ⟨by rw [← h1, Order.setRem_self], h2.symm⟩
                | succ n' =>
                  rw [List.drop_succ_cons, List.drop_nil] at hdrop
                  exact absurd hdrop.symm (by simp)
              · cases n with
                | zero =>
                  simp only [List.drop_zero] at hd
                  rcases List.cons_eq_cons.1 hd with ⟨h1, h2⟩
                  rw [haq2] at hqq
                  rcases List.cons_eq_cons.1 hqq with ⟨h3, h4⟩
                  subst h2
                  refine ⟨?_, h4⟩
                  rw [h3, ← h1]
                  rfl
                | succ n' =>
                  rw [List.drop_succ_cons, List.drop_nil] at hd
                  exact absurd hd.symm (by simp)
            obtain ⟨ho'eq, htail⟩ := ho'
            subst htail
            have hid : o'.orderId = o.orderId := by rw [ho'eq]; rfl
            have htype : o'.orderType = o.orderType := by rw [ho'eq]; rfl
            have hprice : o'.price = o.price := by rw [ho'eq]; rfl
            have hbidq : (MatchLevel bq [o]).bidQueue = [] := by
              rcases MatchLevel_oneEmpty bq [o] with h | h
              · exact h
              · rw [haq2] at h; exact absurd h (by simp)
            have hs2a : (StepBook s bp bq restB o.price [o] restA).asks =
                (o'.price, [o']) :: restA := by
              simp [StepBook, haq2, hprice]
            have hs2b : (StepBook s bp bq restB o.price [o] restA).bids = restB := by
              simp [StepBook, hbidq]
            have hrestGtc2 : ∀ x ∈ SideOrders
                (StepBook s bp bq restB o.price [o] restA).bids,
                x.orderType = OrderType.GoodTillCancel := hbids2Gtc
            obtain ⟨hc1, hc2⟩ := ih (StepBook s bp bq restB o.price [o] restA) o' hs2a
              hrestGtc2
              (by
                rw [hs2b]
                rw [hb] at hbidsSorted
                simp only [List.map_cons, List.pairwise_cons] at hbidsSorted
                exact hbidsSorted.2)
              (by
                intro bk hbk ak hak
                rw [hs2b] at hbk
                have h1 : bp < ak := by
                  refine hlt bp ?_ ak hak
                  rw [hb]; rfl
                have h2 : bk < bp := by
                  rw [hb] at hbidsSorted
                  simp only [List.map_cons, List.pairwise_cons] at hbidsSorted
                  refine hbidsSorted.1 bk ?_
                  cases hrB : restB with
                  | nil => rw [hrB] at hbk; simp at hbk
                  | cons bl2 restB' =>
                    rw [hrB] at hbk
                    simp only [List.map_cons, List.head?_cons, Option.mem_def,
                      Option.some.injEq] at hbk
                    simp [← hbk]
                omega)
            refine ⟨?_, hc2⟩
            rcases hc1 with h | ⟨o'', h1, h2, h3, h4⟩
            · exact Or.inl h
            · refine Or.inr ⟨o'', ?_, by rw [h2, hid], by rw [h3, htype], by rw [h4, hprice]⟩
              rw [h1, hprice]

theorem MatchOrders_fst (s : Orderbook) :
    (MatchOrders s).1 =
      FakSweep (MatchLoop (s.bids.length + s.asks.length + 1) s).1 := rfl

theorem noFak_of_sides {s : Orderbook}
    (hb : ∀ x ∈ SideOrders s.bids, x.orderType = OrderType.GoodTillCancel)
    (ha : ∀ x ∈ SideOrders s.asks, x.orderType = OrderType.GoodTillCancel) :
    NoFak s := by
  intro o ho
  rw [AllOrders_eq] at ho
  rcases List.mem_append.1 ho with h | h
  · exact hb o h
  · exact ha o h

theorem head_key_lt {bids asks : List (Int × List Order)}
    (hu : ∀ bl ∈ bids.head?, ∀ al ∈ asks.head?, bl.1 < al.1) :
    ∀ bk ∈ (bids.map Prod.fst).head?, ∀ ak ∈ (asks.map Prod.fst).head?, bk < ak := by
  intro bk hbk ak hak
  cases bids with
  | nil => simp at hbk
  | cons bl restB =>
    cases asks with
    | nil => simp at hak
    | cons al restA =>
      simp only [List.map_cons, List.head?_cons, Option.mem_def,
        Option.some.injEq] at hbk hak
      have := hu bl rfl al rfl
      rw [← hbk, ← hak]
      exact this

/-- When the loop leaves a lone fill-and-kill order at the head of the
best bid level and nothing else fill-and-kill remains, the sweep is
exactly the cancellation of that order. -/
theorem FakSweep_eq_cancel_bid {s : Orderbook} {p : Int} {o' : Order}
    {rest : List (Int × List Order)}
    (hb : s.bids = (p, [o']) :: rest)
    (hft : o'.orderType = OrderType.FillandKill)
    (hf2 : NoFak (CancelOrder s o'.orderId)) :
    FakSweep s = CancelOrder s o'.orderId := by
  rw [FakSweep, hb]
  cases ha2 : (CancelOrder s o'.orderId).asks with
  | nil => simp [hft, ha2]
  | cons al rest2 =>
    obtain ⟨ap, aq⟩ := al
    cases aq with
    | nil => simp [hft, ha2]
    | cons ao arest =>
      have hao : ao.orderType = OrderType.GoodTillCancel := by
        refine hf2 ao ?_
        rw [AllOrders_eq, ha2]
        simp [SideOrders_cons]
      simp [hft, ha2, hao]

/-- When the loop leaves a lone fill-and-kill order at the head of the
best ask level and the bid side is clean, the sweep is exactly the
cancellation of that order. -/
theorem FakSweep_eq_cancel_ask {s : Orderbook} {p : Int} {o' : Order}
    {rest : List (Int × List Order)}
    (ha : s.asks = (p, [o']) :: rest)
    (hft : o'.orderType = OrderType.FillandKill)
    (hbids : ∀ x ∈ SideOrders s.bids, x.orderType = OrderType.GoodTillCancel) :
    FakSweep s = CancelOrder s o'.orderId := by
  rw [FakSweep]
  cases hb : s.bids with
  | nil => simp [hb, ha, hft]
  | cons bl restB =>
    obtain ⟨bp, bq⟩ := bl
    cases bq with
    | nil => simp [hb, ha, hft]
    | cons bo brest =>
      have hbo : bo.orderType = OrderType.GoodTillCancel := by
        refine hbids bo ?_
        rw [hb]
        simp [SideOrders_cons]
      simp [hb, hbo, ha, hft]

/-- Submission never leaves a fill-and-kill order resting: a rejected or
duplicate fill-and-kill never enters, and an accepted one is either
fully consumed by the loop or swept from the top of its side. -/
theorem AddOrder_noFak {s : Orderbook} (hw : BookWF s) (hf : NoFak s) (order : Order) :
    NoFak (AddOrder s order).1 := by
  by_cases h1 : (lookupEntry s.orders order.orderId).isSome = true
  · rw [AddOrder_dup h1]; exact hf
  · by_cases h2 : order.orderType = OrderType.FillandKill ∧
        CanMatch s order.side order.price = false
    · rw [AddOrder_fakReject h1 h2.1 h2.2]; exact hf
    · rw [AddOrder_eq_insert h1 h2]
      have hfresh : lookupEntry s.orders order.orderId = none := by
        cases h : lookupEntry s.orders order.orderId with
        | none => rfl
        | some e => rw [h] at h1; simp at h1
      have hwI : MidWF (InsertBook s order) := InsertBook_midWF hw.toMidWF hfresh
      cases htype : order.orderType with
      | GoodTillCancel =>
        have hfI : NoFak (InsertBook s order) := by
          intro x hx
          have := (InsertBook_perm s order).mem_iff.1 hx
          rcases List.mem_cons.1 this with h | h
          · rw [h]; exact htype
          · exact hf x h
        rw [MatchOrders_fst]
        have hfL := MatchLoop_noFak ((InsertBook s order).bids.length +
          (InsertBook s order).asks.length + 1) (InsertBook s order) hfI
        rw [FakSweep_eq_of_noFak hfL]
        exact hfL
      | FillandKill =>
        have hcm : CanMatch s order.side order.price = true := by
          cases hc : CanMatch s order.side order.price
          · exact absurd ⟨htype, hc⟩ h2
          · rfl
        cases hside : order.side with
        | Buy =>
          rw [hside] at hcm
          simp only [CanMatch] at hcm
          cases hA : s.asks with
          | nil => rw [hA] at hcm; simp at hcm
          | cons al restA =>
            obtain ⟨ap, aq⟩ := al
            rw [hA] at hcm
            simp only [ge_iff_le, decide_eq_true_eq] at hcm
            have hIeq : InsertBook s order =
                { s with bids := AddToLevels (fun x y => decide (x > y)) s.bids order,
                         orders := s.orders ++
                           [(order.orderId, OrderEntry.ofOrder order)] } := by
              rw [InsertBook, hside]
            have htop : AddToLevels (fun x y => decide (x > y)) s.bids order =
                (order.price, [order]) :: s.bids := by
              refine AddToLevels_top _ _ _ ?_
              cases hB : s.bids with
              | nil => exact Or.inl rfl
              | cons bl restB =>
                obtain ⟨bp, bq⟩ := bl
                have hba : bp < ap := by
                  have := hw.uncrossed (bp, bq) (by rw [hB]; rfl) (ap, aq)
                    (by rw [hA]; rfl)
                  exact this
                refine Or.inr ⟨bp, bq, restB, rfl, by omega, ?_⟩
                simp only [gt_iff_lt, decide_eq_true_eq]
                omega
            have hIb : (InsertBook s order).bids = (order.price, [order]) :: s.bids := by
              rw [hIeq, htop]
            have hIa : (InsertBook s order).asks = s.asks := by
              rw [hIeq]
            obtain ⟨hc1, hc2⟩ := MatchLoop_fak_buy ((InsertBook s order).bids.length +
              (InsertBook s order).asks.length + 1) (InsertBook s order) order s.bids
              hIb
              (by
                rw [hIa]
                intro x hx
                refine hf x ?_
                rw [AllOrders_eq]
                exact List.mem_append_right _ hx)
              (by rw [hIa]; exact hw.asksSorted)
              (by rw [hIa]; exact head_key_lt hw.uncrossed)
            rw [MatchOrders_fst]
            rcases hc1 with heq | ⟨o', hbids, hid, htypeEq, hpr⟩
            · have hfL : NoFak (MatchLoop ((InsertBook s order).bids.length +
                  (InsertBook s order).asks.length + 1) (InsertBook s order)).1 := by
                refine noFak_of_sides ?_ hc2
                rw [heq]
                intro x hx
                refine hf x ?_
                rw [AllOrders_eq]
                exact List.mem_append_left _ hx
              rw [FakSweep_eq_of_noFak hfL]
              exact hfL
            · have hmidL : MidWF (MatchLoop ((InsertBook s order).bids.length +
                  (InsertBook s order).asks.length + 1) (InsertBook s order)).1 :=
                MatchLoop_midWF _ _ hwI
              have ho'fak : o'.orderType = OrderType.FillandKill := by
                rw [htypeEq, htype]
              have hf2 : NoFak (CancelOrder (MatchLoop ((InsertBook s order).bids.length +
                  (InsertBook s order).asks.length + 1) (InsertBook s order)).1
                  o'.orderId) := by
                intro x hx
                obtain ⟨hxs, hne⟩ := (CancelOrder_mem_iff hmidL o'.orderId x).1 hx
                rw [AllOrders_eq, hbids] at hxs
                simp only [SideOrders_cons, List.mem_append] at hxs
                rcases hxs with (h | h) | h
                · rcases List.mem_singleton.1 h with h'
                  rw [h'] at hne
                  exact absurd rfl hne
                · refine hf x ?_
                  rw [AllOrders_eq]
                  exact List.mem_append_left _ h
                · exact hc2 x h
              rw [FakSweep_eq_cancel_bid hbids ho'fak hf2]
              exact hf2
        | Sell =>
          rw [hside] at hcm
          simp only [CanMatch] at hcm
          cases hB : s.bids with
          | nil => rw [hB] at hcm; simp at hcm
          | cons bl restB =>
            obtain ⟨bp, bq⟩ := bl
            rw [hB] at hcm
            simp only [decide_eq_true_eq] at hcm
            have hIeq : InsertBook s order =
                { s with asks := AddToLevels (fun x y => decide (x < y)) s.asks order,
                         orders := s.orders ++
                           [(order.orderId, OrderEntry.ofOrder order)] } := by
              rw [InsertBook, hside]
            have htop : AddToLevels (fun x y => decide (x < y)) s.asks order =
                (order.price, [order]) :: s.asks := by
              refine AddToLevels_top _ _ _ ?_
              cases hA : s.asks with
              | nil => exact Or.inl rfl
              | cons al restA =>
                obtain ⟨ap, aq⟩ := al
                have hba : bp < ap := by
                  have := hw.uncrossed (bp, bq) (by rw [hB]; rfl) (ap, aq)
                    (by rw [hA]; rfl)
                  exact this
                refine Or.inr ⟨ap, aq, restA, rfl, by omega, ?_⟩
                simp only [decide_eq_true_eq]
                omega
            have hIa : (InsertBook s order).asks = (order.price, [order]) :: s.asks := by
              rw [hIeq, htop]
            have hIb : (InsertBook s order).bids = s.bids := by
              rw [hIeq]
            obtain ⟨hc1, hc2⟩ := MatchLoop_fak_sell ((InsertBook s order).bids.length +
              (InsertBook s order).asks.length + 1) (InsertBook s order) order s.asks
              hIa
              (by
                rw [hIb]
                intro x hx
                refine hf x ?_
                rw [AllOrders_eq]
                exact List.mem_append_left _ hx)
              (by rw [hIb]; exact hw.bidsSorted)
              (by rw [hIb]; exact head_key_lt hw.uncrossed)
            rw [MatchOrders_fst]
            rcases hc1 with heq | ⟨o', hasks, hid, htypeEq, hpr⟩
            · have hfL : NoFak (MatchLoop ((InsertBook s order).bids.length +
                  (InsertBook s order).asks.length + 1) (InsertBook s order)).1 := by
                refine noFak_of_sides hc2 ?_
                rw [heq]
                intro x hx
                refine hf x ?_
                rw [AllOrders_eq]
                exact List.mem_append_right _ hx
              rw [FakSweep_eq_of_noFak hfL]
              exact hfL
            · have hmidL : MidWF (MatchLoop ((InsertBook s order).bids.length +
                  (InsertBook s order).asks.length + 1) (InsertBook s order)).1 :=
                MatchLoop_midWF _ _ hwI
              have ho'fak : o'.orderType = OrderType.FillandKill := by
                rw [htypeEq, htype]
              have hf2 : NoFak (CancelOrder (MatchLoop ((InsertBook s order).bids.length +
                  (InsertBook s order).asks.length + 1) (InsertBook s order)).1
                  o'.orderId) := by
                intro x hx
                obtain ⟨hxs, hne⟩ := (CancelOrder_mem_iff hmidL o'.orderId x).1 hx
                rw [AllOrders_eq, hasks] at hxs
                simp only [SideOrders_cons, List.mem_append] at hxs
                rcases hxs with h | (h | h)
                · exact hc2 x h
                · rcases List.mem_singleton.1 h with h'
                  rw [h'] at hne
                  exact absurd rfl hne
                · refine hf x ?_
                  rw [AllOrders_eq]
                  exact List.mem_append_right _ h
              rw [FakSweep_eq_cancel_ask hasks ho'fak hc2]
              exact hf2

theorem CancelOrder_noFak {s : Orderbook} (hw : MidWF s) (hf : NoFak s) (id : Nat) :
    NoFak (CancelOrder s id) := by
  intro x hx
  exact hf x ((CancelOrder_mem_iff hw id x).1 hx).1

theorem MatchOrder_noFak {s : Orderbook} (hw : BookWF s) (hf : NoFak s) (m : OrderModify) :
    NoFak (MatchOrder s m).1 := by
  rw [MatchOrder]
  cases h : lookupEntry s.orders m.orderId with
  | none => exact hf
  | some entry =>
    exact AddOrder_noFak (CancelOrder_bookWF hw _) (CancelOrder_noFak hw.toMidWF hf _) _

/-- Between public operations no fill-and-kill order ever rests in the
book. -/
theorem reachable_noFak {s : Orderbook} (h : Reachable s) : NoFak s := by
  induction h with
  | empty => intro o ho; simp [AllOrders, SideOrders, emptyOrderbook] at ho
  | add t id sd p q h ih => exact AddOrder_noFak (reachable_bookWF h) ih _
  | cancel id h ih => exact CancelOrder_noFak (reachable_bookWF h).toMidWF ih id
  | modify m h ih => exact MatchOrder_noFak (reachable_bookWF h) ih m

theorem CancelOrder_pos {s : Orderbook} (hw : MidWF s) (hp : PosRem s) (id : Nat) :
    PosRem (CancelOrder s id) := by
  intro x hx
  exact hp x ((CancelOrder_mem_iff hw id x).1 hx).1

theorem AddOrder_pos {s : Orderbook} (hw : BookWF s) (hp : PosRem s) {order : Order}
    (hq : 0 < order.remainingQuantity) : PosRem (AddOrder s order).1 := by
  by_cases h1 : (lookupEntry s.orders order.orderId).isSome = true
  · rw [AddOrder_dup h1]; exact hp
  · by_cases h2 : order.orderType = OrderType.FillandKill ∧
        CanMatch s order.side order.price = false
    · rw [AddOrder_fakReject h1 h2.1 h2.2]; exact hp
    · rw [AddOrder_eq_insert h1 h2]
      have hfresh : lookupEntry s.orders order.orderId = none := by
        cases h : lookupEntry s.orders order.orderId with
        | none => rfl
        | some e => rw [h] at h1; simp at h1
      have hwI : MidWF (InsertBook s order) := InsertBook_midWF hw.toMidWF hfresh
      have hpI : PosRem (InsertBook s order) := by
        intro x hx
        rcases List.mem_cons.1 ((InsertBook_perm s order).mem_iff.1 hx) with h | h
        · rw [h]; exact hq
        · exact hp x h
      rw [MatchOrders_fst]
      have hpL := MatchLoop_pos ((InsertBook s order).bids.length +
        (InsertBook s order).asks.length + 1) (InsertBook s order) hpI
      intro x hx
      exact hpL x (FakSweep_subset (MatchLoop_midWF _ _ hwI) x hx)

theorem MatchOrder_pos {s : Orderbook} (hw : BookWF s) (hp : PosRem s) {m : OrderModify}
    (hq : 0 < m.quantity) : PosRem (MatchOrder s m).1 := by
  rw [MatchOrder]
  cases h : lookupEntry s.orders m.orderId with
  | none => exact hp
  | some entry =>
    exact AddOrder_pos (CancelOrder_bookWF hw _) (CancelOrder_pos hw.toMidWF hp _) hq

/-- When every submitted quantity is positive, every resting order keeps
a positive remaining quantity. -/
theorem reachablePos_pos {s : Orderbook} (h : ReachablePos s) : PosRem s := by
  induction h with
  | empty => intro o ho; simp [AllOrders, SideOrders, emptyOrderbook] at ho
  | add t id sd p hq h ih =>
    exact AddOrder_pos (reachable_bookWF (reachablePos_reachable h)) ih hq
  | cancel id h ih =>
    exact CancelOrder_pos (reachable_bookWF (reachablePos_reachable h)).toMidWF ih id
  | modify hq h ih =>
    exact MatchOrder_pos (reachable_bookWF (reachablePos_reachable h)) ih hq

/-- Trace predicate for the matching loop at single-fill granularity,
mirroring one iteration of the C++ inner `while`: both best levels are
selected only when `bidPrice >= askPrice`, the two head orders trade
exactly `min` of their current remaining quantities under their own ids
and prices, filled heads are popped and emptied levels erased.  A trade
list satisfying `BookFills` from a pair of sides is one the loop could
emit from those sides (the empty tail is always allowed, so this is a
per-trade safety characterization). -/
inductive BookFills : List (Int × List Order) → List (Int × List Order) →
    List Trade → Prop where
  | done (bids asks : List (Int × List Order)) : BookFills bids asks []
  | step (bp ap : Int) (bid ask : Order) (bq aq : List Order)
      (restB restA : List (Int × List Order)) (tr : List Trade)
      (hcross : ¬ bp < ap)
      (hcont : BookFills
        (if bid.remainingQuantity - min bid.remainingQuantity ask.remainingQuantity = 0
          then (if bq = [] then restB else (bp, bq) :: restB)
          else (bp, bid.setRem (bid.remainingQuantity -
            min bid.remainingQuantity ask.remainingQuantity) :: bq) :: restB)
        (if ask.remainingQuantity - min bid.remainingQuantity ask.remainingQuantity = 0
          then (if aq = [] then restA else (ap, aq) :: restA)
          else (ap, ask.setRem (ask.remainingQuantity -
            min bid.remainingQuantity ask.remainingQuantity) :: aq) :: restA)
        tr) :
      BookFills ((bp, bid :: bq) :: restB) ((ap, ask :: aq) :: restA)
        (⟨⟨bid.orderId, bid.price, min bid.remainingQuantity ask.remainingQuantity⟩,
          ⟨ask.orderId, ask.price, min bid.remainingQuantity ask.remainingQuantity⟩⟩ :: tr)

theorem ConsumeAsks_bookFills (asks : List Order) (bid : Order) (bids : List Order)
    (bp ap : Int) (restB restA : List (Int × List Order)) (tr2 : List Trade)
    (hcross : ¬ bp < ap)
    (hcont : BookFills
      ((ConsumeAsks bid asks).bidLeft.elim
        (if bids = [] then restB else (bp, bids) :: restB)
        (fun b' => (bp, b' :: bids) :: restB))
      (if (ConsumeAsks bid asks).askQueue = [] then restA
        else (ap, (ConsumeAsks bid asks).askQueue) :: restA)
      tr2) :
    BookFills ((bp, bid :: bids) :: restB)
      (if asks = [] then restA else (ap, asks) :: restA)
      ((ConsumeAsks bid asks).trades ++ tr2) := by
  induction asks generalizing bid tr2 with
  | nil =>
    simp only [ConsumeAsks, Option.elim, List.nil_append] at hcont ⊢
    simpa using hcont
  | cons ask asks ih =>
    by_cases h1 : bid.remainingQuantity ≤ ask.remainingQuantity
    · by_cases h2 : ask.remainingQuantity ≤ bid.remainingQuantity
      · simp only [ConsumeAsks, h1, h2, if_pos, Option.elim] at hcont ⊢
        have hb0 : bid.remainingQuantity -
            min bid.remainingQuantity ask.remainingQuantity = 0 := by omega
        have ha0 : ask.remainingQuantity -
            min bid.remainingQuantity ask.remainingQuantity = 0 := by omega
        refine BookFills.step bp ap bid ask bids asks restB restA tr2 hcross ?_
        simp only [hb0, ha0, if_pos]
        exact hcont
      · simp only [ConsumeAsks, h1, h2, if_pos, if_neg, not_false_iff,
          Option.elim] at hcont ⊢
        have hb0 : bid.remainingQuantity -
            min bid.remainingQuantity ask.remainingQuantity = 0 := by omega
        have ha0 : ask.remainingQuantity -
            min bid.remainingQuantity ask.remainingQuantity ≠ 0 := by omega
        refine BookFills.step bp ap bid ask bids asks restB restA tr2 hcross ?_
        simp only [hb0, if_pos, ha0, if_neg, not_false_iff]
        simp only [List.cons_ne_nil, if_neg, not_false_iff] at hcont
        exact hcont
    · simp only [ConsumeAsks, h1, if_neg, not_false_iff, Option.elim] at hcont ⊢
      have hb0 : bid.remainingQuantity -
          min bid.remainingQuantity ask.remainingQuantity ≠ 0 := by omega
      have ha0 : ask.remainingQuantity -
          min bid.remainingQuantity ask.remainingQuantity = 0 := by omega
      rw [List.cons_append]
      refine BookFills.step bp ap bid ask bids asks restB restA
        ((ConsumeAsks (bid.setRem (bid.remainingQuantity -
          min bid.remainingQuantity ask.remainingQuantity)) asks).trades ++ tr2)
        hcross ?_
      simp only [hb0, if_neg, not_false_iff, ha0, if_pos]
      exact ih (bid.setRem (bid.remainingQuantity -
        min bid.remainingQuantity ask.remainingQuantity)) tr2 hcont

theorem MatchLevel_bookFills (bq aq : List Order) (bp ap : Int)
    (restB restA : List (Int × List Order)) (tr2 : List Trade) (hcross : ¬ bp < ap)
    (hcont : BookFills
      (if (MatchLevel bq aq).bidQueue = [] then restB
        else (bp, (MatchLevel bq aq).bidQueue) :: restB)
      (if (MatchLevel bq aq).askQueue = [] then restA
        else (ap, (MatchLevel bq aq).askQueue) :: restA)
      tr2) :
    BookFills (if bq = [] then restB else (bp, bq) :: restB)
      (if aq = [] then restA else (ap, aq) :: restA)
      ((MatchLevel bq aq).trades ++ tr2) := by
  induction bq generalizing aq tr2 with
  | nil =>
    simp only [MatchLevel] at hcont ⊢
    simpa using hcont
  | cons bid bids ih =>
    rw [if_neg (by simp)]
    cases hsome : (ConsumeAsks bid aq).bidLeft with
    | some b' =>
      obtain ⟨n, hn, hrm, hcut, hleft⟩ := ConsumeAsks_spec bid aq
      obtain ⟨he, -, -⟩ := hleft b' hsome
      simp only [MatchLevel, hsome] at hcont ⊢
      refine ConsumeAsks_bookFills aq bid bids bp ap restB restA tr2 hcross ?_
      rw [hsome, he]
      simp only [Option.elim, if_pos]
      simpa [he] using hcont
    | none =>
      by_cases he : (ConsumeAsks bid aq).askQueue.isEmpty
      · simp only [MatchLevel, hsome, he, if_pos] at hcont ⊢
        refine ConsumeAsks_bookFills aq bid bids bp ap restB restA tr2 hcross ?_
        rw [hsome]
        rw [List.isEmpty_iff] at he
        rw [he]
        simp only [Option.elim, if_pos]
        simpa using hcont
      · simp only [MatchLevel, hsome, he, if_neg, Bool.false_eq_true,
          not_false_iff] at hcont ⊢
        rw [List.append_assoc]
        refine ConsumeAsks_bookFills aq bid bids bp ap restB restA
          ((MatchLevel bids (ConsumeAsks bid aq).askQueue).trades ++ tr2) hcross ?_
        rw [hsome]
        simp only [Option.elim]
        exact ih (ConsumeAsks bid aq).askQueue tr2 hcont

/-- Every trade list the loop emits is a `BookFills` trace of the state
it started from. -/
theorem MatchLoop_bookFills (fuel : Nat) (s : Orderbook) :
    BookFills s.bids s.asks (MatchLoop fuel s).2 := by
  induction fuel generalizing s with
  | zero => exact BookFills.done _ _
  | succ fuel ih =>
    cases hb : s.bids with
    | nil => rw [MatchLoop_exit_bids _ _ hb]; exact BookFills.done _ _
    | cons bl restB =>
      obtain ⟨bp, bq⟩ := bl
      cases ha : s.asks with
      | nil => rw [MatchLoop_exit_asks _ _ ha]; exact BookFills.done _ _
      | cons al restA =>
        obtain ⟨ap, aq⟩ := al
        by_cases hcross : bp < ap
        · rw [MatchLoop_exit_crossed _ _ hb ha hcross]
          exact BookFills.done _ _
        · by_cases hbq : bq = []
          · rw [MatchLoop_exit_degenerate _ _ hb ha (Or.inl hbq)]
            exact BookFills.done _ _
          · by_cases haq : aq = []
            · rw [MatchLoop_exit_degenerate _ _ hb ha (Or.inr haq)]
              exact BookFills.done _ _
            · rw [MatchLoop_step fuel s hb ha hcross hbq haq]
              have hstep := ih (StepBook s bp bq restB ap aq restA)
              have hsb : (StepBook s bp bq restB ap aq restA).bids =
                  (if (MatchLevel bq aq).bidQueue = [] then restB
                    else (bp, (MatchLevel bq aq).bidQueue) :: restB) := by
                simp [StepBook, List.isEmpty_iff]
              have hsa : (StepBook s bp bq restB ap aq restA).asks =
                  (if (MatchLevel bq aq).askQueue = [] then restA
                    else (ap, (MatchLevel bq aq).askQueue) :: restA) := by
                simp [StepBook, List.isEmpty_iff]
              rw [hsb, hsa] at hstep
              have := MatchLevel_bookFills bq aq bp ap restB restA
                (MatchLoop fuel (StepBook s bp bq restB ap aq restA)).2 hcross hstep
              rw [if_neg hbq, if_neg haq] at this
              exact this

/-- Every trade the loop emits pairs a resting bid and a resting ask of
the starting state, each record carrying that order's own id and price,
with equal quantities bounded by both remaining quantities. -/
theorem MatchLoop_trades (fuel : Nat) (s : Orderbook) :
    ∀ t ∈ (MatchLoop fuel s).2,
      t.askTrade.quantity = t.bidTrade.quantity ∧
      (∃ b ∈ SideOrders s.bids, t.bidTrade.orderId = b.orderId ∧
        t.bidTrade.price = b.price ∧ t.bidTrade.quantity ≤ b.remainingQuantity) ∧
      (∃ a ∈ SideOrders s.asks, t.askTrade.orderId = a.orderId ∧
        t.askTrade.price = a.price ∧ t.askTrade.quantity ≤ a.remainingQuantity) := by
  induction fuel generalizing s with
  | zero => intro t ht; simp [MatchLoop_zero] at ht
  | succ fuel ih =>
    cases hb : s.bids with
    | nil => rw [MatchLoop_exit_bids _ _ hb]; intro t ht; simp at ht
    | cons bl restB =>
      obtain ⟨bp, bq⟩ := bl
      cases ha : s.asks with
      | nil => rw [MatchLoop_exit_asks _ _ ha]; intro t ht; simp at ht
      | cons al restA =>
        obtain ⟨ap, aq⟩ := al
        by_cases hcross : bp < ap
        · rw [MatchLoop_exit_crossed _ _ hb ha hcross]; intro t ht; simp at ht
        · by_cases hbq : bq = []
          · rw [MatchLoop_exit_degenerate _ _ hb ha (Or.inl hbq)]; intro t ht
            simp at ht
          · by_cases haq : aq = []
            · rw [MatchLoop_exit_degenerate _ _ hb ha (Or.inr haq)]; intro t ht
              simp at ht
            · rw [MatchLoop_step fuel s hb ha hcross hbq haq]
              intro t ht
              simp only [List.mem_append] at ht
              rcases ht with ht | ht
              · obtain ⟨h1, ⟨b, hbmem, h2⟩, a, hamem, h3⟩ := MatchLevel_trades bq aq t ht
                refine ⟨h1, ⟨b, ?_, h2⟩, a, ?_, h3⟩
                · simp only [SideOrders_cons, List.mem_append]
                  exact Or.inl hbmem
                · simp only [SideOrders_cons, List.mem_append]
                  exact Or.inl hamem
              · obtain ⟨h1, ⟨b', hbmem, h2, h3, h4⟩, a', hamem, h5, h6, h7⟩ :=
                  ih (StepBook s bp bq restB ap aq restA) t ht
                obtain ⟨b, hbm, hbeq, hble⟩ := SideCut_descend
                  (StepBook_bids_cut s bp bq restB ap aq restA) b' hbmem
                obtain ⟨a, ham, haeq, hale⟩ := SideCut_descend
                  (StepBook_asks_cut s bp bq restB ap aq restA) a' hamem
                refine ⟨h1, ⟨b, hbm, by rw [h2, hbeq]; rfl,
                  by rw [h3, hbeq]; rfl, ?_⟩, a, ham,
                  by rw [h5, haeq]; rfl, by rw [h6, haeq]; rfl, ?_⟩
                · exact le_trans h4 hble
                · exact le_trans h7 hale

/-- Every trade the loop emits was selected from a bid level and an ask
level whose prices crossed, so the per-side recorded prices satisfy
`askPrice <= bidPrice`. -/
theorem MatchLoop_trades_crossed (fuel : Nat) (s : Orderbook) (hw : MidWF s) :
    ∀ t ∈ (MatchLoop fuel s).2, t.askTrade.price ≤ t.bidTrade.price := by
  induction fuel generalizing s with
  | zero => intro t ht; simp [MatchLoop_zero] at ht
  | succ fuel ih =>
    cases hb : s.bids with
    | nil => rw [MatchLoop_exit_bids _ _ hb]; intro t ht; simp at ht
    | cons bl restB =>
      obtain ⟨bp, bq⟩ := bl
      cases ha : s.asks with
      | nil => rw [MatchLoop_exit_asks _ _ ha]; intro t ht; simp at ht
      | cons al restA =>
        obtain ⟨ap, aq⟩ := al
        by_cases hcross : bp < ap
        · rw [MatchLoop_exit_crossed _ _ hb ha hcross]; intro t ht; simp at ht
        · by_cases hbq : bq = []
          · rw [MatchLoop_exit_degenerate _ _ hb ha (Or.inl hbq)]; intro t ht
            simp at ht
          · by_cases haq : aq = []
            · rw [MatchLoop_exit_degenerate _ _ hb ha (Or.inr haq)]; intro t ht
              simp at ht
            · rw [MatchLoop_step fuel s hb ha hcross hbq haq]
              intro t ht
              simp only [List.mem_append] at ht
              rcases ht with ht | ht
              · obtain ⟨-, ⟨b, hbmem, -, h2, -⟩, a, hamem, -, h5, -⟩ :=
                  MatchLevel_trades bq aq t ht
                have hbp : b.price = bp :=
                  ((hw.bidsLevels (bp, bq) (by rw [hb]; exact List.mem_cons_self _ _)).2
                    b hbmem).2
                have hap : a.price = ap :=
                  ((hw.asksLevels (ap, aq) (by rw [ha]; exact List.mem_cons_self _ _)).2
                    a hamem).2
                rw [h2, h5, hbp, hap]
                omega
              · exact ih (StepBook s bp bq restB ap aq restA)
                  (StepBook_midWF s hb ha hw) t ht

theorem CancelOrder_bids_of_sell {s : Orderbook} (hw : MidWF s) {o : Order}
    (ho : o ∈ SideOrders s.asks) : (CancelOrder s o.orderId).bids = s.bids := by
  have hall : o ∈ AllOrders s := by
    rw [AllOrders_eq]; exact List.mem_append_right _ ho
  have hside : o.side = Side.Sell := by
    simp only [SideOrders, List.mem_flatMap] at ho
    obtain ⟨l, hl, hol⟩ := ho
    exact ((hw.asksLevels l hl).2 o hol).1
  have hl := MidWF_lookup_of_mem hw hall
  simp [CancelOrder, hl, OrderEntry.ofOrder, hside]

theorem CancelOrder_asks_of_buy {s : Orderbook} (hw : MidWF s) {o : Order}
    (ho : o ∈ SideOrders s.bids) : (CancelOrder s o.orderId).asks = s.asks := by
  have hall : o ∈ AllOrders s := by
    rw [AllOrders_eq]; exact List.mem_append_left _ ho
  have hside : o.side = Side.Buy := by
    simp only [SideOrders, List.mem_flatMap] at ho
    obtain ⟨l, hl, hol⟩ := ho
    exact ((hw.bidsLevels l hl).2 o hol).1
  have hl := MidWF_lookup_of_mem hw hall
  simp [CancelOrder, hl, OrderEntry.ofOrder, hside]

/-- When every resting bid is good-till-cancelled, the sweep leaves the
bid side untouched (it can only cancel an ask-side head). -/
theorem FakSweep_bids {s : Orderbook} (hw : MidWF s)
    (hbids : ∀ x ∈ SideOrders s.bids, x.orderType = OrderType.GoodTillCancel) :
    (FakSweep s).bids = s.bids := by
  have hask2 : ∀ p ao arest restA, s.asks = (p, ao :: arest) :: restA →
      (CancelOrder s ao.orderId).bids = s.bids := by
    intro p ao arest restA ha
    refine CancelOrder_bids_of_sell hw ?_
    rw [ha]
    simp [SideOrders_cons]
  rw [FakSweep]
  cases hb : s.bids with
  | nil =>
    cases ha : s.asks with
    | nil => simp [ha, hb]
    | cons al restA =>
      obtain ⟨ap, aq⟩ := al
      cases aq with
      | nil => simp [ha, hb]
      | cons ao arest =>
        by_cases hft : ao.orderType = OrderType.FillandKill
        · have hc := hask2 ap ao arest restA ha
          rw [hb] at hc
          simp [ha, hft, hc, hb]
        · simp [ha, hft, hb]
  | cons bl restB =>
    obtain ⟨bp, bq⟩ := bl
    cases bq with
    | nil =>
      cases ha : s.asks with
      | nil => simp [ha, hb]
      | cons al restA =>
        obtain ⟨ap, aq⟩ := al
        cases aq with
        | nil => simp [ha, hb]
        | cons ao arest =>
          by_cases hft : ao.orderType = OrderType.FillandKill
          · have hc := hask2 ap ao arest restA ha
            rw [hb] at hc
            simp [ha, hft, hc, hb]
          · simp [ha, hft, hb]
    | cons bo brest =>
      have hbo : bo.orderType = OrderType.GoodTillCancel := by
        refine hbids bo ?_
        rw [hb]
        simp [SideOrders_cons]
      cases ha : s.asks with
      | nil => simp [hbo, ha, hb]
      | cons al restA =>
        obtain ⟨ap, aq⟩ := al
        cases aq with
        | nil => simp [hbo, ha, hb]
        | cons ao arest =>
          by_cases hft : ao.orderType = OrderType.FillandKill
          · have hc := hask2 ap ao arest restA ha
            rw [hb] at hc
            simp [hbo, ha, hft, hc, hb]
          · simp [hbo, ha, hft, hb]

/-- When every resting ask is good-till-cancelled, the sweep leaves the
ask side untouched (it can only cancel a bid-side head). -/
theorem FakSweep_asks {s : Orderbook} (hw : MidWF s)
    (hasks : ∀ x ∈ SideOrders s.asks, x.orderType = OrderType.GoodTillCancel) :
    (FakSweep s).asks = s.asks := by
  rw [FakSweep]
  cases hb : s.bids with
  | nil =>
    cases ha : s.asks with
    | nil => simp [ha, hb]
    | cons al restA =>
      obtain ⟨ap, aq⟩ := al
      cases aq with
      | nil => simp [ha, hb]
      | cons ao arest =>
        have hao : ao.orderType = OrderType.GoodTillCancel := by
          refine hasks ao ?_
          rw [ha]
          simp [SideOrders_cons]
        simp [ha, hao, hb]
  | cons bl restB =>
    obtain ⟨bp, bq⟩ := bl
    cases bq with
    | nil =>
      cases ha : s.asks with
      | nil => simp [ha, hb]
      | cons al restA =>
        obtain ⟨ap, aq⟩ := al
        cases aq with
        | nil => simp [ha, hb]
        | cons ao arest =>
          have hao : ao.orderType = OrderType.GoodTillCancel := by
            refine hasks ao ?_
            rw [ha]
            simp [SideOrders_cons]
          simp [ha, hao, hb]
    | cons bo brest =>
      by_cases hft : bo.orderType = OrderType.FillandKill
      · have hc : (CancelOrder s bo.orderId).asks = s.asks := by
          refine CancelOrder_asks_of_buy hw ?_
          rw [hb]
          simp [SideOrders_cons]
        cases ha : (CancelOrder s bo.orderId).asks with
        | nil => simp [hft, ha, hb, ← hc]
        | cons al restA =>
          obtain ⟨ap, aq⟩ := al
          cases aq with
          | nil => simp [hft, ha, hb, ← hc]
          | cons ao arest =>
            have hao : ao.orderType = OrderType.GoodTillCancel := by
              refine hasks ao ?_
              rw [← hc, ha]
              simp [SideOrders_cons]
            simp [hft, ha, hao, hb, ← hc]
      · cases ha : s.asks with
        | nil => simp [hft, ha, hb]
        | cons al restA =>
          obtain ⟨ap, aq⟩ := al
          cases aq with
          | nil => simp [hft, ha, hb]
          | cons ao arest =>
            have hao : ao.orderType = OrderType.GoodTillCancel := by
              refine hasks ao ?_
              rw [ha]
              simp [SideOrders_cons]
            simp [hft, ha, hao, hb]

theorem mem_key_unique {ls : List (Int × List Order)} (hnd : (ls.map Prod.fst).Nodup)
    {p : Int} {q q' : List Order} (h1 : (p, q) ∈ ls) (h2 : (p, q') ∈ ls) : q = q' := by
  have := List.inj_on_of_nodup_map hnd h1 h2 rfl
  exact congrArg Prod.snd this

theorem level_cut {ls ls' : List (Int × List Order)} (h : SideCut ls ls')
    (hnd : (ls.map Prod.fst).Nodup)
    {p : Int} {q q' : List Order} (hq : (p, q) ∈ ls) (hq' : (p, q') ∈ ls') :
    ∃ n, QueueCut q n q' := by
  rcases h.mem_rel (p, q') hq' with hm | ⟨q0, n, hm, hcut, -⟩
  · have heq : q = q' := mem_key_unique hnd hq hm
    exact ⟨0, heq ▸ QueueCut.refl q⟩
  · have heq : q = q0 := mem_key_unique hnd hq hm
    exact ⟨n, heq ▸ hcut⟩

/-- Head-first consumption is price-time priority at the queue level: if
a later-queued order `b` was touched (it no longer rests unchanged in
the surviving queue), every earlier-queued order `a` was fully filled
and removed. -/
theorem QueueCut_priority {q q' : List Order} {n : Nat} (h : QueueCut q n q')
    (hnd : (q.map Order.orderId).Nodup)
    {q1 q2 q3 : List Order} {a b : Order}
    (hq : q = q1 ++ a :: (q2 ++ b :: q3))
    (hbq : b ∉ q') :
    a.orderId ∉ q'.map Order.orderId := by
  intro hmem
  subst hq
  have hids := h.ids
  rw [hids] at hmem
  have hsplit : ((q1 ++ a :: (q2 ++ b :: q3)).map Order.orderId) =
      (q1.map Order.orderId) ++
        a.orderId :: ((q2 ++ b :: q3).map Order.orderId) := by
    simp
  rw [hsplit] at hmem hnd
  have hn : n ≤ q1.length := by
    by_contra hgt
    push_neg at hgt
    rw [List.drop_append_eq_append_drop,
      List.drop_eq_nil_of_le (by simpa using Nat.le_of_lt hgt),
      List.nil_append] at hmem
    obtain ⟨k, hk⟩ : ∃ k, n - (q1.map Order.orderId).length = k + 1 := by
      refine ⟨n - (q1.map Order.orderId).length - 1, ?_⟩
      simp only [List.length_map]
      omega
    rw [hk, List.drop_succ_cons] at hmem
    have hmem' : a.orderId ∈ (q2 ++ b :: q3).map Order.orderId :=
      List.mem_of_mem_drop hmem
    rw [List.nodup_append] at hnd
    have := (List.nodup_cons.1 hnd.2.1).1
    exact this hmem'
  have hdq : (q1 ++ a :: (q2 ++ b :: q3)).drop n =
      q1.drop n ++ a :: (q2 ++ b :: q3) := by
    rw [List.drop_append_eq_append_drop, Nat.sub_eq_zero_of_le hn, List.drop_zero]
  have hbmem : b ∈ q' := by
    rcases h with hdrop | ⟨c, rest, r, hd, hr0, hrle, hq'⟩
    · rw [hdrop, hdq]
      refine List.mem_append_right _ ?_
      simp
    · rw [hdq] at hd
      cases hD : q1.drop n with
      | nil =>
        rw [hD, List.nil_append] at hd
        rcases List.cons_eq_cons.1 hd with ⟨hc, hrest⟩
        rw [hq', ← hrest]
        refine List.mem_cons_of_mem _ ?_
        simp
      | cons x xs =>
        rw [hD, List.cons_append] at hd
        rcases List.cons_eq_cons.1 hd with ⟨hc, hrest⟩
        rw [hq', ← hrest]
        refine List.mem_cons_of_mem _ ?_
        refine List.mem_append_right _ ?_
        simp
  exact hbq hbmem

/-- A sell submission transforms the bid side by head-first consumption
only. -/
theorem AddOrder_bids_cut {s : Orderbook} (hw : BookWF s) (hf : NoFak s) {order : Order}
    (hside : order.side = Side.Sell) :
    SideCut s.bids (AddOrder s order).1.bids := by
  by_cases h1 : (lookupEntry s.orders order.orderId).isSome = true
  · rw [AddOrder_dup h1]; exact SideCut.refl_self _
  · by_cases h2 : order.orderType = OrderType.FillandKill ∧
        CanMatch s order.side order.price = false
    · rw [AddOrder_fakReject h1 h2.1 h2.2]; exact SideCut.refl_self _
    · rw [AddOrder_eq_insert h1 h2, MatchOrders_fst]
      have hfresh : lookupEntry s.orders order.orderId = none := by
        cases h : lookupEntry s.orders order.orderId with
        | none => rfl
        | some e => rw [h] at h1; simp at h1
      have hwI : MidWF (InsertBook s order) := InsertBook_midWF hw.toMidWF hfresh
      have hIb : (InsertBook s order).bids = s.bids := by
        rw [InsertBook, hside]
      have hcut := (MatchLoop_cut ((InsertBook s order).bids.length +
        (InsertBook s order).asks.length + 1) (InsertBook s order)).1
      nth_rewrite 1 [hIb] at hcut
      have hmidL := MatchLoop_midWF ((InsertBook s order).bids.length +
        (InsertBook s order).asks.length + 1) (InsertBook s order) hwI
      have hbidsGtc : ∀ x ∈ SideOrders (MatchLoop ((InsertBook s order).bids.length +
          (InsertBook s order).asks.length + 1) (InsertBook s order)).1.bids,
          x.orderType = OrderType.GoodTillCancel := by
        intro x hx
        obtain ⟨x0, hx0, heq, -⟩ := SideCut_descend hcut x hx
        have hx0' : x0.orderType = OrderType.GoodTillCancel := by
          refine hf x0 ?_
          rw [AllOrders_eq]
          exact List.mem_append_left _ hx0
        rw [heq, ← hx0']
        rfl
      rw [FakSweep_bids hmidL hbidsGtc]
      exact hcut

/-- A buy submission transforms the ask side by head-first consumption
only. -/
theorem AddOrder_asks_cut {s : Orderbook} (hw : BookWF s) (hf : NoFak s) {order : Order}
    (hside : order.side = Side.Buy) :
    SideCut s.asks (AddOrder s order).1.asks := by
  by_cases h1 : (lookupEntry s.orders order.orderId).isSome = true
  · rw [AddOrder_dup h1]; exact SideCut.refl_self _
  · by_cases h2 : order.orderType = OrderType.FillandKill ∧
        CanMatch s order.side order.price = false
    · rw [AddOrder_fakReject h1 h2.1 h2.2]; exact SideCut.refl_self _
    · rw [AddOrder_eq_insert h1 h2, MatchOrders_fst]
      have hfresh : lookupEntry s.orders order.orderId = none := by
        cases h : lookupEntry s.orders order.orderId with
        | none => rfl
        | some e => rw [h] at h1; simp at h1
      have hwI : MidWF (InsertBook s order) := InsertBook_midWF hw.toMidWF hfresh
      have hIa : (InsertBook s order).asks = s.asks := by
        rw [InsertBook, hside]
      have hcut := (MatchLoop_cut ((InsertBook s order).bids.length +
        (InsertBook s order).asks.length + 1) (InsertBook s order)).2
      nth_rewrite 1 [hIa] at hcut
      have hmidL := MatchLoop_midWF ((InsertBook s order).bids.length +
        (InsertBook s order).asks.length + 1) (InsertBook s order) hwI
      have hasksGtc : ∀ x ∈ SideOrders (MatchLoop ((InsertBook s order).bids.length +
          (InsertBook s order).asks.length + 1) (InsertBook s order)).1.asks,
          x.orderType = OrderType.GoodTillCancel := by
        intro x hx
        obtain ⟨x0, hx0, heq, -⟩ := SideCut_descend hcut x hx
        have hx0' : x0.orderType = OrderType.GoodTillCancel := by
          refine hf x0 ?_
          rw [AllOrders_eq]
          exact List.mem_append_right _ hx0
        rw [heq, ← hx0']
        rfl
      rw [FakSweep_asks hmidL hasksGtc]
      exact hcut

theorem MatchOrders_snd (s : Orderbook) :
    (MatchOrders s).2 =
      (MatchLoop (s.bids.length + s.asks.length + 1) s).2 := rfl

theorem LevelQuantity_aux (q : List Order) :
    ∀ acc : Nat, acc < 4294967296 →
      q.foldl (fun acc o => (acc + o.remainingQuantity) % 4294967296) acc =
        (acc + (q.map Order.remainingQuantity).sum) % 4294967296 := by
  induction q with
  | nil =>
    intro acc hacc
    simp [Nat.mod_eq_of_lt hacc]
  | cons o q ih =>
    intro acc hacc
    rw [List.foldl_cons, ih _ (Nat.mod_lt _ (by omega))]
    simp only [List.map_cons, List.sum_cons]
    rw [Nat.mod_add_mod]
    congr 1
    omega

/-- The `std::accumulate` in `Quantity` equals the true sum reduced
modulo `2^32`. -/
theorem LevelQuantity_eq (q : List Order) :
    LevelQuantity q = (q.map Order.remainingQuantity).sum % 4294967296 := by
  rw [LevelQuantity, LevelQuantity_aux q 0 (by omega)]
  simp

/-- On a well-formed book, a fresh fill-and-kill submission that can
match produces at least one trade. -/
theorem AddOrder_canMatch_trades {s : Orderbook} (hw : BookWF s) {order : Order}
    (hfresh : ¬ (lookupEntry s.orders order.orderId).isSome = true)
    (hcm : CanMatch s order.side order.price = true) :
    (AddOrder s order).2 ≠ [] := by
  have h2 : ¬ (order.orderType = OrderType.FillandKill ∧
      CanMatch s order.side order.price = false) := by
    rintro ⟨-, hc⟩
    rw [hcm] at hc
    exact absurd hc (by simp)
  rw [AddOrder_eq_insert hfresh h2, MatchOrders_snd]
  cases hside : order.side with
  | Buy =>
    rw [hside] at hcm
    simp only [CanMatch] at hcm
    cases hA : s.asks with
    | nil => rw [hA] at hcm; simp at hcm
    | cons al restA =>
      obtain ⟨ap, aq⟩ := al
      rw [hA] at hcm
      simp only [ge_iff_le, decide_eq_true_eq] at hcm
      have hIeq : InsertBook s order =
          { s with bids := AddToLevels (fun x y => decide (x > y)) s.bids order,
                   orders := s.orders ++
                     [(order.orderId, OrderEntry.ofOrder order)] } := by
        rw [InsertBook, hside]
      have htop : AddToLevels (fun x y => decide (x > y)) s.bids order =
          (order.price, [order]) :: s.bids := by
        refine AddToLevels_top _ _ _ ?_
        cases hB : s.bids with
        | nil => exact Or.inl rfl
        | cons bl restB =>
          obtain ⟨bp, bq⟩ := bl
          have hba : bp < ap := by
            have := hw.uncrossed (bp, bq) (by rw [hB]; rfl) (ap, aq)
              (by rw [hA]; rfl)
            exact this
          refine Or.inr ⟨bp, bq, restB, rfl, by omega, ?_⟩
          simp only [gt_iff_lt, decide_eq_true_eq]
          omega
      have hIb : (InsertBook s order).bids = (order.price, [order]) :: s.bids := by
        rw [hIeq, htop]
      have hIa : (InsertBook s order).asks = (ap, aq) :: restA := by
        rw [hIeq, hA]
      have haqne : aq ≠ [] :=
        (hw.asksLevels (ap, aq) (by rw [hA]; exact List.mem_cons_self _ _)).1
      cases haq : aq with
      | nil => exact absurd haq haqne
      | cons a arest =>
        rw [haq] at hIa
        obtain ⟨fuel, hfuel⟩ : ∃ fuel, (InsertBook s order).bids.length +
            (InsertBook s order).asks.length + 1 = fuel + 1 :=
          ⟨_, rfl⟩
        rw [hfuel]
        rw [MatchLoop_step fuel (InsertBook s order) hIb hIa (by omega) (by simp)
          (by simp)]
        simp only [ne_eq, List.append_eq_nil, not_and]
        intro hcontra
        exact absurd hcontra (MatchLevel_trades_ne order [] a arest)
  | Sell =>
    rw [hside] at hcm
    simp only [CanMatch] at hcm
    cases hB : s.bids with
    | nil => rw [hB] at hcm; simp at hcm
    | cons bl restB =>
      obtain ⟨bp, bq⟩ := bl
      rw [hB] at hcm
      simp only [decide_eq_true_eq] at hcm
      have hIeq : InsertBook s order =
          { s with asks := AddToLevels (fun x y => decide (x < y)) s.asks order,
                   orders := s.orders ++
                     [(order.orderId, OrderEntry.ofOrder order)] } := by
        rw [InsertBook, hside]
      have htop : AddToLevels (fun x y => decide (x < y)) s.asks order =
          (order.price, [order]) :: s.asks := by
        refine AddToLevels_top _ _ _ ?_
        cases hA : s.asks with
        | nil => exact Or.inl rfl
        | cons al restA =>
          obtain ⟨ap, aq⟩ := al
          have hba : bp < ap := by
            have := hw.uncrossed (bp, bq) (by rw [hB]; rfl) (ap, aq)
              (by rw [hA]; rfl)
            exact this
          refine Or.inr ⟨ap, aq, restA, rfl, by omega, ?_⟩
          simp only [decide_eq_true_eq]
          omega
      have hIa : (InsertBook s order).asks = (order.price, [order]) :: s.asks := by
        rw [hIeq, htop]
      have hIb : (InsertBook s order).bids = (bp, bq) :: restB := by
        rw [hIeq, hB]
      have hbqne : bq ≠ [] :=
        (hw.bidsLevels (bp, bq) (by rw [hB]; exact List.mem_cons_self _ _)).1
      cases hbq : bq with
      | nil => exact absurd hbq hbqne
      | cons b brest =>
        rw [hbq] at hIb
        obtain ⟨fuel, hfuel⟩ : ∃ fuel, (InsertBook s order).bids.length +
            (InsertBook s order).asks.length + 1 = fuel + 1 :=
          ⟨_, rfl⟩
        rw [hfuel]
        rw [MatchLoop_step fuel (InsertBook s order) hIb hIa (by omega) (by simp)
          (by simp)]
        simp only [ne_eq, List.append_eq_nil, not_and]
        intro hcontra
        exact absurd hcontra (MatchLevel_trades_ne b brest order [])

/-- C1: price-time priority of matching.  For two same-side orders `a`
and `b` resting at the same price with `a` queued before `b`, any
opposite-side submission that leaves the level with `b` touched (no
longer resting unchanged) has fully filled and removed `a`: insertion
appends at the tail of the level's queue and matching always consumes
the head first, so head-first consumption can only reach `b` through
`a`. -/
theorem claim_C1 {s : Orderbook} (hr : Reachable s) (order : Order)
    {p : Int} {q1 q2 q3 : List Order} {a b : Order} {q' : List Order}
    (hbq : b ∉ q')
    (hcase :
      (order.side = Side.Sell ∧ (p, q1 ++ a :: (q2 ++ b :: q3)) ∈ s.bids ∧
        (p, q') ∈ (AddOrder s order).1.bids) ∨
      (order.side = Side.Buy ∧ (p, q1 ++ a :: (q2 ++ b :: q3)) ∈ s.asks ∧
        (p, q') ∈ (AddOrder s order).1.asks)) :
    a.orderId ∉ q'.map Order.orderId := by
  have hw := reachable_bookWF hr
  have hf := reachable_noFak hr
  rcases hcase with ⟨hside, hlvl, hlvl'⟩ | ⟨hside, hlvl, hlvl'⟩
  · have hcut := AddOrder_bids_cut hw hf hside
    have hnd : (s.bids.map Prod.fst).Nodup := sorted_nodup_desc hw.bidsSorted
    obtain ⟨n, hqc⟩ := level_cut hcut hnd hlvl hlvl'
    have hqnd : ((q1 ++ a :: (q2 ++ b :: q3)).map Order.orderId).Nodup := by
      obtain ⟨u, v, huv⟩ := List.append_of_mem hlvl
      have hnodup := MidWF_bids_ids_nodup hw.toMidWF
      rw [huv] at hnodup
      simp only [SideOrders_append, SideOrders_cons, List.map_append] at hnodup
      rw [List.nodup_append] at hnodup
      obtain ⟨-, h2, -⟩ := hnodup
      rw [List.nodup_append] at h2
      rw [List.map_append]
      exact h2.1
    exact QueueCut_priority hqc hqnd rfl hbq
  · have hcut := AddOrder_asks_cut hw hf hside
    have hnd : (s.asks.map Prod.fst).Nodup := sorted_nodup_asc hw.asksSorted
    obtain ⟨n, hqc⟩ := level_cut hcut hnd hlvl hlvl'
    have hqnd : ((q1 ++ a :: (q2 ++ b :: q3)).map Order.orderId).Nodup := by
      obtain ⟨u, v, huv⟩ := List.append_of_mem hlvl
      have hnodup := MidWF_asks_ids_nodup hw.toMidWF
      rw [huv] at hnodup
      simp only [SideOrders_append, SideOrders_cons, List.map_append] at hnodup
      rw [List.nodup_append] at hnodup
      obtain ⟨-, h2, -⟩ := hnodup
      rw [List.nodup_append] at h2
      rw [List.map_append]
      exact h2.1
    exact QueueCut_priority hqc hqnd rfl hbq

theorem claim_C1_witness :
    Reachable ((AddOrder (AddOrder emptyOrderbook
        (mkOrder OrderType.GoodTillCancel 1 Side.Buy 100 5)).1
        (mkOrder OrderType.GoodTillCancel 2 Side.Buy 100 5)).1) ∧
    (mkOrder OrderType.GoodTillCancel 2 Side.Buy 100 5) ∉
      [(mkOrder OrderType.GoodTillCancel 2 Side.Buy 100 5).setRem 3] ∧
    (((100 : Int), [] ++ mkOrder OrderType.GoodTillCancel 1 Side.Buy 100 5 ::
        ([] ++ mkOrder OrderType.GoodTillCancel 2 Side.Buy 100 5 :: [])) ∈
      ((AddOrder (AddOrder emptyOrderbook
        (mkOrder OrderType.GoodTillCancel 1 Side.Buy 100 5)).1
        (mkOrder OrderType.GoodTillCancel 2 Side.Buy 100 5)).1).bids) ∧
    (((100 : Int), [(mkOrder OrderType.GoodTillCancel 2 Side.Buy 100 5).setRem 3]) ∈
      (AddOrder ((AddOrder (AddOrder emptyOrderbook
        (mkOrder OrderType.GoodTillCancel 1 Side.Buy 100 5)).1
        (mkOrder OrderType.GoodTillCancel 2 Side.Buy 100 5)).1)
        (mkOrder OrderType.GoodTillCancel 3 Side.Sell 100 7)).1.bids) ∧
    (mkOrder OrderType.GoodTillCancel 1 Side.Buy 100 5).orderId ∉
      [(mkOrder OrderType.GoodTillCancel 2 Side.Buy 100 5).setRem 3].map
        Order.orderId := by
  have hr : Reachable ((AddOrder (AddOrder emptyOrderbook
      (mkOrder OrderType.GoodTillCancel 1 Side.Buy 100 5)).1
      (mkOrder OrderType.GoodTillCancel 2 Side.Buy 100 5)).1) :=
    Reachable.add OrderType.GoodTillCancel 2 Side.Buy 100 5
      (Reachable.add OrderType.GoodTillCancel 1 Side.Buy 100 5 Reachable.empty)
  have hbq : (mkOrder OrderType.GoodTillCancel 2 Side.Buy 100 5) ∉
      [(mkOrder OrderType.GoodTillCancel 2 Side.Buy 100 5).setRem 3] := by decide
  have h1 : (((100 : Int), [] ++ mkOrder OrderType.GoodTillCancel 1 Side.Buy 100 5 ::
      ([] ++ mkOrder OrderType.GoodTillCancel 2 Side.Buy 100 5 :: [])) ∈
      ((AddOrder (AddOrder emptyOrderbook
        (mkOrder OrderType.GoodTillCancel 1 Side.Buy 100 5)).1
        (mkOrder OrderType.GoodTillCancel 2 Side.Buy 100 5)).1).bids) := by decide
  have h2 : (((100 : Int),
      [(mkOrder OrderType.GoodTillCancel 2 Side.Buy 100 5).setRem 3]) ∈
      (AddOrder ((AddOrder (AddOrder emptyOrderbook
        (mkOrder OrderType.GoodTillCancel 1 Side.Buy 100 5)).1
        (mkOrder OrderType.GoodTillCancel 2 Side.Buy 100 5)).1)
        (mkOrder OrderType.GoodTillCancel 3 Side.Sell 100 7)).1.bids) := by decide
  exact ⟨hr, hbq, h1, h2, claim_C1 hr
    (mkOrder OrderType.GoodTillCancel 3 Side.Sell 100 7) hbq
    (Or.inl ⟨rfl, h1, h2⟩)⟩

/-- C2: every trade emitted by submit is part of a `BookFills` trace of
the inserted book (each fill trades `min` of the two head orders'
current remaining quantities under crossed level prices), and each
trade's two records carry the same quantity, each side's own resting
order id and price, with the ask-side recorded price never above the
bid-side recorded price. -/
theorem claim_C2 {s : Orderbook} (hr : Reachable s) (order : Order) :
    BookFills (InsertBook s order).bids (InsertBook s order).asks
      (AddOrder s order).2 ∧
    ∀ t ∈ (AddOrder s order).2,
      t.askTrade.quantity = t.bidTrade.quantity ∧
      t.askTrade.price ≤ t.bidTrade.price ∧
      (∃ b ∈ SideOrders (InsertBook s order).bids, t.bidTrade.orderId = b.orderId ∧
        t.bidTrade.price = b.price ∧ t.bidTrade.quantity ≤ b.remainingQuantity) ∧
      (∃ a ∈ SideOrders (InsertBook s order).asks, t.askTrade.orderId = a.orderId ∧
        t.askTrade.price = a.price ∧ t.askTrade.quantity ≤ a.remainingQuantity) := by
  have hw := reachable_bookWF hr
  by_cases h1 : (lookupEntry s.orders order.orderId).isSome = true
  · rw [AddOrder_dup h1]
    exact ⟨BookFills.done _ _, by intro t ht; simp at ht⟩
  · by_cases h2 : order.orderType = OrderType.FillandKill ∧
        CanMatch s order.side order.price = false
    · rw [AddOrder_fakReject h1 h2.1 h2.2]
      exact ⟨BookFills.done _ _, by intro t ht; simp at ht⟩
    · rw [AddOrder_eq_insert h1 h2, MatchOrders_snd]
      have hfresh : lookupEntry s.orders order.orderId = none := by
        cases h : lookupEntry s.orders order.orderId with
        | none => rfl
        | some e => rw [h] at h1; simp at h1
      have hwI : MidWF (InsertBook s order) := InsertBook_midWF hw.toMidWF hfresh
      refine ⟨MatchLoop_bookFills _ _, ?_⟩
      intro t ht
      obtain ⟨hq, hb, ha⟩ := MatchLoop_trades _ _ t ht
      exact ⟨hq, MatchLoop_trades_crossed _ _ hwI t ht, hb, ha⟩

theorem claim_C2_witness :
    Reachable ((AddOrder emptyOrderbook
      (mkOrder OrderType.GoodTillCancel 1 Side.Sell 90 5)).1) ∧
    (BookFills
      (InsertBook ((AddOrder emptyOrderbook
        (mkOrder OrderType.GoodTillCancel 1 Side.Sell 90 5)).1)
        (mkOrder OrderType.GoodTillCancel 2 Side.Buy 100 3)).bids
      (InsertBook ((AddOrder emptyOrderbook
        (mkOrder OrderType.GoodTillCancel 1 Side.Sell 90 5)).1)
        (mkOrder OrderType.GoodTillCancel 2 Side.Buy 100 3)).asks
      (AddOrder ((AddOrder emptyOrderbook
        (mkOrder OrderType.GoodTillCancel 1 Side.Sell 90 5)).1)
        (mkOrder OrderType.GoodTillCancel 2 Side.Buy 100 3)).2 ∧
    ∀ t ∈ (AddOrder ((AddOrder emptyOrderbook
        (mkOrder OrderType.GoodTillCancel 1 Side.Sell 90 5)).1)
        (mkOrder OrderType.GoodTillCancel 2 Side.Buy 100 3)).2,
      t.askTrade.quantity = t.bidTrade.quantity ∧
      t.askTrade.price ≤ t.bidTrade.price ∧
      (∃ b ∈ SideOrders (InsertBook ((AddOrder emptyOrderbook
          (mkOrder OrderType.GoodTillCancel 1 Side.Sell 90 5)).1)
          (mkOrder OrderType.GoodTillCancel 2 Side.Buy 100 3)).bids,
        t.bidTrade.orderId = b.orderId ∧
        t.bidTrade.price = b.price ∧ t.bidTrade.quantity ≤ b.remainingQuantity) ∧
      (∃ a ∈ SideOrders (InsertBook ((AddOrder emptyOrderbook
          (mkOrder OrderType.GoodTillCancel 1 Side.Sell 90 5)).1)
          (mkOrder OrderType.GoodTillCancel 2 Side.Buy 100 3)).asks,
        t.askTrade.orderId = a.orderId ∧
        t.askTrade.price = a.price ∧ t.askTrade.quantity ≤ a.remainingQuantity)) := by
  have hr : Reachable ((AddOrder emptyOrderbook
      (mkOrder OrderType.GoodTillCancel 1 Side.Sell 90 5)).1) :=
    Reachable.add OrderType.GoodTillCancel 1 Side.Sell 90 5 Reachable.empty
  exact ⟨hr, claim_C2 hr (mkOrder OrderType.GoodTillCancel 2 Side.Buy 100 3)⟩

/-- C3 (amended): the snapshot lists, per side in storage (priority)
order, one entry per resting (necessarily non-empty) price level whose
quantity is the sum of the level's remaining quantities reduced modulo
`2^32` — the C++ accumulates in `Quantity = std::uint32_t`, so the spec
sentence holds only up to that wrap-around; the snapshot itself is a
pure function of the book and changes nothing. -/
theorem claim_C3 {s : Orderbook} (hr : Reachable s) :
    (GetOrderInfos s).1 = s.bids.map (fun l =>
      ⟨l.1, ((l.2.map Order.remainingQuantity).sum) % 4294967296⟩) ∧
    (GetOrderInfos s).2 = s.asks.map (fun l =>
      ⟨l.1, ((l.2.map Order.remainingQuantity).sum) % 4294967296⟩) ∧
    ((GetOrderInfos s).1.map LevelInfo.price).Pairwise (fun x y => y < x) ∧
    ((GetOrderInfos s).2.map LevelInfo.price).Pairwise (fun x y => x < y) ∧
    (∀ l ∈ s.bids, l.2 ≠ []) ∧ (∀ l ∈ s.asks, l.2 ≠ []) := by
  have hw := reachable_bookWF hr
  have hfun : (fun l : Int × List Order => (⟨l.1, LevelQuantity l.2⟩ : LevelInfo)) =
      fun l => ⟨l.1, ((l.2.map Order.remainingQuantity).sum) % 4294967296⟩ := by
    funext l
    rw [LevelQuantity_eq]
  refine ⟨?_, ?_, ?_, ?_, fun l hl => (hw.bidsLevels l hl).1,
    fun l hl => (hw.asksLevels l hl).1⟩
  · rw [GetOrderInfos]
    rw [hfun]
  · rw [GetOrderInfos]
    rw [hfun]
  · have : ((GetOrderInfos s).1.map LevelInfo.price) = s.bids.map Prod.fst := by
      rw [GetOrderInfos]
      simp [List.map_map]
    rw [this]
    exact hw.bidsSorted
  · have : ((GetOrderInfos s).2.map LevelInfo.price) = s.asks.map Prod.fst := by
      rw [GetOrderInfos]
      simp [List.map_map]
    rw [this]
    exact hw.asksSorted

theorem claim_C3_witness :
    Reachable ((AddOrder (AddOrder emptyOrderbook
      (mkOrder OrderType.GoodTillCancel 1 Side.Sell 100 2147483648)).1
      (mkOrder OrderType.GoodTillCancel 2 Side.Sell 100 2147483648)).1) ∧
    (GetOrderInfos ((AddOrder (AddOrder emptyOrderbook
      (mkOrder OrderType.GoodTillCancel 1 Side.Sell 100 2147483648)).1
      (mkOrder OrderType.GoodTillCancel 2 Side.Sell 100 2147483648)).1)).2 =
      ((AddOrder (AddOrder emptyOrderbook
      (mkOrder OrderType.GoodTillCancel 1 Side.Sell 100 2147483648)).1
      (mkOrder OrderType.GoodTillCancel 2 Side.Sell 100 2147483648)).1).asks.map
        (fun l => ⟨l.1, ((l.2.map Order.remainingQuantity).sum) % 4294967296⟩) := by
  have hr : Reachable ((AddOrder (AddOrder emptyOrderbook
      (mkOrder OrderType.GoodTillCancel 1 Side.Sell 100 2147483648)).1
      (mkOrder OrderType.GoodTillCancel 2 Side.Sell 100 2147483648)).1) :=
    Reachable.add OrderType.GoodTillCancel 2 Side.Sell 100 2147483648
      (Reachable.add OrderType.GoodTillCancel 1 Side.Sell 100 2147483648
        Reachable.empty)
  exact ⟨hr, (claim_C3 hr).2.1⟩

theorem claim_C3_counterexample :
    Reachable ((AddOrder (AddOrder emptyOrderbook
      (mkOrder OrderType.GoodTillCancel 1 Side.Sell 100 2147483648)).1
      (mkOrder OrderType.GoodTillCancel 2 Side.Sell 100 2147483648)).1) ∧
    (GetOrderInfos ((AddOrder (AddOrder emptyOrderbook
      (mkOrder OrderType.GoodTillCancel 1 Side.Sell 100 2147483648)).1
      (mkOrder OrderType.GoodTillCancel 2 Side.Sell 100 2147483648)).1)).2 =
      [⟨100, 0⟩] ∧
    ((SideOrders ((AddOrder (AddOrder emptyOrderbook
      (mkOrder OrderType.GoodTillCancel 1 Side.Sell 100 2147483648)).1
      (mkOrder OrderType.GoodTillCancel 2 Side.Sell 100 2147483648)).1).asks).map
        Order.remainingQuantity).sum = 4294967296 :=
  ⟨Reachable.add OrderType.GoodTillCancel 2 Side.Sell 100 2147483648
      (Reachable.add OrderType.GoodTillCancel 1 Side.Sell 100 2147483648
        Reachable.empty),
    rfl, rfl⟩

/-- C4 (amended): when every submitted or modified-to quantity is
positive, no order with remaining quantity zero rests in any queue, and
every index entry points at a live order with positive remaining
quantity.  (As stated the claim is false: a zero-quantity
good-till-cancel submission rests with remaining `0`, see the
counterexample.) -/
theorem claim_C4 {s : Orderbook} (hr : ReachablePos s) :
    (∀ o ∈ AllOrders s, 0 < o.remainingQuantity) ∧
    (∀ e ∈ s.orders, ∃ o ∈ AllOrders s, o.orderId = e.1 ∧
      0 < o.remainingQuantity) := by
  have hp := reachablePos_pos hr
  have hw := reachable_bookWF (reachablePos_reachable hr)
  refine ⟨hp, ?_⟩
  intro e he
  obtain ⟨o, ho, hid, -⟩ := hw.entries e he
  exact ⟨o, ho, hid, hp o ho⟩

theorem claim_C4_witness :
    ReachablePos ((AddOrder emptyOrderbook
      (mkOrder OrderType.GoodTillCancel 1 Side.Buy 100 5)).1) ∧
    ((∀ o ∈ AllOrders ((AddOrder emptyOrderbook
      (mkOrder OrderType.GoodTillCancel 1 Side.Buy 100 5)).1),
        0 < o.remainingQuantity) ∧
      (∀ e ∈ ((AddOrder emptyOrderbook
        (mkOrder OrderType.GoodTillCancel 1 Side.Buy 100 5)).1).orders,
        ∃ o ∈ AllOrders ((AddOrder emptyOrderbook
          (mkOrder OrderType.GoodTillCancel 1 Side.Buy 100 5)).1),
          o.orderId = e.1 ∧ 0 < o.remainingQuantity)) := by
  have h5 : (0 : Nat) < 5 := by decide
  have hr : ReachablePos ((AddOrder emptyOrderbook
      (mkOrder OrderType.GoodTillCancel 1 Side.Buy 100 5)).1) :=
    ReachablePos.add OrderType.GoodTillCancel 1 Side.Buy 100 h5 ReachablePos.empty
  exact ⟨hr, claim_C4 hr⟩

theorem claim_C4_counterexample :
    Reachable ((AddOrder emptyOrderbook
      (mkOrder OrderType.GoodTillCancel 1 Side.Buy 100 0)).1) ∧
    ∃ o ∈ AllOrders ((AddOrder emptyOrderbook
      (mkOrder OrderType.GoodTillCancel 1 Side.Buy 100 0)).1),
      o.remainingQuantity = 0 :=
  ⟨Reachable.add OrderType.GoodTillCancel 1 Side.Buy 100 0 Reachable.empty,
    by decide⟩

/-- C5: the `Order::Fill` error branch is unreachable from the public
operations: the guarded pipeline, in which every fill goes through the
fallible `Order.Fill` (returning `none` exactly when asked to fill more
than the remaining quantity), never fails and computes exactly the
unguarded submit and modify. -/
theorem claim_C5 (s : Orderbook) (order : Order) (m : OrderModify) :
    AddOrderE s order = some (AddOrder s order) ∧
    MatchOrderE s m = some (MatchOrder s m) :=
  ⟨AddOrderE_eq s order, MatchOrderE_eq s m⟩

/-- C6: submitting any order whose identifier is already live returns no
trades and leaves the whole book state (both sides, the index, and the
size) unchanged. -/
theorem claim_C6 {s : Orderbook} (hr : Reachable s) (order : Order)
    (hlive : order.orderId ∈ (AllOrders s).map Order.orderId) :
    AddOrder s order = (s, []) := by
  have hw := reachable_bookWF hr
  exact AddOrder_dup ((hw.keysIff _).2 hlive)

theorem claim_C6_witness :
    Reachable ((AddOrder emptyOrderbook
      (mkOrder OrderType.GoodTillCancel 1 Side.Buy 100 5)).1) ∧
    (mkOrder OrderType.GoodTillCancel 1 Side.Sell 90 2).orderId ∈
      (AllOrders ((AddOrder emptyOrderbook
        (mkOrder OrderType.GoodTillCancel 1 Side.Buy 100 5)).1)).map
        Order.orderId ∧
    AddOrder ((AddOrder emptyOrderbook
      (mkOrder OrderType.GoodTillCancel 1 Side.Buy 100 5)).1)
      (mkOrder OrderType.GoodTillCancel 1 Side.Sell 90 2) =
      ((AddOrder emptyOrderbook
        (mkOrder OrderType.GoodTillCancel 1 Side.Buy 100 5)).1, []) := by
  have hr : Reachable ((AddOrder emptyOrderbook
      (mkOrder OrderType.GoodTillCancel 1 Side.Buy 100 5)).1) :=
    Reachable.add OrderType.GoodTillCancel 1 Side.Buy 100 5 Reachable.empty
  have hlive : (mkOrder OrderType.GoodTillCancel 1 Side.Sell 90 2).orderId ∈
      (AllOrders ((AddOrder emptyOrderbook
        (mkOrder OrderType.GoodTillCancel 1 Side.Buy 100 5)).1)).map
        Order.orderId := by decide
  exact ⟨hr, hlive, claim_C6 hr (mkOrder OrderType.GoodTillCancel 1 Side.Sell 90 2) hlive⟩

/-- C7 (amended): a fill-and-kill submission carrying a fresh identifier
is rejected (state and trades unchanged) exactly when it cannot cross
(`CanMatch` is false).  For an identifier already live the equivalence
fails: the duplicate check fires first and rejects even a crossing
fill-and-kill order, see the counterexample. -/
theorem claim_C7 {s : Orderbook} (hr : Reachable s) (order : Order)
    (hfak : order.orderType = OrderType.FillandKill)
    (hfresh : order.orderId ∉ (AllOrders s).map Order.orderId) :
    AddOrder s order = (s, []) ↔ CanMatch s order.side order.price = false := by
  have hw := reachable_bookWF hr
  have hnot : ¬ (lookupEntry s.orders order.orderId).isSome = true :=
    fun h => hfresh ((hw.keysIff _).1 h)
  constructor
  · intro hrej
    cases hc : CanMatch s order.side order.price with
    | false => rfl
    | true =>
      have hne := AddOrder_canMatch_trades hw hnot hc
      rw [hrej] at hne
      exact absurd rfl hne
  · intro hc
    exact AddOrder_fakReject hnot hfak hc

theorem claim_C7_witness :
    Reachable ((AddOrder emptyOrderbook
      (mkOrder OrderType.GoodTillCancel 1 Side.Sell 90 5)).1) ∧
    (mkOrder OrderType.FillandKill 2 Side.Buy 100 3).orderType =
      OrderType.FillandKill ∧
    (mkOrder OrderType.FillandKill 2 Side.Buy 100 3).orderId ∉
      (AllOrders ((AddOrder emptyOrderbook
        (mkOrder OrderType.GoodTillCancel 1 Side.Sell 90 5)).1)).map
        Order.orderId ∧
    (AddOrder ((AddOrder emptyOrderbook
        (mkOrder OrderType.GoodTillCancel 1 Side.Sell 90 5)).1)
        (mkOrder OrderType.FillandKill 2 Side.Buy 100 3) =
        ((AddOrder emptyOrderbook
          (mkOrder OrderType.GoodTillCancel 1 Side.Sell 90 5)).1, []) ↔
      CanMatch ((AddOrder emptyOrderbook
        (mkOrder OrderType.GoodTillCancel 1 Side.Sell 90 5)).1)
        (mkOrder OrderType.FillandKill 2 Side.Buy 100 3).side
        (mkOrder OrderType.FillandKill 2 Side.Buy 100 3).price = false) := by
  have hr : Reachable ((AddOrder emptyOrderbook
      (mkOrder OrderType.GoodTillCancel 1 Side.Sell 90 5)).1) :=
    Reachable.add OrderType.GoodTillCancel 1 Side.Sell 90 5 Reachable.empty
  have hfresh : (mkOrder OrderType.FillandKill 2 Side.Buy 100 3).orderId ∉
      (AllOrders ((AddOrder emptyOrderbook
        (mkOrder OrderType.GoodTillCancel 1 Side.Sell 90 5)).1)).map
        Order.orderId := by decide
  exact ⟨hr, rfl, hfresh,
    claim_C7 hr (mkOrder OrderType.FillandKill 2 Side.Buy 100 3) rfl hfresh⟩

theorem claim_C7_counterexample :
    Reachable ((AddOrder (AddOrder emptyOrderbook
      (mkOrder OrderType.GoodTillCancel 1 Side.Buy 100 1)).1
      (mkOrder OrderType.GoodTillCancel 2 Side.Sell 200 1)).1) ∧
    (mkOrder OrderType.FillandKill 2 Side.Buy 250 1).orderType =
      OrderType.FillandKill ∧
    AddOrder ((AddOrder (AddOrder emptyOrderbook
      (mkOrder OrderType.GoodTillCancel 1 Side.Buy 100 1)).1
      (mkOrder OrderType.GoodTillCancel 2 Side.Sell 200 1)).1)
      (mkOrder OrderType.FillandKill 2 Side.Buy 250 1) =
      (((AddOrder (AddOrder emptyOrderbook
        (mkOrder OrderType.GoodTillCancel 1 Side.Buy 100 1)).1
        (mkOrder OrderType.GoodTillCancel 2 Side.Sell 200 1)).1), []) ∧
    CanMatch ((AddOrder (AddOrder emptyOrderbook
      (mkOrder OrderType.GoodTillCancel 1 Side.Buy 100 1)).1
      (mkOrder OrderType.GoodTillCancel 2 Side.Sell 200 1)).1)
      (mkOrder OrderType.FillandKill 2 Side.Buy 250 1).side
      (mkOrder OrderType.FillandKill 2 Side.Buy 250 1).price = true :=
  ⟨Reachable.add OrderType.GoodTillCancel 2 Side.Sell 200 1
      (Reachable.add OrderType.GoodTillCancel 1 Side.Buy 100 1 Reachable.empty),
    rfl, by decide, by decide⟩

/-- C8: cancel is total and idempotent — unknown ids are no-ops, a
second cancel of the same id does nothing — and a successful cancel
removes exactly the order with that id from its queue and its entry from
the index (every key except the cancelled one survives), never leaving
an empty price level behind. -/
theorem claim_C8 {s : Orderbook} (hr : Reachable s) (id : Nat) :
    (id ∉ (AllOrders s).map Order.orderId → CancelOrder s id = s) ∧
    CancelOrder (CancelOrder s id) id = CancelOrder s id ∧
    (∀ x, x ∈ AllOrders (CancelOrder s id) ↔ x ∈ AllOrders s ∧ x.orderId ≠ id) ∧
    (CancelOrder s id).orders = s.orders.filter (fun e => decide (e.1 ≠ id)) ∧
    (∀ l ∈ (CancelOrder s id).bids, l.2 ≠ []) ∧
    (∀ l ∈ (CancelOrder s id).asks, l.2 ≠ []) := by
  have hw := reachable_bookWF hr
  have hmid := hw.toMidWF
  have hmid' := CancelOrder_midWF hmid id
  refine ⟨?_, ?_, CancelOrder_mem_iff hmid id, ?_,
    fun l hl => (hmid'.bidsLevels l hl).1, fun l hl => (hmid'.asksLevels l hl).1⟩
  · intro hnm
    have hnone : lookupEntry s.orders id = none := by
      cases h : lookupEntry s.orders id with
      | none => rfl
      | some e =>
        have hsome : (lookupEntry s.orders id).isSome = true := by rw [h]; rfl
        exact absurd ((hw.keysIff id).1 hsome) hnm
    exact CancelOrder_eq_of_none hnone
  · have hnone : lookupEntry (CancelOrder s id).orders id = none := by
      cases h : lookupEntry (CancelOrder s id).orders id with
      | none => rfl
      | some e =>
        have hsome : (lookupEntry (CancelOrder s id).orders id).isSome = true := by
          rw [h]; rfl
        have hmem := (hmid'.keysIff id).1 hsome
        simp only [List.mem_map] at hmem
        obtain ⟨x, hx, hxid⟩ := hmem
        exact absurd hxid ((CancelOrder_mem_iff hmid id x).1 hx).2
    exact CancelOrder_eq_of_none hnone
  · cases h : lookupEntry s.orders id with
    | none =>
      rw [CancelOrder_eq_of_none h]
      symm
      rw [List.filter_eq_self]
      intro e he
      simp only [ne_eq, decide_eq_true_eq]
      intro hc
      obtain ⟨o, ho, hoid, -⟩ := hw.entries e he
      have hsome := (hw.keysIff id).2 (by
        simp only [List.mem_map]
        exact ⟨o, ho, hoid.trans hc⟩)
      rw [h] at hsome
      simp at hsome
    | some e => exact (CancelOrder_master hmid h).2.2.2.2

theorem claim_C8_witness :
    Reachable ((AddOrder emptyOrderbook
      (mkOrder OrderType.GoodTillCancel 1 Side.Buy 100 5)).1) ∧
    ((1 ∉ (AllOrders ((AddOrder emptyOrderbook
        (mkOrder OrderType.GoodTillCancel 1 Side.Buy 100 5)).1)).map
        Order.orderId →
      CancelOrder ((AddOrder emptyOrderbook
        (mkOrder OrderType.GoodTillCancel 1 Side.Buy 100 5)).1) 1 =
        (AddOrder emptyOrderbook
          (mkOrder OrderType.GoodTillCancel 1 Side.Buy 100 5)).1) ∧
      CancelOrder (CancelOrder ((AddOrder emptyOrderbook
        (mkOrder OrderType.GoodTillCancel 1 Side.Buy 100 5)).1) 1) 1 =
        CancelOrder ((AddOrder emptyOrderbook
          (mkOrder OrderType.GoodTillCancel 1 Side.Buy 100 5)).1) 1 ∧
      (∀ x, x ∈ AllOrders (CancelOrder ((AddOrder emptyOrderbook
          (mkOrder OrderType.GoodTillCancel 1 Side.Buy 100 5)).1) 1) ↔
        x ∈ AllOrders ((AddOrder emptyOrderbook
          (mkOrder OrderType.GoodTillCancel 1 Side.Buy 100 5)).1) ∧
          x.orderId ≠ 1) ∧
      (CancelOrder ((AddOrder emptyOrderbook
        (mkOrder OrderType.GoodTillCancel 1 Side.Buy 100 5)).1) 1).orders =
        ((AddOrder emptyOrderbook
          (mkOrder OrderType.GoodTillCancel 1 Side.Buy 100 5)).1).orders.filter
          (fun e => decide (e.1 ≠ 1)) ∧
      (∀ l ∈ (CancelOrder ((AddOrder emptyOrderbook
        (mkOrder OrderType.GoodTillCancel 1 Side.Buy 100 5)).1) 1).bids,
        l.2 ≠ []) ∧
      (∀ l ∈ (CancelOrder ((AddOrder emptyOrderbook
        (mkOrder OrderType.GoodTillCancel 1 Side.Buy 100 5)).1) 1).asks,
        l.2 ≠ [])) := by
  have hr : Reachable ((AddOrder emptyOrderbook
      (mkOrder OrderType.GoodTillCancel 1 Side.Buy 100 5)).1) :=
    Reachable.add OrderType.GoodTillCancel 1 Side.Buy 100 5 Reachable.empty
  exact ⟨hr, claim_C8 hr 1⟩

/-- C9: modification of a live order is exactly cancel-and-resubmit — a
fresh order with the same identifier, the cancelled order's
time-in-force and the supplied side, price and quantity is submitted
into the cancelled book — and modification of an unknown identifier is a
no-op returning no trades. -/
theorem claim_C9 {s : Orderbook} (hr : Reachable s) (m : OrderModify) :
    (∀ o ∈ AllOrders s, o.orderId = m.orderId →
      MatchOrder s m = AddOrder (CancelOrder s m.orderId)
        (mkOrder o.orderType m.orderId m.side m.price m.quantity)) ∧
    (m.orderId ∉ (AllOrders s).map Order.orderId → MatchOrder s m = (s, [])) := by
  have hw := reachable_bookWF hr
  constructor
  · intro o ho hid
    have hl : lookupEntry s.orders m.orderId = some (OrderEntry.ofOrder o) := by
      have hl0 := MidWF_lookup_of_mem hw.toMidWF ho
      rw [hid] at hl0
      exact hl0
    rw [MatchOrder, hl]
    rfl
  · intro hnm
    have hnone : lookupEntry s.orders m.orderId = none := by
      cases h : lookupEntry s.orders m.orderId with
      | none => rfl
      | some e =>
        have hsome : (lookupEntry s.orders m.orderId).isSome = true := by rw [h]; rfl
        exact absurd ((hw.keysIff m.orderId).1 hsome) hnm
    rw [MatchOrder, hnone]

theorem claim_C9_witness :
    Reachable ((AddOrder emptyOrderbook
      (mkOrder OrderType.GoodTillCancel 1 Side.Buy 100 5)).1) ∧
    mkOrder OrderType.GoodTillCancel 1 Side.Buy 100 5 ∈
      AllOrders ((AddOrder emptyOrderbook
        (mkOrder OrderType.GoodTillCancel 1 Side.Buy 100 5)).1) ∧
    (mkOrder OrderType.GoodTillCancel 1 Side.Buy 100 5).orderId =
      (OrderModify.mk 1 Side.Buy 105 7).orderId ∧
    MatchOrder ((AddOrder emptyOrderbook
      (mkOrder OrderType.GoodTillCancel 1 Side.Buy 100 5)).1)
      (OrderModify.mk 1 Side.Buy 105 7) =
      AddOrder (CancelOrder ((AddOrder emptyOrderbook
        (mkOrder OrderType.GoodTillCancel 1 Side.Buy 100 5)).1)
        (OrderModify.mk 1 Side.Buy 105 7).orderId)
        (mkOrder (mkOrder OrderType.GoodTillCancel 1 Side.Buy 100 5).orderType
          (OrderModify.mk 1 Side.Buy 105 7).orderId
          (OrderModify.mk 1 Side.Buy 105 7).side
          (OrderModify.mk 1 Side.Buy 105 7).price
          (OrderModify.mk 1 Side.Buy 105 7).quantity) := by
  have hr : Reachable ((AddOrder emptyOrderbook
      (mkOrder OrderType.GoodTillCancel 1 Side.Buy 100 5)).1) :=
    Reachable.add OrderType.GoodTillCancel 1 Side.Buy 100 5 Reachable.empty
  have hmem : mkOrder OrderType.GoodTillCancel 1 Side.Buy 100 5 ∈
      AllOrders ((AddOrder emptyOrderbook
        (mkOrder OrderType.GoodTillCancel 1 Side.Buy 100 5)).1) := by decide
  exact ⟨hr, hmem, rfl,
    (claim_C9 hr (OrderModify.mk 1 Side.Buy 105 7)).1
      (mkOrder OrderType.GoodTillCancel 1 Side.Buy 100 5) hmem rfl⟩

/-- C10: between public operations no fill-and-kill order rests anywhere
in the book: every fill-and-kill submission is rejected up front, fully
consumed, or swept, so every resting order of a reachable state is
good-till-cancelled. -/
theorem claim_C10 {s : Orderbook} (hr : Reachable s) :
    ∀ o ∈ AllOrders s, o.orderType = OrderType.GoodTillCancel :=
  reachable_noFak hr

theorem claim_C10_witness :
    Reachable ((AddOrder (AddOrder emptyOrderbook
      (mkOrder OrderType.GoodTillCancel 1 Side.Sell 100 1)).1
      (mkOrder OrderType.FillandKill 2 Side.Buy 100 5)).1) ∧
    ∀ o ∈ AllOrders ((AddOrder (AddOrder emptyOrderbook
      (mkOrder OrderType.GoodTillCancel 1 Side.Sell 100 1)).1
      (mkOrder OrderType.FillandKill 2 Side.Buy 100 5)).1),
      o.orderType = OrderType.GoodTillCancel := by
  have hr : Reachable ((AddOrder (AddOrder emptyOrderbook
      (mkOrder OrderType.GoodTillCancel 1 Side.Sell 100 1)).1
      (mkOrder OrderType.FillandKill 2 Side.Buy 100 5)).1) :=
    Reachable.add OrderType.FillandKill 2 Side.Buy 100 5
      (Reachable.add OrderType.GoodTillCancel 1 Side.Sell 100 1 Reachable.empty)
  exact ⟨hr, claim_C10 hr⟩
